import Mathlib

/-!
The host-record bridge of otto (`type_go_struct.go`)

A shallow embedding of the bridge that exposes a Go struct to scripts, of `checkComments` of
the parser tests, and, modelled from the specification, of the parts of the evaluator, of the
object model and of the host interface that the claims are about.

Conventions of the embedding

* A Go string is its byte sequence (`GoString`), a byte being a natural number below 256.
* `reflect` is a library: the record handed to the bridge is described by what `reflect`
  reports about it (`StructType`, `RecordValue`).  The description covers the direct fields
  of the struct type; an index path therefore has one element.
* `fieldIndexByName`, `convertCallParameter`, `toValue` and the ordinary object hooks
  (`objectPut`, `objectGetOwnProperty`) are declared in other files of the package.  The
  functions below take the first three as arguments and record a call of the last two as an
  outcome of their own.
* `getValue` calls itself through the alias table, so it is defined with a fuel argument.
-/

namespace Otto

/-! ## Strings, tags and types as `reflect` reports them -/

/-- A Go string: a sequence of bytes. -/
abbrev GoString := List Nat

/-- The bytes of a literal written with ASCII characters only. -/
def str (s : String) : GoString := s.toList.map Char.toNat

/-- The struct tag key read by the bridge. -/
def structTag : GoString := str "otto"

/-- The tag value that hides a field. -/
def structTagIgnoreValue : GoString := str "-"

/-- A parsed struct tag: the key/value pairs in the order they are written. -/
abbrev StructTag := List (GoString × GoString)

/-- The method `Get` of `reflect.StructTag`: the value of the first pair with that key, or the
empty string. -/
def StructTag.Get (tag : StructTag) (key : GoString) : GoString :=
  (tag.lookup key).getD []

/-- The static type of a field, as far as the bridge looks at it. -/
inductive GoType
  | bool
  | int
  | string
  | float64
  | named (name : GoString)
  deriving DecidableEq, Repr

/-- A host value stored in a field. -/
inductive GoVal
  | bool (b : Bool)
  | int (n : Int)
  | string (s : GoString)
  | other (id : Nat)
  deriving DecidableEq, Repr

/-- What `reflect.StructField` tells about a field of a struct type. -/
structure StructField where
  Name : GoString
  PkgPath : GoString
  Typ : GoType
  Tag : StructTag
  deriving DecidableEq, Repr

/-- The method `IsExported` of `reflect.StructField`: the package path is empty. -/
def StructField.IsExported (f : StructField) : Bool := f.PkgPath == []

/-- What `reflect.Method` tells about a method: its name, package path and signature. -/
structure Method where
  Name : GoString
  PkgPath : GoString
  Typ : GoString
  deriving DecidableEq, Repr

/-- The method `IsExported` of `reflect.Method`. -/
def Method.IsExported (m : Method) : Bool := m.PkgPath == []

/-- A struct type `T`: its fields in declaration order, the method set of `T` and the method
set of `*T`. -/
structure StructType where
  fields : List StructField
  methods : List Method
  ptrMethods : List Method
  deriving DecidableEq, Repr

/-- The `reflect.Value` held by a `goStructObject`: a struct, or a pointer to one. -/
structure RecordValue where
  /-- The kind of the value is `reflect.Pointer`. -/
  isPointer : Bool
  /-- For a value of kind struct: `CanAddr` holds (it is a field of an addressable struct). -/
  canAddr : Bool
  /-- The type of `reflect.Indirect(value)`. -/
  typ : StructType
  /-- The current values of the fields of `reflect.Indirect(value)`. -/
  fieldVals : List GoVal
  deriving DecidableEq, Repr

/-- A `reflect.Value` that `getValue` can return: the zero value, a field of the record, or a
method bound to the record. -/
inductive MemberValue
  | zero
  | field (i : Nat)
  | method (name : GoString)
  deriving DecidableEq, Repr

/-- The method `IsValid` of `reflect.Value`. -/
def MemberValue.IsValid : MemberValue → Bool
  | .zero => false
  | _ => true

/-- Why a call produced no result: a Go panic, or the fuel of the embedding ran out. -/
inductive Fault
  | panic
  | fuel
  deriving DecidableEq, Repr

deriving instance DecidableEq for Except

/-- The method `FieldByName` of a struct `reflect.Type`: the first field with that name and its
index. -/
def StructType.FieldByName (t : StructType) (name : GoString) : Option (Nat × StructField) :=
  match t.fields.findIdx? (fun f => f.Name == name) with
  | none => none
  | some i => (t.fields[i]?).map (fun f => (i, f))

/-- The method `FieldByName` of a struct `reflect.Value`. -/
def RecordValue.FieldByName (v : RecordValue) (name : GoString) : MemberValue :=
  match v.typ.FieldByName name with
  | none => .zero
  | some (i, _) => .field i

/-- The method `FieldByIndex` of a struct `reflect.Value`; it panics when the path does not
address a field. -/
def RecordValue.FieldByIndex (v : RecordValue) (index : List Nat) : Except Fault MemberValue :=
  match index with
  | [i] => if i < v.typ.fields.length then .ok (.field i) else .error .panic
  | _ => .error .panic

/-- The method set `reflect` lists for the value: exported methods of `*T` for a pointer, of `T`
for a struct. -/
def RecordValue.methodSet (v : RecordValue) : List Method :=
  (if v.isPointer then v.typ.ptrMethods else v.typ.methods).filter Method.IsExported

/-- The method `MethodByName` of `reflect.Value`. -/
def RecordValue.MethodByName (v : RecordValue) (name : GoString) : MemberValue :=
  match v.methodSet.find? (fun m => m.Name == name) with
  | none => .zero
  | some m => .method m.Name

/-- Reading the host value a member denotes; methods and the zero value carry none. -/
def RecordValue.read (v : RecordValue) : MemberValue → Option GoVal
  | .field i => v.fieldVals[i]?
  | _ => none

/-! ## `type_go_struct.go` -/

/-- The alias table `jsNames`: a Go map, the latest binding of a key first. -/
abbrev NameMap := List (GoString × GoString)

/-- The assignment `m[k] = v` on a Go map. -/
def NameMap.set (m : NameMap) (k v : GoString) : NameMap := (k, v) :: m

/-- The struct `goStructObject`. -/
structure goStructObject where
  value : RecordValue
  jsNames : NameMap
  deriving DecidableEq, Repr

/-- The function `strings.ToLower` on a string of one byte: an ASCII capital is lowered, another
ASCII byte is kept, and a byte that is no character by itself becomes U+FFFD. -/
def toLowerByte (b : Nat) : GoString :=
  if b < 128 then [if 65 ≤ b ∧ b ≤ 90 then b + 32 else b] else [239, 191, 189]

/-- The function `lowerFirst`: `strings.ToLower(s[:1]) + s[1:]`; slicing the empty string
panics. -/
def lowerFirst : GoString → Except Fault GoString
  | [] => .error .panic
  | b :: rest => .ok (toLowerByte b ++ rest)

/-- The function `validGoStructName`. -/
def validGoStructName (name : GoString) : Bool :=
  match name with
  | [] => false
  | b :: _ => decide (65 ≤ b) && decide (b ≤ 90)

/-- The first loop of `newGoStructObject`: custom and lowercase field names. -/
def mapFieldNames (lowercaseFields : Bool) : List StructField → NameMap → Except Fault NameMap
  | [], m => .ok m
  | fieldT :: rest, m =>
    if !fieldT.IsExported then mapFieldNames lowercaseFields rest m
    else if fieldT.Tag.Get structTag ≠ [] ∧ fieldT.Tag.Get structTag ≠ structTagIgnoreValue then
      mapFieldNames lowercaseFields rest (m.set (fieldT.Tag.Get structTag) fieldT.Name)
    else if lowercaseFields then
      match lowerFirst fieldT.Name with
      | .error e => .error e
      | .ok lowerName => mapFieldNames lowercaseFields rest (m.set lowerName fieldT.Name)
    else mapFieldNames lowercaseFields rest m

/-- The second loop of `newGoStructObject`: lowercase method names. -/
def mapMethodNames : List Method → NameMap → Except Fault NameMap
  | [], m => .ok m
  | methT :: rest, m =>
    if !methT.IsExported then mapMethodNames rest m
    else
      match lowerFirst methT.Name with
      | .error e => .error e
      | .ok lowerName => mapMethodNames rest (m.set lowerName methT.Name)

/-- The function `newGoStructObject`. -/
def newGoStructObject (value : RecordValue) (lowercaseFields : Bool) :
    Except Fault goStructObject :=
  match mapFieldNames lowercaseFields value.typ.fields [] with
  | .error e => .error e
  | .ok m =>
    if lowercaseFields then
      match mapMethodNames value.methodSet m with
      | .error e => .error e
      | .ok m2 => .ok { value := value, jsNames := m2 }
    else .ok { value := value, jsNames := m }

/-- The key that the first loop of `newGoStructObject` binds to the name of a field, if it binds
one: the custom tag, or else the lowercase alias. -/
def fieldAlias (lowercaseFields : Bool) (f : StructField) : Option GoString :=
  if !f.IsExported then none
  else if f.Tag.Get structTag ≠ [] ∧ f.Tag.Get structTag ≠ structTagIgnoreValue then
    some (f.Tag.Get structTag)
  else if lowercaseFields then
    match lowerFirst f.Name with
    | .ok lowerName => some lowerName
    | .error _ => none
  else none

/-- The key that the second loop of `newGoStructObject` binds to the name of a method. -/
def methodAlias (m : Method) : Option GoString :=
  if !m.IsExported then none
  else
    match lowerFirst m.Name with
    | .ok lowerName => some lowerName
    | .error _ => none

/-- The method `getValue` of `goStructObject`, with `fieldIndexByName` as an argument. -/
def getValue (fieldIndexByName : StructType → GoString → List Nat) (o : goStructObject) :
    Nat → GoString → Except Fault MemberValue
  | 0, _ => .error .fuel
  | fuel + 1, name =>
    if (fieldIndexByName o.value.typ name).length > 0 then
      o.value.FieldByIndex (fieldIndexByName o.value.typ name)
    else if validGoStructName name then
      if (match o.value.typ.FieldByName name with
          | some (_, ft) => ft.Tag.Get structTag == structTagIgnoreValue
          | none => false) then .ok .zero
      else if (o.value.FieldByName name).IsValid then .ok (o.value.FieldByName name)
      else if (o.value.MethodByName name).IsValid then .ok (o.value.MethodByName name)
      else .ok .zero
    else if name ≠ [] then
      match o.jsNames.lookup name with
      | none => .ok .zero
      | some mappedName => getValue fieldIndexByName o fuel mappedName
    else .ok .zero

/-- The method `Type` of the `reflect.Value` that `getValue` returned; it panics on the zero
value. -/
def RecordValue.typeOf (v : RecordValue) : MemberValue → Except Fault GoType
  | .field i =>
    match v.typ.fields[i]? with
    | some f => .ok f.Typ
    | none => .error .panic
  | .method _ => .ok (.named (str "func"))
  | .zero => .error .panic

/-- The method `Set` of `reflect.Value`: it panics unless the member is a field that is
addressable and was not reached through an unexported field. -/
def RecordValue.Set (v : RecordValue) (m : MemberValue) (x : GoVal) : Except Fault RecordValue :=
  match m with
  | .field i =>
    match v.typ.fields[i]? with
    | some f =>
      if (v.isPointer || v.canAddr) && f.IsExported then
        .ok { v with fieldVals := v.fieldVals.set i x }
      else .error .panic
    | none => .error .panic
  | _ => .error .panic

/-- What a call raised instead of returning: a script `TypeError` carrying the conversion
error, or a fault. -/
inductive Raised
  | typeError (err : GoString)
  | fault (f : Fault)
  deriving DecidableEq, Repr

/-- The method `setValue` of `goStructObject`: the returned flag, and the object afterwards. -/
def setValue {V : Type} (fieldIndexByName : StructType → GoString → List Nat)
    (convertCallParameter : V → GoType → Except GoString GoVal)
    (o : goStructObject) (fuel : Nat) (name : GoString) (value : V) :
    Except Raised (Bool × goStructObject) :=
  if (fieldIndexByName o.value.typ name).length = 0 then .ok (false, o)
  else
    match getValue fieldIndexByName o fuel name with
    | .error f => .error (.fault f)
    | .ok fieldValue =>
      match o.value.typeOf fieldValue with
      | .error f => .error (.fault f)
      | .ok t =>
        match convertCallParameter value t with
        | .error err => .error (.typeError err)
        | .ok converted =>
          match o.value.Set fieldValue converted with
          | .error f => .error (.fault f)
          | .ok v2 => .ok (true, { o with value := v2 })

/-- How `goStructPut` ends: the record took the value, the call raised, or the write was handed
to the ordinary `objectPut` with the same name, value and `throw` flag. -/
inductive PutOutcome (V : Type)
  | stored (o : goStructObject)
  | raised (r : Raised)
  | objectPut (name : GoString) (value : V) (throw : Bool)

/-- The function `goStructPut`. -/
def goStructPut {V : Type} (fieldIndexByName : StructType → GoString → List Nat)
    (convertCallParameter : V → GoType → Except GoString GoVal)
    (o : goStructObject) (fuel : Nat) (name : GoString) (value : V) (throw : Bool) :
    PutOutcome V :=
  match setValue fieldIndexByName convertCallParameter o fuel name value with
  | .error r => .raised r
  | .ok (true, o2) => .stored o2
  | .ok (false, _) => .objectPut name value throw

/-- What `goStructGetOwnProperty` returns: a property built from a member of the record, or
whatever the ordinary `objectGetOwnProperty` returns for the name. -/
inductive OwnProperty (V : Type)
  | property (value : V) (mode : Nat)
  | objectGetOwnProperty (name : GoString)

/-- The function `goStructGetOwnProperty`; the mode `0o110` is 72. -/
def goStructGetOwnProperty {V : Type} (fieldIndexByName : StructType → GoString → List Nat)
    (toValue : RecordValue → MemberValue → V)
    (o : goStructObject) (fuel : Nat) (name : GoString) : Except Fault (OwnProperty V) :=
  match getValue fieldIndexByName o fuel name with
  | .error f => .error f
  | .ok value =>
    if value.IsValid then .ok (.property (toValue o.value value) 72)
    else .ok (.objectGetOwnProperty name)

/-- The method of the interface `json.Marshaler`. -/
def jsonMarshalerMethod : Method :=
  { Name := str "MarshalJSON", PkgPath := [], Typ := str "func() ([]byte, error)" }

/-- The type assertion `x.(json.Marshaler)` on a value whose dynamic type has the given method
set: the method satisfying the interface, or `none` for a nil interface. -/
def assertMarshaler (methodSet : List Method) : Option Method :=
  methodSet.find? (fun m => m.Name == jsonMarshalerMethod.Name && m.Typ == jsonMarshalerMethod.Typ)

/-- The function `goStructMarshalJSON`: the asserted value is `reflect.Indirect(value)`, whose
dynamic type is the struct type itself. -/
def goStructMarshalJSON (o : goStructObject) : Option Method :=
  assertMarshaler o.value.typ.methods

/-- What `goStructPut` itself leaves as the host record: the record with the new field value when
it stored one, the record it was given otherwise (`objectPut` works on the ordinary property
table of the script object). -/
def PutOutcome.record {V : Type} (before : goStructObject) : PutOutcome V → goStructObject
  | .stored o => o
  | _ => before

/-! ## Completions and `try`/`finally` -/

/-- Modelled from the spec: the evaluator is in files that are not at hand; section 3.5 lists the
kinds of completion. -/
inductive Kind
  | Normal
  | Break
  | Continue
  | Return
  | Throw
  deriving DecidableEq, Repr

/-- Modelled from the spec: the completion record `{kind, value, target}` of section 3.5, the
value being absent for an empty completion and the target an optional label. -/
structure Completion (V : Type) where
  kind : Kind
  value : Option V
  target : Option GoString
  deriving DecidableEq, Repr

/-- Modelled from the spec: evaluating a statement in a state yields a completion and the state
afterwards; `none` stands for an evaluation that does not end. -/
abbrev Statement (S V : Type) := S → Option (Completion V × S)

/-- Modelled from the spec: the pending completion of a `try` statement before its `finally`
block runs (section 4.4): "Evaluate `try`. If throw, evaluate `catch` in a new environment
containing the caught value." -/
def pendingCompletion {S V : Type} (handler : Option (Option V → Statement S V))
    (c : Completion V) (s : S) : Option (Completion V × S) :=
  match c.kind, handler with
  | .Throw, some h => h c.value s
  | _, _ => some (c, s)

/-- Modelled from the spec: the `try` statement of section 4.4: "Then always evaluate `finally`.
The final completion is the `finally`'s completion if non-normal, otherwise the earlier pending
completion." -/
def tryStatement {S V : Type} (body : Statement S V)
    (handler : Option (Option V → Statement S V)) (finalizer : Option (Statement S V)) :
    Statement S V := fun s =>
  match body s with
  | none => none
  | some (c, s1) =>
    match pendingCompletion handler c s1 with
    | none => none
    | some (p, s2) =>
      match finalizer with
      | none => some (p, s2)
      | some b =>
        match b s2 with
        | none => none
        | some (f, s3) => if f.kind ≠ .Normal then some (f, s3) else some (p, s3)

/-- Modelled from the spec: an expression statement or assignment, which updates the state and
completes normally. -/
def exec {S V : Type} (f : S → S) : Statement S V :=
  fun s => some ({ kind := .Normal, value := none, target := none }, f s)

/-- Modelled from the spec: a statement that completes abruptly with the given kind and value and
no label. -/
def abrupt {S V : Type} (k : Kind) (v : Option V) : Statement S V :=
  fun s => some ({ kind := k, value := v, target := none }, s)

/-- Modelled from the spec: statements in sequence; a non-normal completion ends the sequence. -/
def andThen {S V : Type} (a b : Statement S V) : Statement S V := fun s =>
  match a s with
  | none => none
  | some (c, s1) => if c.kind = .Normal then b s1 else some (c, s1)

/-- Modelled from the spec: `if (cond) a`. -/
def ifThen {S V : Type} (cond : S → Bool) (a : Statement S V) : Statement S V := fun s =>
  if cond s then a s else some ({ kind := .Normal, value := none, target := none }, s)

/-- Modelled from the spec: an unlabelled `do body while (cond)` (section 4.4, labelled `break`
and `continue`): an unlabelled `break` leaves the loop, an unlabelled `continue` goes on with the
test, any other non-normal completion leaves the loop as it is. -/
def doWhile {S V : Type} (body : Statement S V) (cond : S → Bool) : Nat → Statement S V
  | 0 => fun _ => none
  | fuel + 1 => fun s =>
    match body s with
    | none => none
    | some (c, s1) =>
      if c.kind = .Break ∧ c.target = none then
        some ({ kind := .Normal, value := none, target := none }, s1)
      else if c.kind = .Normal ∨ (c.kind = .Continue ∧ c.target = none) then
        if cond s1 then doWhile body cond fuel s1
        else some ({ kind := .Normal, value := none, target := none }, s1)
      else some (c, s1)

/-! ## Records and programs used as examples -/

/-- A stand-in for `fieldIndexByName` that resolves no name. -/
def noIndex : StructType → GoString → List Nat := fun _ _ => []

/-- A stand-in for `fieldIndexByName` that resolves the name `Val` to the first field. -/
def indexOfVal : StructType → GoString → List Nat :=
  fun _ name => if name = str "Val" then [0] else []

/-- A stand-in for `fieldIndexByName` that resolves the Go name of a field when the name passes
`validGoStructName`, the name test of the package: the index of the first field of that name. -/
def indexByGoName : StructType → GoString → List Nat :=
  fun t name =>
    if validGoStructName name then
      match t.fields.findIdx? (fun f => f.Name == name) with
      | some i => [i]
      | none => []
    else []

/-- A stand-in for `fieldIndexByName` that resolves the Go name of a field like `indexByGoName`
does, but passes over the fields with the tag `otto:"-"`. -/
def indexSkippingHidden : StructType → GoString → List Nat :=
  fun t name =>
    if validGoStructName name then
      match t.fields.findIdx? (fun f =>
        f.Name == name && !(f.Tag.Get structTag == structTagIgnoreValue)) with
      | some i => [i]
      | none => []
    else []

/-- The field `Val int`. -/
def valField : StructField := { Name := str "Val", PkgPath := [], Typ := .int, Tag := [] }

/-- The type `struct{ Val int }`. -/
def valType : StructType := { fields := [valField], methods := [], ptrMethods := [] }

/-- The record `struct{ Val int }{Val: 10}` of `TestOttoCall`, passed by value. -/
def valRecord : RecordValue :=
  { isPointer := false, canAddr := false, typ := valType, fieldVals := [.int 10] }

/-- The same record passed as a pointer. -/
def valPointer : RecordValue :=
  { isPointer := true, canAddr := false, typ := valType, fieldVals := [.int 10] }

/-- The field `Éa int`: its name starts with the two bytes of `É`, an upper-case letter, so the
field is exported. -/
def unicodeField : StructField :=
  { Name := [195, 137, 97], PkgPath := [], Typ := .int, Tag := [] }

/-- The record `struct{ Éa int }{10}`. -/
def unicodeRecord : RecordValue :=
  { isPointer := false, canAddr := false,
    typ := { fields := [unicodeField], methods := [], ptrMethods := [] },
    fieldVals := [.int 10] }

/-- The field `secret int` of a package `main`: it is not exported. -/
def secretField : StructField :=
  { Name := str "secret", PkgPath := str "main", Typ := .int, Tag := [] }

/-- The record `struct{ secret int; Val int }{1, 2}`. -/
def secretRecord : RecordValue :=
  { isPointer := false, canAddr := false,
    typ := { fields := [secretField, valField], methods := [], ptrMethods := [] },
    fieldVals := [.int 1, .int 2] }

/-- The field `Hidden int` with the tag `otto:"-"`. -/
def hiddenField : StructField :=
  { Name := str "Hidden", PkgPath := [], Typ := .int, Tag := [(structTag, structTagIgnoreValue)] }

/-- The record `struct{ Hidden int; Val int }{1, 2}` whose first field has the tag `otto:"-"`. -/
def hiddenRecord : RecordValue :=
  { isPointer := false, canAddr := false,
    typ := { fields := [hiddenField, valField], methods := [], ptrMethods := [] },
    fieldVals := [.int 1, .int 2] }

/-- The field `Shown int` with the tag `otto:"hidden"`. -/
def shownField : StructField :=
  { Name := str "Shown", PkgPath := [], Typ := .int, Tag := [(structTag, str "hidden")] }

/-- The record `struct{ Hidden int; Shown int }{1, 2}` with the tags `otto:"-"` and
`otto:"hidden"`. -/
def shadowedRecord : RecordValue :=
  { isPointer := false, canAddr := false,
    typ := { fields := [hiddenField, shownField], methods := [], ptrMethods := [] },
    fieldVals := [.int 1, .int 2] }

/-- The field `Val int` with the tag `otto:"Value"`. -/
def upperTagField : StructField :=
  { Name := str "Val", PkgPath := [], Typ := .int, Tag := [(structTag, str "Value")] }

/-- The record `struct{ Val int }{10}` whose field has the tag `otto:"Value"`. -/
def upperTagRecord : RecordValue :=
  { isPointer := false, canAddr := false,
    typ := { fields := [upperTagField], methods := [], ptrMethods := [] },
    fieldVals := [.int 10] }

/-- The field `Val int` with the tag `otto:"value"`. -/
def lowerTagField : StructField :=
  { Name := str "Val", PkgPath := [], Typ := .int, Tag := [(structTag, str "value")] }

/-- The record `struct{ Val int }{10}` whose field has the tag `otto:"value"`. -/
def lowerTagRecord : RecordValue :=
  { isPointer := false, canAddr := false,
    typ := { fields := [lowerTagField], methods := [], ptrMethods := [] },
    fieldVals := [.int 10] }

/-- A pointer to the record `struct{ Val int }{10}` whose field has the tag `otto:"value"`. -/
def lowerTagPointer : RecordValue :=
  { isPointer := true, canAddr := false,
    typ := { fields := [lowerTagField], methods := [], ptrMethods := [] },
    fieldVals := [.int 10] }

/-- A method `Get() int`. -/
def getMethod : Method := { Name := str "Get", PkgPath := [], Typ := str "func() int" }

/-- A pointer to a `struct{ Val int }` whose type declares `Get` with a value receiver. -/
def methodPointer : RecordValue :=
  { isPointer := true, canAddr := false,
    typ := { fields := [valField], methods := [getMethod], ptrMethods := [getMethod] },
    fieldVals := [.int 10] }

/-- A pointer to a `struct{ Val int }` whose type declares `MarshalJSON` with a pointer
receiver. -/
def pointerMarshalRecord : RecordValue :=
  { isPointer := true, canAddr := false,
    typ := { fields := [valField], methods := [], ptrMethods := [jsonMarshalerMethod] },
    fieldVals := [.int 10] }

/-- A stand-in for `convertCallParameter` on integer script values: an integer converts to the
type `int` and to nothing else. -/
def convertInt : Int → GoType → Except GoString GoVal :=
  fun n t => if t = .int then .ok (.int n) else .error (str "can't convert")

/-- The variables of the programs of `TestTryFinally`. -/
structure Vars where
  abc : Int
  dfn : Int
  ghi : Int
  flag : Bool
  deriving DecidableEq, Repr

/-- The second program of `TestTryFinally`:
`do { def += 1; if (def > 100) break; try { continue } finally { abc = true } }
while (!abc && def < 10)`, with `flag` for the boolean `abc` and `dfn` for `def`. -/
def continueProgram : Nat → Statement Vars GoString :=
  doWhile
    (andThen (exec (fun s => { s with dfn := s.dfn + 1 }))
      (andThen (ifThen (fun s => decide (s.dfn > 100)) (abrupt .Break none))
        (tryStatement (abrupt .Continue none) none
          (some (exec (fun s => { s with flag := true }))))))
    (fun s => !s.flag && decide (s.dfn < 10))

/-- The third program of `TestTryFinally`:
`do { def += 1; if (def > 100) break; try { throw 0 } catch (jkl) { continue }
finally { abc = true; ghi = 11 } ghi -= 1 } while (!abc && def < 10)`. -/
def catchProgram : Nat → Statement Vars GoString :=
  doWhile
    (andThen (exec (fun s => { s with dfn := s.dfn + 1 }))
      (andThen (ifThen (fun s => decide (s.dfn > 100)) (abrupt .Break none))
        (andThen
          (tryStatement (abrupt .Throw (some (str "0")))
            (some (fun _ => abrupt .Continue none))
            (some (andThen (exec (fun s => { s with flag := true }))
              (exec (fun s => { s with ghi := 11 })))))
          (exec (fun s => { s with ghi := s.ghi - 1 })))))
    (fun s => !s.flag && decide (s.dfn < 10))

/-- The block `{ abc += 1; throw "ghi" }` of the fourth program of `TestTryFinally`. -/
def throwingBlock : Statement Vars GoString :=
  andThen (exec (fun s => { s with abc := s.abc + 1 })) (abrupt .Throw (some (str "ghi")))

/-- The block `{ def = 1; continue }` of the fourth program of `TestTryFinally`. -/
def continuingBlock : Statement Vars GoString :=
  andThen (exec (fun s => { s with dfn := 1 })) (abrupt .Continue none)

/-- The fourth program of `TestTryFinally`:
`do { try { abc += 1; throw "ghi" } finally { def = 1; continue } def -= 1 } while (abc < 2)`. -/
def discardProgram : Nat → Statement Vars GoString :=
  doWhile
    (andThen (tryStatement throwingBlock none (some continuingBlock))
      (exec (fun s => { s with dfn := s.dfn - 1 })))
    (fun s => decide (s.abc < 2))

/-! ## Script values and equality -/

/-- Modelled from the spec: an object reference (section 3.1, "Object references are shared;
identity is pointer identity"): the VM whose object graph holds the object, and the place of the
object in it. -/
structure Ref where
  vm : Nat
  index : Nat
  deriving DecidableEq, Repr

/-- Modelled from the spec: a number (section 3.1, "`Number` distinguishes `+0`, `-0`, `NaN`,
and ±∞ per IEEE-754"), every other number being told by its rational value. -/
inductive Number
  | NaN
  | Infinity (negative : Bool)
  | Zero (negative : Bool)
  | Finite (q : ℚ)
  deriving DecidableEq, Repr

/-- Modelled from the spec: the value of section 3.1, "A discriminated sum with variants
`Undefined`, `Null`, `Boolean(bool)`, `Number(f64)`, `String(text)`, and `Object(oref)`". -/
inductive Value
  | Undefined
  | Null
  | Boolean (b : Bool)
  | Number (n : Number)
  | String (s : GoString)
  | Object (ref : Ref)
  deriving DecidableEq, Repr

/-- The place of a number on the extended number line, `none` for `NaN`: the two zeros are the
same place. -/
def Number.place : Number → Option (Bool ⊕ ℚ)
  | .NaN => none
  | .Infinity negative => some (.inl negative)
  | .Zero _ => some (.inr 0)
  | .Finite q => some (.inr q)

/-- Modelled from the spec: equality of numbers, "`+0 === -0` is true; `NaN` never equals
itself" (section 4.1). -/
def Number.equals (x y : Number) : Bool :=
  match x.place, y.place with
  | some a, some b => decide (a = b)
  | _, _ => false

/-- Modelled from the spec: `===` of section 4.1, "compares without coercion". -/
def strictEquals : Value → Value → Bool
  | .Undefined, .Undefined => true
  | .Null, .Null => true
  | .Boolean a, .Boolean b => a == b
  | .Number x, .Number y => x.equals y
  | .String a, .String b => a == b
  | .Object a, .Object b => a == b
  | _, _ => false

/-- Modelled from the spec: `ToNumber` of a boolean. -/
def booleanToNumber (b : Bool) : Number := if b then .Finite 1 else .Zero false

/-- Modelled from the spec: the first step of `==` on a boolean operand, "boolean coerces to
number" (section 4.1). -/
def coerceBoolean : Value → Value
  | .Boolean b => .Number (booleanToNumber b)
  | v => v

/-- Modelled from the spec: `==` of section 4.1 on operands that are not both of one kind of
object and primitive: "string↔number coerce; boolean coerces to number; ... `null == undefined`
is true; `NaN` not equal to itself". `ToNumber` on strings is an argument. -/
def looseEqualsPrimitive (ToNumber : GoString → Number) (a b : Value) : Bool :=
  match coerceBoolean a, coerceBoolean b with
  | .Undefined, .Undefined => true
  | .Null, .Null => true
  | .Undefined, .Null => true
  | .Null, .Undefined => true
  | .Number x, .Number y => x.equals y
  | .String x, .String y => x == y
  | .Number x, .String s => x.equals (ToNumber s)
  | .String s, .Number y => (ToNumber s).equals y
  | .Object x, .Object y => x == y
  | _, _ => false

/-- Modelled from the spec: `==` of section 4.1; "object↔primitive invokes ToPrimitive", which is
an argument and may throw. -/
def looseEquals (ToNumber : GoString → Number) (ToPrimitive : Ref → Except Value Value)
    (a b : Value) : Except Value Bool :=
  match a, b with
  | .Object x, .Object y => .ok (x == y)
  | .Object _, .Undefined => .ok false
  | .Object _, .Null => .ok false
  | .Undefined, .Object _ => .ok false
  | .Null, .Object _ => .ok false
  | .Object x, b =>
    match ToPrimitive x with
    | .error e => .error e
    | .ok p => .ok (looseEqualsPrimitive ToNumber p b)
  | a, .Object y =>
    match ToPrimitive y with
    | .error e => .error e
    | .ok p => .ok (looseEqualsPrimitive ToNumber a p)
  | a, b => .ok (looseEqualsPrimitive ToNumber a b)

/-- A stand-in for `ToNumber` on strings of decimal digits; any other string is taken to `NaN`,
the empty string to `+0`. -/
def digitsToNumber (s : GoString) : Number :=
  if s = [] then .Zero false
  else if s.all (fun b => decide (48 ≤ b) && decide (b ≤ 57)) then
    (let n : Nat := s.foldl (fun acc b => 10 * acc + (b - 48)) 0
     if n = 0 then .Zero false else .Finite (n : ℚ))
  else .NaN

/-- A stand-in for `ToPrimitive` for a VM without objects: it throws. -/
def noPrimitive : Ref → Except Value Value := fun _ => .error .Undefined

/-! ## The stack-depth guard -/

/-- Modelled from the spec: the runtime is in files that are not at hand; of the runtime context
of section 2 the guard uses the configured stack-depth limit (0 for none) and the call-depth
counter. -/
structure CallStack where
  limit : Nat
  depth : Nat
  deriving DecidableEq, Repr

/-- Modelled from the spec: `SetStackDepthLimit(n)` of section 6. -/
def SetStackDepthLimit (c : CallStack) (n : Nat) : CallStack := { c with limit := n }

/-- Modelled from the spec: entering an activation (section 4.4), "Each function activation
increments a counter; if it exceeds the configured limit, a `RangeError` is thrown", with "0
means unlimited" (section 6). The result `none` is the thrown `RangeError`. -/
def enterActivation (c : CallStack) : Option CallStack :=
  if c.limit ≠ 0 ∧ c.limit < c.depth + 1 then none else some { c with depth := c.depth + 1 }

/-- Modelled from the spec: leaving an activation takes the counter back. -/
def leaveActivation (c : CallStack) : CallStack := { c with depth := c.depth - 1 }

/-- Modelled from the spec: what an execution does to the call stack, a call or a return. -/
inductive CallEvent
  | enter
  | leave
  deriving DecidableEq, Repr

/-- Modelled from the spec: the calls and returns of an execution, up to the first `RangeError`
(`none`). -/
def runCalls : CallStack → List CallEvent → Option CallStack
  | c, [] => some c
  | c, .enter :: rest =>
    match enterActivation c with
    | none => none
    | some c1 => runCalls c1 rest
  | c, .leave :: rest => runCalls (leaveActivation c) rest

/-- The greatest depth that the calls and returns reach from a depth when nothing limits them. -/
def peakDepth : Nat → List CallEvent → Nat
  | d, [] => d
  | d, .enter :: rest => peakDepth (d + 1) rest
  | d, .leave :: rest => max d (peakDepth (d - 1) rest)

/-- Modelled from the spec: `Run` of section 6 on the call stack: the program itself is the
outermost activation (scenario 8 of section 8 counts five nested function calls as a six-deep
call chain), inside which its calls and returns happen. -/
def runProgram (c : CallStack) (calls : List CallEvent) : Option CallStack :=
  runCalls c (.enter :: (calls ++ [.leave]))

/-- The calls and returns of the program of `Test_stackLimit`: `e` calls `d`, which calls `c`,
which calls `b`, which calls `a`. -/
def nestedCalls : List CallEvent :=
  [.enter, .enter, .enter, .enter, .enter, .leave, .leave, .leave, .leave, .leave]

/-! ## Statements with labels and `switch` -/

/-- Modelled from the spec: what the evaluation of a statement did, in order: an expression
statement ran, or a `break`, `continue`, `return` or `throw` was evaluated. -/
inductive Event
  | ran
  | jumped (kind : Kind) (target : Option GoString)
  deriving DecidableEq, Repr

/-- Modelled from the spec: the statements of section 4.4 that the claims on labels and on
`switch` speak about, over a state `S`: expression statement, empty statement, `break L`,
`continue L`, `return` and `throw` (a jump), block, `if`, the four loops, `switch` with its
clauses in source order (a clause without a test is `default`), and labelled statement. The loop
`forKeys` is a `for`-`in` loop on the keys that are left to visit. -/
inductive Stmt (S : Type)
  | exec (f : S → S)
  | empty
  | jump (kind : Kind) (target : Option GoString)
  | seq (a b : Stmt S)
  | ifElse (cond : S → Bool) (a b : Stmt S)
  | whileLoop (cond : S → Bool) (body : Stmt S)
  | doWhileLoop (body : Stmt S) (cond : S → Bool)
  | forLoop (cond : S → Bool) (update : S → S) (body : Stmt S)
  | forKeys (keys : List Value) (bind : Value → S → S) (body : Stmt S)
  | forIn (keys : S → List Value) (bind : Value → S → S) (body : Stmt S)
  | switch (disc : S → Value) (clauses : List (Option (S → Value) × Stmt S))
  | labelled (label : GoString) (body : Stmt S)

/-- Modelled from the spec: the normal completion without a value. -/
def normalCompletion : Completion Value := { kind := .Normal, value := none, target := none }

/-- Modelled from the spec: a target is in the label set of a statement when it is a label of the
set, or no label at all. -/
def inLabelSet (labels : List GoString) (target : Option GoString) : Bool :=
  match target with
  | none => true
  | some l => decide (l ∈ labels)

/-- Modelled from the spec: what a loop does with the completion of its body (section 4.4,
labelled `break` and `continue`): it goes on (`none`) after a normal completion and after a
`continue` that targets it, it completes normally after a `break` that targets it, and any other
completion leaves the loop as it is. -/
def loopExit (labels : List GoString) (r : Completion Value) : Option (Completion Value) :=
  if r.kind = .Normal ∨ (r.kind = .Continue ∧ inLabelSet labels r.target = true) then none
  else if r.kind = .Break ∧ inLabelSet labels r.target = true then some normalCompletion
  else some r

/-- Modelled from the spec: what a `switch` does with the completion of its clauses: a `break`
that targets it ends it normally. -/
def switchExit (labels : List GoString) (r : Completion Value) : Completion Value :=
  if r.kind = .Break ∧ inLabelSet labels r.target = true then normalCompletion else r

/-- Modelled from the spec: the clause where a `switch` starts (section 4.4): "tests each `case`
with `===`"; "`default` ... is selected only if no case matches". -/
def selectClause {S : Type} (d : Value) (s : S)
    (clauses : List (Option (S → Value) × Stmt S)) : Option Nat :=
  match clauses.findIdx? (fun c =>
      match c.1 with
      | some test => strictEquals d (test s)
      | none => false) with
  | some i => some i
  | none => clauses.findIdx? (fun c => c.1.isNone)

/-- Modelled from the spec: the statements of clauses one after the other, "falling through". -/
def clauseChain {S : Type} (clauses : List (Option (S → Value) × Stmt S)) : Stmt S :=
  clauses.foldr (fun c rest => .seq c.2 rest) .empty

/-- Modelled from the spec: the evaluation of a statement in a label set and a state (section
4.4): the completion, the state afterwards and what was evaluated, in order; `none` when the
fuel does not suffice. -/
def evalStmt {S : Type} :
    Nat → List GoString → Stmt S → S → Option (Completion Value × S × List Event)
  | 0, _, _, _ => none
  | fuel + 1, labels, stmt, s =>
    match stmt with
    | .exec f => some (normalCompletion, f s, [.ran])
    | .empty => some (normalCompletion, s, [])
    | .jump k t => some ({ kind := k, value := none, target := t }, s, [.jumped k t])
    | .seq a b =>
      match evalStmt fuel [] a s with
      | none => none
      | some (c, s1, t1) =>
        if c.kind = .Normal then
          match evalStmt fuel [] b s1 with
          | none => none
          | some (c2, s2, t2) => some (c2, s2, t1 ++ t2)
        else some (c, s1, t1)
    | .ifElse cond a b => if cond s then evalStmt fuel [] a s else evalStmt fuel [] b s
    | .whileLoop cond body =>
      if cond s then
        match evalStmt fuel [] body s with
        | none => none
        | some (r, s1, t1) =>
          match loopExit labels r with
          | some c => some (c, s1, t1)
          | none =>
            match evalStmt fuel labels (.whileLoop cond body) s1 with
            | none => none
            | some (c, s2, t2) => some (c, s2, t1 ++ t2)
      else some (normalCompletion, s, [])
    | .doWhileLoop body cond =>
      match evalStmt fuel [] body s with
      | none => none
      | some (r, s1, t1) =>
        match loopExit labels r with
        | some c => some (c, s1, t1)
        | none =>
          if cond s1 then
            match evalStmt fuel labels (.doWhileLoop body cond) s1 with
            | none => none
            | some (c, s2, t2) => some (c, s2, t1 ++ t2)
          else some (normalCompletion, s1, t1)
    | .forLoop cond update body =>
      if cond s then
        match evalStmt fuel [] body s with
        | none => none
        | some (r, s1, t1) =>
          match loopExit labels r with
          | some c => some (c, s1, t1)
          | none =>
            match evalStmt fuel labels (.forLoop cond update body) (update s1) with
            | none => none
            | some (c, s2, t2) => some (c, s2, t1 ++ t2)
      else some (normalCompletion, s, [])
    | .forKeys [] _ _ => some (normalCompletion, s, [])
    | .forKeys (k :: ks) bind body =>
      match evalStmt fuel [] body (bind k s) with
      | none => none
      | some (r, s1, t1) =>
        match loopExit labels r with
        | some c => some (c, s1, t1)
        | none =>
          match evalStmt fuel labels (.forKeys ks bind body) s1 with
          | none => none
          | some (c, s2, t2) => some (c, s2, t1 ++ t2)
    | .forIn keys bind body => evalStmt fuel labels (.forKeys (keys s) bind body) s
    | .switch disc clauses =>
      match selectClause (disc s) s clauses with
      | none => some (normalCompletion, s, [])
      | some i =>
        match evalStmt fuel [] (clauseChain (clauses.drop i)) s with
        | none => none
        | some (r, s1, t1) => some (switchExit labels r, s1, t1)
    | .labelled l body =>
      match evalStmt fuel (l :: labels) body s with
      | none => none
      | some (r, s1, t1) =>
        if r.kind = .Break ∧ r.target = some l then some (normalCompletion, s1, t1)
        else some (r, s1, t1)

/-- No statement inside is labelled `L` (a label may not be used again inside the statement it
labels). -/
inductive LabelFree {S : Type} (L : GoString) : Stmt S → Prop
  | exec (f : S → S) : LabelFree L (.exec f)
  | empty : LabelFree L .empty
  | jump (k : Kind) (t : Option GoString) : LabelFree L (.jump k t)
  | seq (a b : Stmt S) : LabelFree L a → LabelFree L b → LabelFree L (.seq a b)
  | ifElse (cond : S → Bool) (a b : Stmt S) :
      LabelFree L a → LabelFree L b → LabelFree L (.ifElse cond a b)
  | whileLoop (cond : S → Bool) (body : Stmt S) :
      LabelFree L body → LabelFree L (.whileLoop cond body)
  | doWhileLoop (body : Stmt S) (cond : S → Bool) :
      LabelFree L body → LabelFree L (.doWhileLoop body cond)
  | forLoop (cond : S → Bool) (update : S → S) (body : Stmt S) :
      LabelFree L body → LabelFree L (.forLoop cond update body)
  | forKeys (keys : List Value) (bind : Value → S → S) (body : Stmt S) :
      LabelFree L body → LabelFree L (.forKeys keys bind body)
  | forIn (keys : S → List Value) (bind : Value → S → S) (body : Stmt S) :
      LabelFree L body → LabelFree L (.forIn keys bind body)
  | switch (disc : S → Value) (clauses : List (Option (S → Value) × Stmt S)) :
      (∀ c ∈ clauses, LabelFree L c.2) → LabelFree L (.switch disc clauses)
  | labelled (l : GoString) (body : Stmt S) :
      l ≠ L → LabelFree L body → LabelFree L (.labelled l body)

/-- The clause where a `switch` on the value `d` starts, in the words of the claim: the first
clause whose test equals `d` by `===`; or, when no test does, the first `default`; or, when
there is no `default` either, none. -/
def StartsAt {S : Type} (d : Value) (s : S) (clauses : List (Option (S → Value) × Stmt S))
    (start : Option Nat) : Prop :=
  (∃ i test body, start = some i ∧ clauses[i]? = some (some test, body) ∧
      strictEquals d (test s) = true ∧
      ∀ (j : Nat) (t : S → Value) (b : Stmt S),
        j < i → clauses[j]? = some (some t, b) → strictEquals d (t s) = false) ∨
  ((∀ (j : Nat) (t : S → Value) (b : Stmt S),
      clauses[j]? = some (some t, b) → strictEquals d (t s) = false) ∧
    ((∃ i body, start = some i ∧ clauses[i]? = some (none, body) ∧
        ∀ (j : Nat) (c : Option (S → Value) × Stmt S),
          j < i → clauses[j]? = some c → c.1 ≠ none) ∨
      (start = none ∧
        ∀ (j : Nat) (c : Option (S → Value) × Stmt S), clauses[j]? = some c → c.1 ≠ none)))

/-- The event of evaluating `break L`. -/
def breakEvent (L : GoString) : Event := .jumped .Break (some L)

/-- When `break L` was evaluated, it was evaluated once and last, and the completion is that
`break`, or a normal one from a statement that has `L` in its label set. -/
def BreakIsLast (L : GoString) (labels : List GoString) (c : Completion Value)
    (evs : List Event) : Prop :=
  breakEvent L ∉ evs ∨
    ∃ before, evs = before ++ [breakEvent L] ∧ breakEvent L ∉ before ∧
      ((c.kind = .Break ∧ c.target = some L) ∨ (L ∈ labels ∧ c.kind = .Normal))

/-- The number value of an integer. -/
def num (n : Int) : Value := if n = 0 then .Number (.Zero false) else .Number (.Finite n)

/-- The clauses `case 1: abc += 2; case 2: abc += 4; case 3: abc += 8` of `TestSwitch`. -/
def caseClauses : List (Option (Vars → Value) × Stmt Vars) :=
  [(some (fun _ => num 1), .exec (fun s => { s with abc := s.abc + 2 })),
   (some (fun _ => num 2), .exec (fun s => { s with abc := s.abc + 4 })),
   (some (fun _ => num 3), .exec (fun s => { s with abc := s.abc + 8 }))]

/-- The statement `switch (d) { default: abc += 1; case 1: abc += 2; case 2: abc += 4; case 3:
abc += 8 }` of `TestSwitch`. -/
def defaultFirstSwitch (d : Int) : Stmt Vars :=
  .switch (fun _ => num d) ((none, .exec (fun s => { s with abc := s.abc + 1 })) :: caseClauses)

/-- The statement `switch (d) { case 1: abc += 2; case 2: abc += 4; case 3: abc += 8 }` of
`TestSwitch`. -/
def noDefaultSwitch (d : Int) : Stmt Vars :=
  .switch (fun _ => num d) caseClauses

/-- The statement `switch ('def') { case 'def': break L; ghi = 2 }` of `TestSwitch_break`, with
the target `L` of the `break`. -/
def breakingSwitch (L : Option GoString) : Stmt Vars :=
  .switch (fun _ => .String (str "def"))
    [(some (fun _ => .String (str "def")),
      .seq (.jump .Break L) (.exec (fun s => { s with ghi := 2 })))]

/-- The first program of `TestSwitch_break`, `while (abc) { switch ('def') { case 'def': break }
ghi = "Nothing happens."; abc = false }`, with `flag` for `abc` and the numbers 0, 1 and 2 in
`ghi` for the strings `"Xyzzy"`, `"Nothing happens."` and `""`. -/
def switchBreakProgram : Stmt Vars :=
  .whileLoop (fun s => s.flag)
    (.seq (breakingSwitch none)
      (.seq (.exec (fun s => { s with ghi := 1 })) (.exec (fun s => { s with flag := false }))))

/-- The second program of `TestSwitch_break`: the loop is labelled `WHILE` and the `switch`
holds `break WHILE`. -/
def labelledBreakProgram : Stmt Vars :=
  .labelled (str "WHILE")
    (.whileLoop (fun s => s.flag)
      (.seq (breakingSwitch (some (str "WHILE")))
        (.seq (.exec (fun s => { s with ghi := 1 }))
          (.exec (fun s => { s with flag := false })))))

/-- The third program of `TestSwitch_break`: `FOR: for (;;) { switch ('def') { case 'def': break
FOR; ghi = "" } ghi = "Nothing happens." }`. -/
def forBreakProgram : Stmt Vars :=
  .labelled (str "FOR")
    (.forLoop (fun _ => true) (fun s => s)
      (.seq (breakingSwitch (some (str "FOR"))) (.exec (fun s => { s with ghi := 1 }))))

/-- The fourth program of `TestSwitch_break`: the same body in `FOR: for (var jkl in {})`. -/
def forInBreakProgram : Stmt Vars :=
  .labelled (str "FOR")
    (.forIn (fun _ => []) (fun _ s => s)
      (.seq (breakingSwitch (some (str "FOR"))) (.exec (fun s => { s with ghi := 1 }))))

/-- The second program of `TestLabelled`: `def: while (true) { while (true) { abc = abc + 1; if
(abc > 11) break def } }`. -/
def nestedWhileProgram : Stmt Vars :=
  .labelled (str "def")
    (.whileLoop (fun _ => true)
      (.whileLoop (fun _ => true)
        (.seq (.exec (fun s => { s with abc := s.abc + 1 }))
          (.ifElse (fun s => decide (s.abc > 11)) (.jump .Break (some (str "def"))) .empty))))

/-- The third program of `TestLabelled`: the same with two `do`-`while` loops. -/
def nestedDoWhileProgram : Stmt Vars :=
  .labelled (str "def")
    (.doWhileLoop
      (.doWhileLoop
        (.seq (.exec (fun s => { s with abc := s.abc + 1 }))
          (.ifElse (fun s => decide (s.abc > 11)) (.jump .Break (some (str "def"))) .empty))
        (fun _ => true))
      (fun _ => true))

/-- The first program of `TestLabelled`: `xyzzy: for (abc = 0; abc <= 0; abc++) { for (def = 0;
def <= 1; def++) { if (def === 0) continue xyzzy } }`, after `abc = 0`. -/
def continueOuterProgram : Stmt Vars :=
  .labelled (str "xyzzy")
    (.forLoop (fun s => decide (s.abc ≤ 0)) (fun s => { s with abc := s.abc + 1 })
      (.seq (.exec (fun s => { s with dfn := 0 }))
        (.forLoop (fun s => decide (s.dfn ≤ 1)) (fun s => { s with dfn := s.dfn + 1 })
          (.ifElse (fun s => decide (s.dfn = 0)) (.jump .Continue (some (str "xyzzy")))
            .empty))))

/-- The body of the loop of the second program of `TestSwitch_break`. -/
def labelledBreakBody : Stmt Vars :=
  .whileLoop (fun s => s.flag)
    (.seq (breakingSwitch (some (str "WHILE")))
      (.seq (.exec (fun s => { s with ghi := 1 })) (.exec (fun s => { s with flag := false }))))

/-- The statements after the `switch` in the loop of the first program of `TestSwitch_break`. -/
def afterSwitch : Stmt Vars :=
  .seq (.exec (fun s => { s with ghi := 1 })) (.exec (fun s => { s with flag := false }))

/-- The clauses of `breakingSwitch`. -/
def breakingClauses (L : Option GoString) : List (Option (Vars → Value) × Stmt Vars) :=
  [(some (fun _ => .String (str "def")),
    .seq (.jump .Break L) (.exec (fun s => { s with ghi := 2 })))]

/-! ## Expressions -/

/-- Modelled from the spec: evaluating an expression in a state yields a value, or a thrown value
(`error`), and the state afterwards. -/
abbrev Expression (S V : Type) := S → Except V V × S

/-- Modelled from the spec: a literal. -/
def literal {S V : Type} (v : V) : Expression S V := fun s => (.ok v, s)

/-- Modelled from the spec: reading a variable. -/
def readVariable {S V : Type} (get : S → V) : Expression S V := fun s => (.ok (get s), s)

/-- Modelled from the spec: the binary expression `l op r` of section 4.4, "operand side-effect
order is left-to-right": the left operand is evaluated to its value, then the right operand, then
the operator is applied to the two values; a throw ends the evaluation where it happens. -/
def binaryExpression {S V : Type} (op : V → V → Except V V) (l r : Expression S V) :
    Expression S V := fun s =>
  match l s with
  | (.error e, s1) => (.error e, s1)
  | (.ok a, s1) =>
    match r s1 with
    | (.error e, s2) => (.error e, s2)
    | (.ok b, s2) => (op a b, s2)

/-- Modelled from the spec: the assignment `x = r`, whose value is the value assigned. -/
def assignment {S V : Type} (set : V → S → S) (r : Expression S V) : Expression S V := fun s =>
  match r s with
  | (.error e, s1) => (.error e, s1)
  | (.ok v, s1) => (.ok v, set v s1)

/-- Modelled from the spec: the compound assignment `x op= r` of section 4.4, "Compound
assignment reads before writing": the target is read, then the right operand is evaluated, then
the operator is applied and the result written. -/
def compoundAssignment {S V : Type} (get : S → V) (set : V → S → S) (op : V → V → Except V V)
    (r : Expression S V) : Expression S V := fun s =>
  match r s with
  | (.error e, s1) => (.error e, s1)
  | (.ok b, s1) =>
    match op (get s) b with
    | .error e => (.error e, s1)
    | .ok v => (.ok v, set v s1)

/-- The operator `&` on natural numbers. -/
def bitAnd : Nat → Nat → Except Nat Nat := fun a b => .ok (a &&& b)

/-- The operator `+` on natural numbers. -/
def plus : Nat → Nat → Except Nat Nat := fun a b => .ok (a + b)

/-- The expression `abc = 1` on a state that is the variable `abc`. -/
def assignOne : Expression Nat Nat := assignment (fun v _ => v) (literal 1)

/-- The expression `abc` on a state that is the variable `abc`. -/
def readAbc : Expression Nat Nat := readVariable (fun s => s)

/-! ## Objects -/

/-- Modelled from the spec: the expressions of the programs that are run in a VM and in its
clone, a part of the expressions of section 4.4: a literal of a primitive type, `this`, an
identifier, the member `object.name`, the declaration `var name = value`, the assignments
`name = value` and `object.name = value`, the object literal `{}`, a function expression of one
parameter whose body is an expression, the value of which the function returns, the call
`callee(argument)` of the function an identifier names, the call `target.name(argument)` of a
member, `left + right`, and the sequence `first, second`. A declaration binds its name when it
is evaluated; it is not hoisted. -/
inductive Expr
  | literal (v : Value)
  | this
  | identifier (name : GoString)
  | member (object : Expr) (name : GoString)
  | declare (name : GoString) (value : Expr)
  | assign (name : GoString) (value : Expr)
  | assignMember (object : Expr) (name : GoString) (value : Expr)
  | object
  | function (param : GoString) (body : Expr)
  | call (callee : GoString) (argument : Expr)
  | callMember (target : Expr) (name : GoString) (argument : Expr)
  | plus (left right : Expr)
  | seq (first second : Expr)
  deriving DecidableEq, Repr

/-- Modelled from the spec: the code of a function object, of the internal slots of section 3.2
the "function's compiled body": the name of the parameter and the body. -/
structure FunctionCode where
  param : GoString
  body : Expr
  deriving DecidableEq, Repr

/-- Modelled from the spec: the data property of section 3.3, `{value, writable, enumerable,
configurable}`; accessor properties are left out. -/
structure Property where
  value : Value
  writable : Bool
  enumerable : Bool
  configurable : Bool
  deriving DecidableEq, Repr

/-- Modelled from the spec: the object of section 3.2: the class tag, the properties in
insertion order, the prototype link, the `extensible` flag, and of the internal slots the host
adapter, which holds the place of a host value, and, of a function object, the "closure
environment", which is the environment record captured at its creation (section 3.6), and the
code. -/
structure ScriptObject where
  className : GoString
  properties : List (GoString × Property)
  prototype : Option Ref
  extensible : Bool
  host : Option Nat
  scope : Option Ref := none
  code : Option FunctionCode := none
  deriving DecidableEq, Repr

/-- Modelled from the spec: what the VMs of a host program work on: the object graph of each VM
(its global object, prototype lattice and every other object it made), and the values the host
owns (section 5, "Host values exposed into script remain owned by the host"). -/
structure Heap where
  graphs : List (List ScriptObject)
  hostValues : List GoVal
  deriving DecidableEq, Repr

/-- The object a reference points to. -/
def Heap.object? (H : Heap) (r : Ref) : Option ScriptObject :=
  match H.graphs[r.vm]? with
  | none => none
  | some g => g[r.index]?

/-- Replacing the object a reference points to. -/
def Heap.setObject (H : Heap) (r : Ref) (o : ScriptObject) : Heap :=
  match H.graphs[r.vm]? with
  | none => H
  | some g => { H with graphs := H.graphs.set r.vm (g.set r.index o) }

/-- An object of class `Object` without properties. -/
def emptyObject (prototype : Option Ref) : ScriptObject :=
  { className := str "Object", properties := [], prototype := prototype, extensible := true,
    host := none }

/-- Modelled from the spec: the own property of a name. -/
def ScriptObject.own (o : ScriptObject) (name : GoString) : Option Property :=
  o.properties.lookup name

/-- Modelled from the spec: setting an own property (section 3.2, "preserving insertion order"):
a name the object has keeps its place, a new name goes last. -/
def ScriptObject.define (o : ScriptObject) (name : GoString) (p : Property) : ScriptObject :=
  if o.properties.any (fun q => q.1 == name) then
    { o with properties := o.properties.map (fun q => if q.1 == name then (name, p) else q) }
  else { o with properties := o.properties ++ [(name, p)] }

/-- Modelled from the spec: removing an own property. -/
def ScriptObject.remove (o : ScriptObject) (name : GoString) : ScriptObject :=
  { o with properties := o.properties.filter (fun q => !(q.1 == name)) }

/-- A property as an assignment in a script makes it. -/
def plainProperty (v : Value) : Property :=
  { value := v, writable := true, enumerable := true, configurable := true }

/-- Modelled from the spec: the property of a name along the prototype chain (section 4.2, `Get`
and `HasProperty` walk the chain), the fuel bounding the length of the chain. -/
def getProperty (H : Heap) : Nat → Ref → GoString → Option Property
  | 0, _, _ => none
  | fuel + 1, r, name =>
    match H.object? r with
    | none => none
    | some o =>
      match o.own name with
      | some p => some p
      | none =>
        match o.prototype with
        | none => none
        | some parent => getProperty H fuel parent name

/-- The object graph of a VM. -/
def Heap.graph (H : Heap) (k : Nat) : List ScriptObject := (H.graphs[k]?).getD []

/-- The fuel for a walk along a prototype chain from an object: the number of objects of its
graph bounds the length of a chain without cycle (section 3.6), and one more. -/
def Heap.chainFuel (H : Heap) (r : Ref) : Nat := (H.graph r.vm).length + 1

/-- Modelled from the spec: `HasProperty` of section 4.2. -/
def HasProperty (H : Heap) (r : Ref) (name : GoString) : Bool :=
  (getProperty H (H.chainFuel r) r name).isSome

/-- Modelled from the spec: `Get` of section 4.2 for data properties, "Returns `undefined` if
unresolved along the prototype chain". -/
def Get (H : Heap) (r : Ref) (name : GoString) : Value :=
  match getProperty H (H.chainFuel r) r name with
  | none => .Undefined
  | some p => p.value

/-- Modelled from the spec: `Keys()` of an object handle (section 6), the enumeration hook of
section 4.2 without inherited and without non-enumerable properties: "Visits own keys in
insertion order". -/
def Keys (o : ScriptObject) : List GoString :=
  (o.properties.filter (fun q => q.2.enumerable)).map (fun q => q.1)

/-- Modelled from the spec: the prototype chain of an object (sections 3.2 and 3.6): the objects
from the one a reference points to up to the one without prototype. -/
def IsChain (H : Heap) : Ref → List ScriptObject → Prop
  | _, [] => False
  | r, [o] => H.object? r = some o ∧ o.prototype = none
  | r, o :: o2 :: rest =>
    H.object? r = some o ∧ ∃ parent, o.prototype = some parent ∧ IsChain H parent (o2 :: rest)

/-- Modelled from the spec: `KeysByParent()` of an object handle (section 6): the keys of the
object, then those of its prototype, and so on along the chain. -/
def KeysByParent (H : Heap) : Nat → Ref → List (List GoString)
  | 0, _ => []
  | fuel + 1, r =>
    match H.object? r with
    | none => []
    | some o =>
      match o.prototype with
      | none => [Keys o]
      | some parent => Keys o :: KeysByParent H fuel parent

/-! ## Environments -/

/-- Modelled from the spec: the binding of a declarative record, `{value, mutable, initialised}`
(section 3.4). -/
structure Binding where
  value : Value
  mutable : Bool
  initialised : Bool
  deriving DecidableEq, Repr

/-- Modelled from the spec: the environment record of section 3.4, declarative or backed by an
object; the parent link is the rest of the scope chain. -/
inductive EnvironmentRecord
  | declarative (bindings : List (GoString × Binding))
  | object (ref : Ref)
  deriving DecidableEq, Repr

/-- Modelled from the spec: whether a record binds a name; "for object-backed records it calls
`HasProperty`" (section 4.3). -/
def HasBinding (H : Heap) (record : EnvironmentRecord) (name : GoString) : Bool :=
  match record with
  | .declarative bindings => (bindings.lookup name).isSome
  | .object r => HasProperty H r name

/-- Modelled from the spec: the value a record binds to a name. -/
def GetBindingValue (H : Heap) (record : EnvironmentRecord) (name : GoString) : Value :=
  match record with
  | .declarative bindings =>
    match bindings.lookup name with
    | none => .Undefined
    | some b => b.value
  | .object r => Get H r name

/-- Modelled from the spec: `GetIdentifierReference(env, name)` of section 4.3, which "walks the
parent chain": the place in the chain of the first record that binds the name, or `none` for a
name that resolves to no binding. -/
def GetIdentifierReference (H : Heap) (chain : List EnvironmentRecord) (name : GoString) :
    Option Nat :=
  chain.findIdx? (fun record => HasBinding H record name)

/-- Modelled from the spec: a thrown error, told to the host as `"<ErrorKind>: <message>"`
(section 6). -/
structure ErrorValue where
  kind : GoString
  message : GoString
  deriving DecidableEq, Repr

/-- Modelled from the spec: evaluating an identifier (section 4.3): "If unresolved, reading
throws `ReferenceError`". The spec fixes the kind of the error and not the text of the message;
the text is the one that `TestShouldError` of `otto_test.go` reads. -/
def evaluateIdentifier (H : Heap) (chain : List EnvironmentRecord) (name : GoString) :
    Except ErrorValue Value :=
  match GetIdentifierReference H chain name with
  | none => .error { kind := str "ReferenceError", message := [39] ++ name ++ str "' is not defined" }
  | some i =>
    match chain[i]? with
    | none => .ok .Undefined
    | some record => .ok (GetBindingValue H record name)

/-- Modelled from the spec: `typeof` of a value (section 4.4): "`typeof null` is `"object"`.
`typeof` on a function object yields `"function"`". -/
def typeofValue (H : Heap) : Value → GoString
  | .Undefined => str "undefined"
  | .Null => str "object"
  | .Boolean _ => str "boolean"
  | .Number _ => str "number"
  | .String _ => str "string"
  | .Object r =>
    match H.object? r with
    | some o => if o.className = str "Function" then str "function" else str "object"
    | none => str "object"

/-- Modelled from the spec: `typeof` of an identifier (section 4.4): "on an unresolved
identifier yields `"undefined"` without error". -/
def typeofIdentifier (H : Heap) (chain : List EnvironmentRecord) (name : GoString) :
    Except ErrorValue GoString :=
  match GetIdentifierReference H chain name with
  | none => .ok (str "undefined")
  | some i =>
    match chain[i]? with
    | none => .ok (str "undefined")
    | some record => .ok (typeofValue H (GetBindingValue H record name))

/-- Modelled from the spec: `delete` of an identifier (section 4.4): "on a non-reference yields
`true`; on an environment binding returns `false` for declarative bindings; on a property
returns whether the property was configurable". A name that resolves to no binding denotes
neither an environment binding nor a property: nothing is there to delete, no record is touched
and the result is `true`, which is step 3 of 11.4.1 of ECMAScript 5.1, the standard that
section 1 has the interpreter implement. The result and the heap afterwards. -/
def deleteIdentifier (H : Heap) (chain : List EnvironmentRecord) (name : GoString) :
    Bool × Heap :=
  match GetIdentifierReference H chain name with
  | none => (true, H)
  | some i =>
    match chain[i]? with
    | none => (true, H)
    | some (.declarative _) => (false, H)
    | some (.object r) =>
      match H.object? r with
      | none => (true, H)
      | some o =>
        match o.own name with
        | none => (false, H)
        | some p =>
          if p.configurable then (true, H.setObject r (o.remove name)) else (false, H)

/-- Modelled from the spec: assigning to an identifier (section 4.3): the first record that binds
the name takes the value, unless its binding there is not mutable; "writing to an unresolved
name creates a property on the global object". The scope chain and the heap afterwards. -/
def assignIdentifier (H : Heap) (globalObject : Ref) (chain : List EnvironmentRecord)
    (name : GoString) (v : Value) : List EnvironmentRecord × Heap :=
  match GetIdentifierReference H chain name with
  | none =>
    match H.object? globalObject with
    | none => (chain, H)
    | some o => (chain, H.setObject globalObject (o.define name (plainProperty v)))
  | some i =>
    match chain[i]? with
    | none => (chain, H)
    | some (.declarative bindings) =>
      (chain.set i (.declarative (bindings.map (fun q =>
        if q.1 == name && q.2.mutable then (q.1, { q.2 with value := v }) else q))), H)
    | some (.object r) =>
      match H.object? r with
      | none => (chain, H)
      | some o => (chain, H.setObject r (o.define name (plainProperty v)))

/-- Modelled from the spec: where code runs: the scope chain, innermost record first, the `this`
value, and the global object of the VM. -/
structure ExecutionContext where
  chain : List EnvironmentRecord
  this : Value
  globalObject : Ref
  deriving DecidableEq, Repr

/-- Modelled from the spec: the global environment: its record is "object-backed over the global
object" (section 3.4) and `this` is "bound to the global object" (section 4.4). -/
def globalContext (ctx : ExecutionContext) : ExecutionContext :=
  { chain := [.object ctx.globalObject], this := .Object ctx.globalObject,
    globalObject := ctx.globalObject }

/-- Modelled from the spec: the callee of a call, as written: an identifier, or another
expression (a member access, a parenthesised or detached reference). -/
inductive Callee
  | identifier (name : GoString)
  | other
  deriving DecidableEq, Repr

/-- Modelled from the spec: a call of `eval` is direct when "the callee is the identifier `eval`
resolving to the built-in" (section 4.4). -/
def isDirectEval (H : Heap) (ctx : ExecutionContext) (evalFunction : Ref) (callee : Callee) :
    Bool :=
  match callee with
  | .identifier name =>
    decide (name = str "eval") &&
      decide (evaluateIdentifier H ctx.chain name = .ok (.Object evalFunction))
  | .other => false

/-- Modelled from the spec: a parsed program, run on the heap in a context: its result, the heap
and the context afterwards. -/
abbrev Program := Heap → ExecutionContext → Except ErrorValue Value × Heap × ExecutionContext

/-- Modelled from the spec: a call of the built-in `eval` on a parsed source (section 4.4): a
direct call "evaluates the program in the current environment"; "Any other call ... is
*indirect*: evaluates in the global environment". -/
def callEval (H : Heap) (ctx : ExecutionContext) (evalFunction : Ref) (callee : Callee)
    (program : Program) : Except ErrorValue Value × Heap × ExecutionContext :=
  if isDirectEval H ctx evalFunction callee then program H ctx
  else
    match program H (globalContext ctx) with
    | (result, H2, _) => (result, H2, ctx)

/-- The program `x`. -/
def readProgram (x : GoString) : Program :=
  fun H ctx => (evaluateIdentifier H ctx.chain x, H, ctx)

/-- The program `x = v`. -/
def writeProgram (x : GoString) (v : Value) : Program :=
  fun H ctx =>
    match assignIdentifier H ctx.globalObject ctx.chain x v with
    | (chain, H2) => (.ok v, H2, { ctx with chain := chain })

/-- The program `this`. -/
def thisProgram : Program := fun H ctx => (.ok ctx.this, H, ctx)

/-! ## Objects and scopes used as examples -/

/-- The number of a natural. -/
def numberValue (n : Nat) : Value := .Number (.Finite (n : ℚ))

/-- The object of `abc = { 'abc': 1, 'def': false, 3.14159: NaN }` in `TestAPI`. -/
def abcObject : ScriptObject :=
  (((emptyObject none).define (str "abc") (plainProperty (numberValue 1))).define (str "def")
    (plainProperty (.Boolean false))).define (str "3.14159") (plainProperty (.Number .NaN))

/-- The heap of `TestObjectKeys` after `var x = Object.create(null); x.a = 1` and
`var y = Object.create(x); y.b = 2`: `x` is object 0 and `y` object 1 of the VM 0. -/
def keysHeap : Heap :=
  { graphs := [[(emptyObject none).define (str "a") (plainProperty (numberValue 1)),
      (emptyObject (some ⟨0, 0⟩)).define (str "b") (plainProperty (numberValue 2))]],
    hostValues := [] }

/-- The object `y` of `TestObjectKeys` with a property `length` that is not enumerable, defined
between `b` and a later `c`. -/
def hiddenLengthObject : ScriptObject :=
  (((emptyObject (some ⟨0, 0⟩)).define (str "b") (plainProperty (numberValue 2))).define
    (str "length") { plainProperty (numberValue 0) with enumerable := false }).define (str "c")
    (plainProperty (numberValue 3))

/-- The heap of `Test_evalDirectIndirect` inside the function: object 0 is the global object,
with `abc = "global"` and `eval`, object 1 is the built-in `eval`. -/
def evalHeap : Heap :=
  { graphs := [[((emptyObject none).define (str "abc") (plainProperty (.String (str "global")))).define
        (str "eval") { plainProperty (.Object ⟨0, 1⟩) with enumerable := false },
      { emptyObject none with className := str "Function" }]],
    hostValues := [] }

/-- The bindings of the function of `Test_evalDirectIndirect`: `_eval` and `abc`. -/
def evalBindings : List (GoString × Binding) :=
  [(str "_eval", { value := .Object ⟨0, 1⟩, mutable := true, initialised := true }),
   (str "abc", { value := .String (str "function"), mutable := true, initialised := true })]

/-- The context of the function of `Test_evalDirectIndirect`, called with `this` the global
object. -/
def evalContext : ExecutionContext :=
  { chain := [.declarative evalBindings, .object ⟨0, 0⟩], this := .Object ⟨0, 0⟩,
    globalObject := ⟨0, 0⟩ }

/-- The context of `abc` in `Test_eval`, called by `new abc()`: `this` is the new object. -/
def constructorContext : ExecutionContext :=
  { chain := [.declarative [], .object ⟨0, 0⟩], this := .Object ⟨0, 2⟩, globalObject := ⟨0, 0⟩ }

/-! ## Host calls -/

/-- Modelled from the spec: the errors "surfaced to the host are either script throws ... or
parse errors (one or more per program ...)" (section 6). -/
inductive HostError
  | parse (messages : List GoString)
  | thrown (e : ErrorValue)
  deriving DecidableEq, Repr

/-- Modelled from the spec: what a host call returns: a value handle and an error, `none` for
the nil error. -/
structure HostResult where
  value : Value
  error : Option HostError
  deriving DecidableEq, Repr

/-- Modelled from the spec: the end of an execution as the host sees it (section 7): "Host calls
that observe an uncaught throw receive both a non-nil error and an `undefined` value handle". -/
def hostResult : Except ErrorValue Value → HostResult
  | .ok v => { value := v, error := none }
  | .error e => { value := .Undefined, error := some (.thrown e) }

/-- Modelled from the spec: `Run(source)` (section 6): "Parses ... and executes; returns the
program's completion value or an error". The parser and the evaluator are parameters; an
interrupt callback of the host that panics is outside of this model (`TestOttoInterrupt`: the
panic passes through `Run`). -/
def Run {Src Prog VM : Type} (parse : Src → Except (List GoString) Prog)
    (execute : Prog → VM → Except ErrorValue Value × VM) (source : Src) (vm : VM) :
    HostResult × VM :=
  match parse source with
  | .error messages => ({ value := .Undefined, error := some (.parse messages) }, vm)
  | .ok program =>
    match execute program vm with
    | (result, vm1) => (hostResult result, vm1)

/-- Modelled from the spec: `Call(target, this, args…)` (section 6): "Resolves `target` (a dotted
path expression), invokes as function with given `this` and arguments"; a `this` of nil is
`none`. -/
def Call {Src Prog VM : Type} (parse : Src → Except (List GoString) Prog)
    (execute : Prog → VM → Except ErrorValue Value × VM)
    (invoke : Value → Option Value → List Value → VM → Except ErrorValue Value × VM)
    (target : Src) (this : Option Value) (args : List Value) (vm : VM) : HostResult × VM :=
  match parse target with
  | .error messages => ({ value := .Undefined, error := some (.parse messages) }, vm)
  | .ok program =>
    match execute program vm with
    | (.error e, vm1) => (hostResult (.error e), vm1)
    | (.ok f, vm1) =>
      match invoke f this args vm1 with
      | (result, vm2) => (hostResult result, vm2)

/-- The segments of a byte string between the dots. -/
def splitDots : GoString → List GoString
  | [] => [[]]
  | c :: cs =>
    match splitDots cs with
    | [] => [[]]
    | segment :: rest => if c = 46 then [] :: segment :: rest else (c :: segment) :: rest

/-- A parser of dotted paths, in the place of the parser of otto in the examples: a path with
an empty segment is a parse error. -/
def parsePath (source : GoString) : Except (List GoString) (List GoString) :=
  if (splitDots source).any (fun segment => segment.isEmpty) then
    .error [str "SyntaxError: (anonymous): Line 1:1 Unexpected end of input"]
  else .ok (splitDots source)

/-- The member of a value, in the examples: `undefined` and `null` have none. -/
def resolveMember (H : Heap) (base : Value) (name : GoString) : Except ErrorValue Value :=
  match base with
  | .Object r => .ok (Get H r name)
  | .Undefined =>
    .error { kind := str "TypeError",
             message := str "Cannot access member '" ++ name ++ str "' of undefined" }
  | .Null =>
    .error { kind := str "TypeError",
             message := str "Cannot access member '" ++ name ++ str "' of null" }
  | _ => .ok .Undefined

/-- An evaluator of dotted paths on a VM, which is a heap and its global object, in the place
of the evaluator of otto in the examples. -/
def resolvePath (path : List GoString) (vm : Heap × Ref) : Except ErrorValue Value × (Heap × Ref) :=
  match path with
  | [] => (.ok .Undefined, vm)
  | x :: members =>
    (members.foldl (fun base name => base.bind (fun b => resolveMember vm.1 b name))
      (evaluateIdentifier vm.1 [.object vm.2] x), vm)

/-- The call of a function that returns its first argument, in the place of the calls of otto
in the examples; a value that is no function throws. -/
def invokeFirstArgument (f : Value) (_this : Option Value) (args : List Value) (vm : Heap × Ref) :
    Except ErrorValue Value × (Heap × Ref) :=
  if typeofValue vm.1 f = str "function" then (.ok (args.headD .Undefined), vm)
  else (.error { kind := str "TypeError", message := str "is not a function" }, vm)

/-- The VM of `TestOttoCall`: the global object 0 has `abc`, the object 1, which has `ghi` and
the function `def`, the object 2. -/
def callVM : Heap × Ref :=
  ({ graphs := [[(emptyObject none).define (str "abc") (plainProperty (.Object ⟨0, 1⟩)),
       ((emptyObject none).define (str "ghi") (plainProperty (numberValue 1))).define (str "def")
         (plainProperty (.Object ⟨0, 2⟩)),
       { emptyObject none with className := str "Function" }]],
     hostValues := [] }, ⟨0, 0⟩)

/-! ## The clone of a VM -/

/-- A reference moved into the graph of the VM `k`. -/
def Ref.place (k : Nat) (r : Ref) : Ref := { vm := k, index := r.index }

/-- A value with its reference moved into the graph of the VM `k`. -/
def Value.place (k : Nat) : Value → Value
  | .Object r => .Object (r.place k)
  | v => v

/-- A property with its reference moved into the graph of the VM `k`. -/
def Property.place (k : Nat) (p : Property) : Property := { p with value := p.value.place k }

/-- An object with every reference moved into the graph of the VM `k`: those of its properties,
its prototype link and, of a function object, the environment record it captured. -/
def ScriptObject.place (k : Nat) (o : ScriptObject) : ScriptObject :=
  { o with properties := o.properties.map (fun q => (q.1, q.2.place k)),
           prototype := o.prototype.map (Ref.place k),
           scope := o.scope.map (Ref.place k) }

/-- Modelled from the spec: `Copy`, the clone of the VM `k` (section 5, "deep copy of the global
object, prototype lattice, and top-level declarations; functions and closures are recreated
against the clone's environment graph"): a new graph with a copy of every object and of every
environment record of the VM, the references of the copies pointing into the new graph. The
heap afterwards and the new VM. -/
def clone (H : Heap) (k : Nat) : Heap × Nat :=
  ({ H with graphs := H.graphs ++ [(H.graph k).map (ScriptObject.place H.graphs.length)] },
   H.graphs.length)

/-- Every reference of the objects of a graph points into the graph of the VM `k`. -/
def Closed (k : Nat) (g : List ScriptObject) : Prop := ∀ o ∈ g, o.place k = o

instance (k : Nat) (g : List ScriptObject) : Decidable (Closed k g) := by
  unfold Closed
  exact inferInstance

/-- The VM `k` of a heap has a graph, and the references of its objects stay in this graph. -/
def WellFormed (H : Heap) (k : Nat) : Prop := ∃ g, H.graphs[k]? = some g ∧ Closed k g

/-- Two VMs of a heap, each with its own graph. -/
def Separate (H : Heap) (a b : Nat) : Prop := a ≠ b ∧ WellFormed H a ∧ WellFormed H b

/-- The value at the end of a path of property names from a value. -/
def valueFrom (H : Heap) : Except ErrorValue Value → List GoString → Except ErrorValue Value
  | base, [] => base
  | base, name :: rest => valueFrom H (base.bind (fun b => resolveMember H b name)) rest

/-- Modelled from the spec: the value of a dotted path from the global object of the VM `k`,
the object 0 of its graph, read with `Get` (section 4.2). -/
def valueAt (H : Heap) (k : Nat) (path : List GoString) : Except ErrorValue Value :=
  valueFrom H (.ok (.Object ⟨k, 0⟩)) path

/-- A new object in the graph of the VM `k`: the heap afterwards and the reference. -/
def Heap.alloc (H : Heap) (k : Nat) (o : ScriptObject) : Heap × Ref :=
  ({ H with graphs := H.graphs.set k (H.graph k ++ [o]) }, ⟨k, (H.graph k).length⟩)

/-- A value as a literal has it: an object is no literal. -/
def Value.primitive : Value → Value
  | .Object _ => .Undefined
  | v => v

/-- The reference of a value that is an object. -/
def Value.ref? : Value → Option Ref
  | .Object r => some r
  | _ => none

/-- Modelled from the spec: `Put` of section 4.2 on data properties: an own property takes the
value if it is writable, a new one is made if the object is extensible, and otherwise nothing
changes ("silent otherwise"). -/
def putValue (H : Heap) (r : Ref) (name : GoString) (v : Value) : Heap :=
  match H.object? r with
  | none => H
  | some o =>
    match o.own name with
    | some q => if q.writable then H.setObject r (o.define name { q with value := v }) else H
    | none => if o.extensible then H.setObject r (o.define name (plainProperty v)) else H

/-- The `TypeError` of an assignment to a property of `undefined` or `null`. -/
def cannotSet (name : GoString) : ErrorValue :=
  { kind := str "TypeError", message := str "Cannot set property '" ++ name ++ str "'" }

/-- The `ReferenceError` of reading a name that resolves to no binding. -/
def notDefined (name : GoString) : ErrorValue :=
  { kind := str "ReferenceError", message := [39] ++ name ++ str "' is not defined" }

/-- The `TypeError` of a call of a value that is no function. -/
def notFunction (name : GoString) : ErrorValue :=
  { kind := str "TypeError", message := [39] ++ name ++ str "' is not a function" }

/-- Modelled from the spec: how the evaluation of an expression ends: with a value, with a throw
(section 3.5), or stopped before its end, because the steps the host grants are used up (section
5, an execution is ended from outside between two steps) or because the expression needs a
coercion, which the model does not cover. -/
inductive Outcome
  | value (v : Value)
  | thrown (e : ErrorValue)
  | stopped
  deriving DecidableEq, Repr

/-- An outcome with its reference moved into the graph of the VM `k`. -/
def Outcome.place (k : Nat) : Outcome → Outcome
  | .value v => .value (v.place k)
  | o => o

/-- The evaluation goes on with the value of a part and the heap after it; a throw or a stop of
the part ends the whole, the heap being what it is then. -/
def bindEval (r : Outcome × Heap) (f : Value → Heap → Outcome × Heap) : Outcome × Heap :=
  match r with
  | (.value v, H) => f v H
  | (.thrown e, H) => (.thrown e, H)
  | (.stopped, H) => (.stopped, H)

/-- The class tag of a declarative environment record kept in the graph of its VM. -/
def environmentClass : GoString := str "Environment"

/-- Modelled from the spec: `GetIdentifierReference(env, name)` of section 4.3 on records that
live in the graph of their VM: a declarative record (section 3.4) is an object of the class
`Environment` whose properties are its bindings and whose prototype link is its parent link;
every other object is an object-backed record, as the global object is for the global scope,
"for object-backed records it calls `HasProperty`", and its parent link is null. The record that
binds the name, `none` for a name that resolves to no binding; the fuel bounds the length of the
chain. -/
def findRecord (H : Heap) : Nat → Ref → GoString → Option Ref
  | 0, _, _ => none
  | fuel + 1, env, name =>
    match H.object? env with
    | none => none
    | some o =>
      if o.className = environmentClass then
        match o.own name with
        | some _ => some env
        | none =>
          match o.prototype with
          | none => none
          | some parent => findRecord H fuel parent name
      else if HasProperty H env name then some env else none

/-- Modelled from the spec: reading an identifier (section 4.3): "If unresolved, reading throws
`ReferenceError`". -/
def readIdentifier (H : Heap) (env : Ref) (name : GoString) : Outcome :=
  match findRecord H (H.chainFuel env) env name with
  | none => .thrown (notDefined name)
  | some record => .value (Get H record name)

/-- Modelled from the spec: the object that the property `prototype` of a constructor of the
VM `k` holds (section 4.6, the lattice of the prototypes of the built-ins), `none` when there is
no such object. -/
def prototypeOf (H : Heap) (k : Nat) (constructor : GoString) : Option Ref :=
  match valueAt H k [constructor, str "prototype"] with
  | .ok v => v.ref?
  | .error _ => none

/-- The sum of two numbers; a finite number is told by its rational value, without rounding. -/
def Number.add : Number → Number → Number
  | .NaN, _ => .NaN
  | _, .NaN => .NaN
  | .Infinity s, .Infinity t => if s = t then .Infinity s else .NaN
  | .Infinity s, _ => .Infinity s
  | _, .Infinity t => .Infinity t
  | .Zero s, .Zero t => .Zero (s && t)
  | .Zero _, .Finite q => .Finite q
  | .Finite p, .Zero _ => .Finite p
  | .Finite p, .Finite q => .Finite (p + q)

/-- Modelled from the spec: `+` of section 4.4 on two numbers and on two strings; the other
operands need a coercion of section 4.1, which the model does not cover, and stop the
evaluation. -/
def plusValues : Value → Value → Outcome
  | .Number x, .Number y => .value (.Number (x.add y))
  | .String a, .String b => .value (.String (a ++ b))
  | _, _ => .stopped

/-- Modelled from the spec: the record of a call (section 4.3, "Function entry creates a new
declarative environment parented at the function's captured environment"), with the binding of
the parameter. -/
def activation (code : FunctionCode) (scope : Ref) (argument : Value) : ScriptObject :=
  { className := environmentClass, properties := [(code.param, plainProperty argument)],
    prototype := some scope, extensible := true, host := none }

/-- Modelled from the spec: the function object of a function expression (section 3.6,
"Function objects carry the lexical environment captured at their creation"). -/
def functionObject (prototype : Option Ref) (scope : Ref) (code : FunctionCode) : ScriptObject :=
  { className := str "Function", properties := [], prototype := prototype, extensible := true,
    host := none, scope := some scope, code := some code }

/-- Modelled from the spec: the entry into a call (section 4.3): when the value called is a
function object, the record of the call is made in the graph of the VM `k`; the heap afterwards,
the record and the body to evaluate in it, `none` when the value is no function. -/
def enterCall (H : Heap) (k : Nat) (f a : Value) : Option (Heap × Ref × Expr) :=
  match f with
  | .Object r =>
    match H.object? r with
    | some o =>
      match o.scope, o.code with
      | some scope, some code =>
        match H.alloc k (activation code scope a) with
        | (H2, record) => some (H2, record, code.body)
      | _, _ => none
    | none => none
  | _ => none

/-- Modelled from the spec: the evaluation of an expression in the VM `k` (section 4.4), in the
environment record `env`, with the object `self` as `this`, and the heap `H`: the outcome and
the heap afterwards. The global object is the object 0 of the graph of the VM. "`this` is bound
at call time" (section 3.6): the call of a member passes the object the member was read from,
the call of an identifier "passes `undefined` (coerced to the global object in non-strict
mode)". A declaration and an assignment to a name write the binding with `Put`; the record an
assignment writes to is resolved before the right-hand side is evaluated, and "writing to an
unresolved name creates a property on the global object". Every step takes one unit of the
fuel. -/
def eval (k : Nat) : Nat → Ref → Ref → Heap → Expr → Outcome × Heap
  | 0, _, _, H, _ => (.stopped, H)
  | fuel + 1, env, self, H, e =>
    match e with
    | .literal v => (.value v.primitive, H)
    | .this => (.value (.Object self), H)
    | .identifier name => (readIdentifier H env name, H)
    | .member target name =>
      bindEval (eval k fuel env self H target) (fun base H2 =>
        match resolveMember H2 base name with
        | .ok v => (.value v, H2)
        | .error err => (.thrown err, H2))
    | .declare name value =>
      bindEval (eval k fuel env self H value) (fun v H2 =>
        (.value .Undefined, putValue H2 env name v))
    | .assign name value =>
      bindEval (eval k fuel env self H value) (fun v H2 =>
        (.value v,
          putValue H2 ((findRecord H (H.chainFuel env) env name).getD ⟨k, 0⟩) name v))
    | .assignMember target name value =>
      bindEval (eval k fuel env self H target) (fun base H2 =>
        bindEval (eval k fuel env self H2 value) (fun v H3 =>
          match base with
          | .Object r => (.value v, putValue H3 r name v)
          | .Undefined => (.thrown (cannotSet name), H3)
          | .Null => (.thrown (cannotSet name), H3)
          | _ => (.value v, H3)))
    | .object =>
      match H.alloc k (emptyObject (prototypeOf H k (str "Object"))) with
      | (H2, r) => (.value (.Object r), H2)
    | .function param body =>
      match H.alloc k
          (functionObject (prototypeOf H k (str "Function")) env ⟨param, body⟩) with
      | (H2, r) => (.value (.Object r), H2)
    | .call callee argument =>
      match readIdentifier H env callee with
      | .value f =>
        bindEval (eval k fuel env self H argument) (fun a H2 =>
          match enterCall H2 k f a with
          | some (H3, record, body) => eval k fuel record ⟨k, 0⟩ H3 body
          | none => (.thrown (notFunction callee), H2))
      | other => (other, H)
    | .callMember target name argument =>
      bindEval (eval k fuel env self H target) (fun base H2 =>
        match resolveMember H2 base name with
        | .error err => (.thrown err, H2)
        | .ok f =>
          bindEval (eval k fuel env self H2 argument) (fun a H3 =>
            match enterCall H3 k f a with
            | some (H4, record, body) =>
              eval k fuel record ((base.ref?).getD ⟨k, 0⟩) H4 body
            | none => (.thrown (notFunction name), H3)))
    | .plus left right =>
      bindEval (eval k fuel env self H left) (fun a H2 =>
        bindEval (eval k fuel env self H2 right) (fun b H3 => (plusValues a b, H3)))
    | .seq first second =>
      bindEval (eval k fuel env self H first) (fun _ H2 => eval k fuel env self H2 second)

/-- Modelled from the spec: a program run in the VM `k`, its statements evaluated one after the
other in the global scope, with the global object as `this`, each with the same fuel: the
outcomes of the statements as the host sees them, an object by its place in the graph of its VM,
up to the first statement that throws or is stopped, which ends the program, and the heap
afterwards. -/
def runScript (k fuel : Nat) : Heap → List Expr → List Outcome × Heap
  | H, [] => ([], H)
  | H, statement :: rest =>
    match eval k fuel ⟨k, 0⟩ ⟨k, 0⟩ H statement with
    | (.value v, H2) =>
      match runScript k fuel H2 rest with
      | (outcomes, H3) => (.value (v.place 0) :: outcomes, H3)
    | (other, H2) => ([other], H2)

/-- The result of a program run in the VM `k`. -/
def result (k fuel : Nat) (H : Heap) (program : List Expr) : List Outcome :=
  (runScript k fuel H program).1

/-- The heap after a program run in the VM `k`. -/
def heapAfter (k fuel : Nat) (H : Heap) (program : List Expr) : Heap :=
  (runScript k fuel H program).2

/-- A heap with one VM, whose graph has the global object only. -/
def copyHeap : Heap := { graphs := [[emptyObject none]], hostValues := [] }

/-- The function `function() { global.abc += 1; jkl += 1; return 1; }` of `TestOttoCopy`. -/
def incrementFunction : Expr :=
  .function (str "_")
    (.seq (.assignMember (.identifier (str "global")) (str "abc")
        (.plus (.member (.identifier (str "global")) (str "abc")) (.literal (numberValue 1))))
      (.seq (.assign (str "jkl") (.plus (.identifier (str "jkl")) (.literal (numberValue 1))))
        (.literal (numberValue 1))))

/-- The function `function() { return [ vm, global.abc, jkl, abc() ]; }` of `TestOttoCopy`, the
array being an object with the properties `0` to `3`, set in this order. -/
def reportFunction : Expr :=
  .function (str "_")
    (.seq (.declare (str "list") .object)
      (.seq (.assignMember (.identifier (str "list")) (str "0") (.identifier (str "vm")))
        (.seq (.assignMember (.identifier (str "list")) (str "1")
            (.member (.identifier (str "global")) (str "abc")))
          (.seq (.assignMember (.identifier (str "list")) (str "2") (.identifier (str "jkl")))
            (.seq (.assignMember (.identifier (str "list")) (str "3")
                (.call (str "abc") (.literal .Undefined)))
              (.identifier (str "list")))))))

/-- The program of `TestOttoCopy` that sets up the closures: `var global = this; var abc = 0;
var vm = "vm0"; var def = (function(){ var jkl = 0; var abc = function() {...}; return
function() {...}; })();`, the function called at once having the name `make`. -/
def closureProgram : List Expr :=
  [.declare (str "global") .this,
   .declare (str "abc") (.literal (numberValue 0)),
   .declare (str "vm") (.literal (.String (str "vm0"))),
   .declare (str "make")
     (.function (str "_")
       (.seq (.declare (str "jkl") (.literal (numberValue 0)))
         (.seq (.declare (str "abc") incrementFunction) reportFunction))),
   .declare (str "def") (.call (str "make") (.literal .Undefined))]

/-- The program `def()` of `TestOttoCopy`, which reads the four entries of what the call
returns one after the other. -/
def callProgram : List Expr :=
  [.assign (str "got") (.call (str "def") (.literal .Undefined)),
   .member (.identifier (str "got")) (str "0"),
   .member (.identifier (str "got")) (str "1"),
   .member (.identifier (str "got")) (str "2"),
   .member (.identifier (str "got")) (str "3")]

/-- The program `vm = "vm1"`, which `vm1.Set("vm", "vm1")` of `TestOttoCopy` stands for. -/
def renameProgram : List Expr := [.assign (str "vm") (.literal (.String (str "vm1")))]

/-- A program that redefines the function `def`: `def = function() { return 7; }`. -/
def redefineProgram : List Expr :=
  [.assign (str "def") (.function (str "_") (.literal (numberValue 7)))]

/-- The VM 0 of `TestOttoCopy` when the clone is made: after `closureProgram` set up the
closures and `def()` was called once. -/
def closureHeap : Heap :=
  heapAfter 0 40 (heapAfter 0 40 copyHeap closureProgram) callProgram

/-- The program of `TestOttoCall_clone` that sets up a method: `var abc = { ghi: 1, jkl:
function(value) { this.ghi += value; return this.ghi; } }; var def = { abc: abc };`. -/
def methodProgram : List Expr :=
  [.declare (str "abc") .object,
   .assignMember (.identifier (str "abc")) (str "ghi") (.literal (numberValue 1)),
   .assignMember (.identifier (str "abc")) (str "jkl")
     (.function (str "value")
       (.seq (.assignMember .this (str "ghi")
           (.plus (.member .this (str "ghi")) (.identifier (str "value"))))
         (.member .this (str "ghi")))),
   .declare (str "def") .object,
   .assignMember (.identifier (str "def")) (str "abc") (.identifier (str "abc"))]

/-- The program `def.abc.jkl(n)` of `TestOttoCall_clone`. -/
def methodCall (n : Nat) : List Expr :=
  [.callMember (.member (.identifier (str "def")) (str "abc")) (str "jkl")
    (.literal (numberValue n))]

/-- The VM 0 of `TestOttoCall_clone` when the clone is made: after `methodProgram`. -/
def methodHeap : Heap := heapAfter 0 40 copyHeap methodProgram

/-- The VM `k2` of the heap `Hb` is as the VM `k` of the heap `Ha`: its graph has the objects
of the graph of `k`, with the references moved. -/
def Corresponds (Ha : Heap) (k : Nat) (Hb : Heap) (k2 : Nat) : Prop :=
  ∃ g, Ha.graphs[k]? = some g ∧ Closed k g ∧
    Hb.graphs[k2]? = some (g.map (ScriptObject.place k2))

/-- The run of an expression in the VM `k2` goes as its run in the VM `k`, from the heap `H`:
the outcome is the same, with the reference moved, and stays in the graph of `k`, the VMs
correspond afterwards, and the run in `k` left the graph of every other VM as it was. -/
def Simulates (k k2 : Nat) (H : Heap) (ra rb : Outcome × Heap) : Prop :=
  rb.1 = ra.1.place k2 ∧ ra.1.place k = ra.1 ∧ Corresponds ra.2 k rb.2 k2 ∧
    ∀ j, j ≠ k → ra.2.graphs[j]? = H.graphs[j]?

/-! ## Enumeration and `CanPut` of host records -/

/-- How `goStructCanPut` ends: with a boolean of its own, or with whatever the ordinary
`objectCanPut` returns for the name. -/
inductive CanPutOutcome
  | result (b : Bool)
  | objectCanPut (name : GoString)
  deriving DecidableEq, Repr

/-- The function `goStructCanPut`. -/
def goStructCanPut (fieldIndexByName : StructType → GoString → List Nat)
    (o : goStructObject) (fuel : Nat) (name : GoString) : Except Fault CanPutOutcome :=
  match getValue fieldIndexByName o fuel name with
  | .error f => .error f
  | .ok value => if value.IsValid then .ok (.result true) else .ok (.objectCanPut name)

/-- How `goStructEnumerate` ends, with the state the calls of `each` left: it returned after a
call of `each` gave `false`, or it went on to the ordinary `objectEnumerate` with the same `all`
and `each`. -/
inductive EnumerateOutcome (σ : Type)
  | returned (s : σ)
  | objectEnumerate (all : Bool) (s : σ)
  deriving DecidableEq, Repr

/-- One loop of `goStructEnumerate` over the names of the fields, or of the methods: `each` is
a Go closure, here a function that also takes and gives the state it works on; the boolean tells
whether the loop came to its end. -/
def enumerateNames {σ : Type} (each : GoString → σ → Bool × σ) : List GoString → σ → Bool × σ
  | [], s => (true, s)
  | name :: rest, s =>
    if validGoStructName name then
      match each name s with
      | (false, s1) => (false, s1)
      | (true, s1) => enumerateNames each rest s1
    else enumerateNames each rest s

/-- The function `goStructEnumerate`: the fields of `reflect.Indirect(value)` in the order of
their indices, then the methods `reflect` lists for the value. -/
def goStructEnumerate {σ : Type} (o : goStructObject) (all : Bool)
    (each : GoString → σ → Bool × σ) (s : σ) : EnumerateOutcome σ :=
  match enumerateNames each (o.value.typ.fields.map (fun f => f.Name)) s with
  | (false, s1) => .returned s1
  | (true, s1) =>
    match enumerateNames each (o.value.methodSet.map (fun m => m.Name)) s1 with
    | (false, s2) => .returned s2
    | (true, s2) => .objectEnumerate all s2

/-- The names the claim on the order of enumeration lists: the names of the fields that satisfy
`validGoStructName`, in the order of declaration, then those of the methods, in the order of
their indices. -/
def enumerationOrder (o : goStructObject) : List GoString :=
  (o.value.typ.fields.map (fun f => f.Name)).filter validGoStructName ++
    (o.value.methodSet.map (fun m => m.Name)).filter validGoStructName

/-- Calling `each` on the names of a list in their order, up to the first call that gives
`false`; the boolean tells whether every call gave `true`. -/
def callInOrder {σ : Type} (each : GoString → σ → Bool × σ) : List GoString → σ → Bool × σ
  | [], s => (true, s)
  | name :: rest, s =>
    match each name s with
    | (false, s1) => (false, s1)
    | (true, s1) => callInOrder each rest s1

/-- A callback that writes down the names it is called with and answers with a test on the
name. -/
def recordNames (p : GoString → Bool) : GoString → List GoString → Bool × List GoString :=
  fun name seen => (p name, seen ++ [name])

/-- The rule of Go for a field whose name starts with an ASCII byte: the field is exported
exactly when this byte is a capital letter. -/
def StructField.asciiExportRule (f : StructField) : Prop :=
  ∀ b rest, f.Name = b :: rest → b < 128 → (f.IsExported = true ↔ (65 ≤ b ∧ b ≤ 90))

/-- The lower case of an ASCII byte. -/
def asciiLower (b : Nat) : Nat := if 65 ≤ b ∧ b ≤ 90 then b + 32 else b

/-- The field `Éa int` with the tag `otto:"Éa"`. -/
def selfTagField : StructField :=
  { Name := [195, 137, 97], PkgPath := [], Typ := .int, Tag := [(structTag, [195, 137, 97])] }

/-- The record `struct{ Éa int }{10}` whose field has its own name as the tag. -/
def selfTagRecord : RecordValue :=
  { isPointer := false, canAddr := false,
    typ := { fields := [selfTagField], methods := [], ptrMethods := [] },
    fieldVals := [.int 10] }

/-- A stand-in for `toValue`: the member itself and the host value it holds. -/
def memberAndValue : RecordValue → MemberValue → MemberValue × Option GoVal :=
  fun v m => (m, v.read m)

/-- A pointer to the record `struct{ Hidden int; Val int }{1, 2}` with the method `Get`. -/
def hiddenMethodPointer : RecordValue :=
  { isPointer := true, canAddr := false,
    typ := { fields := [hiddenField, valField], methods := [getMethod], ptrMethods := [getMethod] },
    fieldVals := [.int 1, .int 2] }

/-! ## `parser/comments_test.go` -/

/-- The struct `ast.Comment`, as far as `checkComments` reads it. -/
structure Comment where
  Text : GoString
  Position : Nat
  deriving DecidableEq, Repr

/-- The errors `checkComments` makes with `fmt.Errorf`, by their format and arguments. -/
inductive CommentError
  | numberNotCorrect (actual expected : Nat)
  | doNotMatch (actual expected : GoString)
  | positionsDoNotMatch (position actual : Nat)
  deriving DecidableEq, Repr

/-- The second loop of `checkComments`, from the index `i` on; `expected[i]` panics when the
index is out of range. -/
def checkCommentsLoop (expected : List GoString) (position : Nat) :
    Nat → List Comment → Except Fault (Option CommentError)
  | _, [] => .ok none
  | i, v :: rest =>
    match expected[i]? with
    | none => .error .panic
    | some e =>
      if v.Text ≠ e then .ok (some (.doNotMatch v.Text e))
      else if v.Position ≠ position then .ok (some (.positionsDoNotMatch position v.Position))
      else checkCommentsLoop expected position (i + 1) rest

/-- The function `checkComments`; `none` is the nil error. The comments are the structs the
pointers of `actual` point to. -/
def checkComments (actual : List Comment) (expected : List GoString) (position : Nat) :
    Except Fault (Option CommentError) :=
  if (actual.filter (fun c => c.Position == position)).length ≠ expected.length then
    .ok (some (.numberNotCorrect (actual.filter (fun c => c.Position == position)).length
      expected.length))
  else checkCommentsLoop expected position 0 (actual.filter (fun c => c.Position == position))


/-! ## Lemmas on lists and on what `reflect` reports -/

/-- The first element satisfying a test is what `findIdx?` returns. -/
theorem findIdx_first {α : Type} (p : α → Bool) (l : List α) (i : Nat) (a : α)
    (h : l[i]? = some a) (hp : p a = true)
    (hfirst : ∀ j b, j < i → l[j]? = some b → p b = false) :
    l.findIdx? p = some i := by
  induction l generalizing i with
  | nil => simp at h
  | cons x xs ih =>
    cases i with
    | zero =>
      simp at h
      subst h
      simp [List.findIdx?_cons, hp]
    | succ i =>
      have hx : p x = false := hfirst 0 x (Nat.succ_pos i) (by simp)
      have ih2 := ih i (by simpa using h)
        (fun j b hj hb => hfirst (j + 1) b (Nat.succ_lt_succ hj) (by simpa using hb))
      simp [List.findIdx?_cons, hx, List.findIdx?_succ, ih2]

/-- An index returned by `findIdx?` addresses an element that satisfies the test. -/
theorem findIdx_some_get {α : Type} (p : α → Bool) (l : List α) (i : Nat)
    (h : l.findIdx? p = some i) : ∃ a, l[i]? = some a ∧ p a = true := by
  have h2 := List.findIdx?_of_eq_some h
  cases hg : l[i]? with
  | none => simp [hg] at h2
  | some a =>
    simp [hg] at h2
    exact ⟨a, rfl, h2⟩

/-- A valid index is below the length. -/
theorem getElem_lt_of_some {α : Type} (l : List α) (i : Nat) (a : α) (h : l[i]? = some a) :
    i < l.length := by
  by_contra hge
  rw [List.getElem?_eq_none (Nat.le_of_not_lt hge)] at h
  cases h

/-- The method `FieldByName` finds a field that is the first of its name. -/
theorem FieldByName_first (t : StructType) (i : Nat) (F : StructField)
    (hF : t.fields[i]? = some F)
    (hfirst : ∀ j f, j < i → t.fields[j]? = some f → f.Name ≠ F.Name) :
    t.FieldByName F.Name = some (i, F) := by
  have h := findIdx_first (fun f => f.Name == F.Name) t.fields i F hF (by simp)
    (fun j b hj hb => by simp [hfirst j b hj hb])
  simp [StructType.FieldByName, h, hF]

/-- What `FieldByName` finds is a field of the type that has the name asked for. -/
theorem FieldByName_some (t : StructType) (name : GoString) (i : Nat) (f : StructField)
    (h : t.FieldByName name = some (i, f)) : t.fields[i]? = some f ∧ f.Name = name := by
  unfold StructType.FieldByName at h
  cases hidx : t.fields.findIdx? (fun f => f.Name == name) with
  | none => simp [hidx] at h
  | some k =>
    obtain ⟨a, ha, hpa⟩ := findIdx_some_get _ _ _ hidx
    simp [hidx, ha] at h
    obtain ⟨rfl, rfl⟩ := h
    exact ⟨ha, by simpa using hpa⟩

/-- The method `FieldByName` finds nothing when no field has the name. -/
theorem FieldByName_none (t : StructType) (name : GoString)
    (h : ∀ f ∈ t.fields, f.Name ≠ name) : t.FieldByName name = none := by
  have : t.fields.findIdx? (fun f => f.Name == name) = none := by
    rw [List.findIdx?_eq_none_iff]
    intro f hf
    simpa using h f hf
  simp [StructType.FieldByName, this]

/-- A method found by `MethodByName` has the name asked for and is an exported method of the
method set of the value. -/
theorem MethodByName_method (v : RecordValue) (name n : GoString)
    (h : v.MethodByName name = .method n) :
    n = name ∧ ∃ m ∈ v.methodSet, m.Name = n ∧ m.IsExported = true := by
  unfold RecordValue.MethodByName at h
  cases hf : v.methodSet.find? (fun m => m.Name == name) with
  | none => simp [hf] at h
  | some m =>
    simp [hf] at h
    have hp := List.find?_some hf
    have hm := List.mem_of_find?_eq_some hf
    have hname : m.Name = name := by simpa using hp
    refine ⟨by rw [← h, hname], m, hm, h, ?_⟩
    unfold RecordValue.methodSet at hm
    exact (List.mem_filter.mp hm).2

/-! ## Lemmas on the alias table -/

/-- Reading a Go map after an assignment. -/
theorem lookup_set (m : NameMap) (k kk v : GoString) :
    (m.set kk v).lookup k = if k = kk then some v else m.lookup k := by
  unfold NameMap.set
  rw [List.lookup_cons]
  by_cases h : k = kk
  · simp [h]
  · have : (k == kk) = false := by simpa using h
    simp [this, h]

/-- One step of the loops of `newGoStructObject`, seen from a key. -/
theorem lookup_step (k x kk : GoString) (name : GoString) (b : Bool) (m : NameMap)
    (hx : kk = k → name = x) :
    (if b then some x else (m.set kk name).lookup k)
      = if ((some kk == some k) || b) then some x else m.lookup k := by
  rw [lookup_set]
  by_cases hk : kk = k
  · have := hx hk
    subst this
    cases b <;> simp [hk]
  · have hk2 : ¬ k = kk := fun e => hk e.symm
    cases b <;> simp [hk, hk2]

/-- The alias table after the field loop, key by key, when all fields that bind the key carry
the same name. -/
theorem mapFieldNames_lookup (lc : Bool) (k x : GoString) (fs : List StructField)
    (m m2 : NameMap) (h : mapFieldNames lc fs m = .ok m2)
    (hall : ∀ f ∈ fs, fieldAlias lc f = some k → f.Name = x) :
    m2.lookup k = if fs.any (fun f => fieldAlias lc f == some k) then some x else m.lookup k := by
  induction fs generalizing m with
  | nil =>
    simp [mapFieldNames] at h
    simp [h]
  | cons f rest ih =>
    have hrest : ∀ g ∈ rest, fieldAlias lc g = some k → g.Name = x :=
      fun g hg => hall g (List.mem_cons_of_mem _ hg)
    have hf := hall f (List.mem_cons_self _ _)
    rw [List.any_cons]
    unfold mapFieldNames at h
    by_cases hexp : (!f.IsExported) = true
    · rw [if_pos hexp] at h
      have ha : fieldAlias lc f = none := by unfold fieldAlias; rw [if_pos hexp]
      rw [ih m h hrest, ha]
      simp
    · rw [if_neg hexp] at h
      by_cases hcustom : f.Tag.Get structTag ≠ [] ∧ f.Tag.Get structTag ≠ structTagIgnoreValue
      · rw [if_pos hcustom] at h
        have ha : fieldAlias lc f = some (f.Tag.Get structTag) := by
          unfold fieldAlias; rw [if_neg hexp, if_pos hcustom]
        rw [ih _ h hrest, ha]
        rw [ha] at hf
        exact lookup_step k x _ _ _ m (fun e => hf (by rw [e]))
      · rw [if_neg hcustom] at h
        by_cases hlc : lc = true
        · rw [if_pos hlc] at h
          cases hl : lowerFirst f.Name with
          | error e => rw [hl] at h; cases h
          | ok lowerName =>
            rw [hl] at h
            have ha : fieldAlias lc f = some lowerName := by
              unfold fieldAlias; rw [if_neg hexp, if_neg hcustom, if_pos hlc, hl]
            rw [ih _ h hrest, ha]
            rw [ha] at hf
            exact lookup_step k x _ _ _ m (fun e => hf (by rw [e]))
        · rw [if_neg hlc] at h
          have ha : fieldAlias lc f = none := by
            unfold fieldAlias; rw [if_neg hexp, if_neg hcustom, if_neg hlc]
          rw [ih m h hrest, ha]
          simp

/-- The alias table after the method loop, key by key. -/
theorem mapMethodNames_lookup (k x : GoString) (ms : List Method)
    (m m2 : NameMap) (h : mapMethodNames ms m = .ok m2)
    (hall : ∀ meth ∈ ms, methodAlias meth = some k → meth.Name = x) :
    m2.lookup k = if ms.any (fun meth => methodAlias meth == some k) then some x
      else m.lookup k := by
  induction ms generalizing m with
  | nil =>
    simp [mapMethodNames] at h
    simp [h]
  | cons f rest ih =>
    have hrest : ∀ g ∈ rest, methodAlias g = some k → g.Name = x :=
      fun g hg => hall g (List.mem_cons_of_mem _ hg)
    have hf := hall f (List.mem_cons_self _ _)
    rw [List.any_cons]
    unfold mapMethodNames at h
    by_cases hexp : (!f.IsExported) = true
    · rw [if_pos hexp] at h
      have ha : methodAlias f = none := by unfold methodAlias; rw [if_pos hexp]
      rw [ih m h hrest, ha]
      simp
    · rw [if_neg hexp] at h
      cases hl : lowerFirst f.Name with
      | error e => rw [hl] at h; cases h
      | ok lowerName =>
        rw [hl] at h
        have ha : methodAlias f = some lowerName := by
          unfold methodAlias; rw [if_neg hexp, hl]
        rw [ih _ h hrest, ha]
        rw [ha] at hf
        exact lookup_step k x _ _ _ m (fun e => hf (by rw [e]))

/-- The alias table of a fresh object, key by key: a key is bound exactly when a field or, with
lowercase remapping, a method binds it. -/
theorem newGoStructObject_lookup (v : RecordValue) (lc : Bool) (o : goStructObject)
    (k x : GoString) (h : newGoStructObject v lc = .ok o)
    (hfields : ∀ f ∈ v.typ.fields, fieldAlias lc f = some k → f.Name = x)
    (hmeths : lc = true → ∀ meth ∈ v.methodSet, methodAlias meth = some k → meth.Name = x) :
    o.value = v ∧
    o.jsNames.lookup k =
      if (v.typ.fields.any (fun f => fieldAlias lc f == some k)
          || (lc && v.methodSet.any (fun meth => methodAlias meth == some k)))
      then some x else none := by
  unfold newGoStructObject at h
  cases hm : mapFieldNames lc v.typ.fields [] with
  | error e => rw [hm] at h; cases h
  | ok m =>
    rw [hm] at h
    have h1 := mapFieldNames_lookup lc k x _ _ _ hm hfields
    by_cases hlc : lc = true
    · simp only [hlc, if_true] at h
      cases hm2 : mapMethodNames v.methodSet m with
      | error e => rw [hm2] at h; cases h
      | ok m2 =>
        rw [hm2] at h
        cases h
        have h2 := mapMethodNames_lookup k x _ _ _ hm2 (hmeths hlc)
        refine ⟨rfl, ?_⟩
        show m2.lookup k = _
        rw [h2, h1, hlc]
        cases (v.typ.fields.any fun f => fieldAlias true f == some k) <;>
          cases (v.methodSet.any fun meth => methodAlias meth == some k) <;> simp
    · have hlc2 : lc = false := by simpa using hlc
      simp only [hlc2] at h
      cases h
      refine ⟨rfl, ?_⟩
      show m.lookup k = _
      rw [h1, hlc2]
      simp

/-- A member of a list that binds a key makes the `any` test true. -/
theorem any_alias_of_mem {α : Type} (l : List α) (g : α → Option GoString) (a : α)
    (k : GoString) (ha : a ∈ l) (hg : g a = some k) :
    l.any (fun b => g b == some k) = true := by
  rw [List.any_eq_true]
  exact ⟨a, ha, by simp [hg]⟩

/-- The lowercase alias of a name that starts with an ASCII capital is not empty and does not
start with one. -/
theorem lowerFirst_of_valid (name lower : GoString) (hname : validGoStructName name = true)
    (hlower : lowerFirst name = .ok lower) :
    validGoStructName lower = false ∧ lower ≠ [] := by
  cases name with
  | nil => simp [validGoStructName] at hname
  | cons b rest =>
    simp [validGoStructName] at hname
    have hb : b < 128 := by omega
    simp [lowerFirst, toLowerByte, hb, hname] at hlower
    subst hlower
    refine ⟨?_, by simp⟩
    simp [validGoStructName]
    omega

/-! ## Lemmas on `getValue` -/

/-- Reading a field that is not hidden by its Go name. -/
theorem getValue_field_name (fieldIndexByName : StructType → GoString → List Nat)
    (o : goStructObject) (i : Nat) (F : StructField) (fuel : Nat)
    (hF : o.value.typ.fields[i]? = some F)
    (hfirst : ∀ j f, j < i → o.value.typ.fields[j]? = some f → f.Name ≠ F.Name)
    (hname : validGoStructName F.Name = true)
    (htag : F.Tag.Get structTag ≠ structTagIgnoreValue)
    (hidx : fieldIndexByName o.value.typ F.Name = [] ∨
      fieldIndexByName o.value.typ F.Name = [i]) :
    getValue fieldIndexByName o (fuel + 1) F.Name = .ok (.field i) := by
  have hlt := getElem_lt_of_some _ _ _ hF
  rcases hidx with h0 | h1
  · have hfb := FieldByName_first o.value.typ i F hF hfirst
    simp [getValue, h0, hname, hfb, htag, RecordValue.FieldByName, MemberValue.IsValid]
  · simp [getValue, h1, RecordValue.FieldByIndex, hlt]

/-- Reading a method by its Go name. -/
theorem getValue_method_name (fieldIndexByName : StructType → GoString → List Nat)
    (o : goStructObject) (M : Method) (fuel : Nat)
    (hM : M ∈ o.value.methodSet)
    (hname : validGoStructName M.Name = true)
    (hnofield : ∀ f ∈ o.value.typ.fields, f.Name ≠ M.Name)
    (hidx : fieldIndexByName o.value.typ M.Name = []) :
    getValue fieldIndexByName o (fuel + 1) M.Name = .ok (.method M.Name) := by
  have hfb := FieldByName_none o.value.typ M.Name hnofield
  have hfind : ∃ m2, o.value.methodSet.find? (fun m => m.Name == M.Name) = some m2 ∧
      m2.Name = M.Name := by
    cases hf : o.value.methodSet.find? (fun m => m.Name == M.Name) with
    | none =>
      rw [List.find?_eq_none] at hf
      exact absurd (by simp) (hf M hM)
    | some m2 =>
      exact ⟨m2, rfl, by simpa using List.find?_some hf⟩
  obtain ⟨m2, hm2, hn2⟩ := hfind
  simp [getValue, hidx, hname, hfb, RecordValue.FieldByName, RecordValue.MethodByName, hm2, hn2,
    MemberValue.IsValid]

/-- Reading a hidden field by its Go name gives the zero value. -/
theorem getValue_hidden_name (fieldIndexByName : StructType → GoString → List Nat)
    (o : goStructObject) (i : Nat) (F : StructField) (fuel : Nat)
    (hF : o.value.typ.fields[i]? = some F)
    (hfirst : ∀ j f, j < i → o.value.typ.fields[j]? = some f → f.Name ≠ F.Name)
    (htag : F.Tag.Get structTag = structTagIgnoreValue)
    (hname : validGoStructName F.Name = true)
    (hidx : fieldIndexByName o.value.typ F.Name = []) :
    getValue fieldIndexByName o (fuel + 1) F.Name = .ok .zero := by
  have hfb := FieldByName_first o.value.typ i F hF hfirst
  simp [getValue, hidx, hname, hfb, htag]

/-- A name that is no Go name and that the index lookup does not resolve goes through the alias
table. -/
theorem getValue_alias (fieldIndexByName : StructType → GoString → List Nat)
    (o : goStructObject) (fuel : Nat) (lower : GoString)
    (hvalid : validGoStructName lower = false) (hne : lower ≠ [])
    (hidx : fieldIndexByName o.value.typ lower = []) :
    getValue fieldIndexByName o (fuel + 1) lower =
      match o.jsNames.lookup lower with
      | none => .ok .zero
      | some mappedName => getValue fieldIndexByName o fuel mappedName := by
  rw [getValue]
  simp [hidx, hvalid, hne]

/-- No name makes `getValue` return a hidden field that the index lookup never resolves. -/
theorem getValue_ne_hidden (fieldIndexByName : StructType → GoString → List Nat)
    (o : goStructObject) (i : Nat) (F : StructField)
    (hF : o.value.typ.fields[i]? = some F)
    (htag : F.Tag.Get structTag = structTagIgnoreValue)
    (hnever : ∀ name, fieldIndexByName o.value.typ name ≠ [i])
    (fuel : Nat) (name : GoString) :
    getValue fieldIndexByName o fuel name ≠ .ok (.field i) := by
  induction fuel generalizing name with
  | zero => simp [getValue]
  | succ fuel ih =>
    intro h
    unfold getValue at h
    split at h
    · unfold RecordValue.FieldByIndex at h
      split at h
      · rename_i k hk
        split at h
        · cases h
          exact hnever name hk
        · cases h
      · cases h
    · split at h
      · split at h
        · cases h
        · rename_i hcheck
          split at h
          · unfold RecordValue.FieldByName at h
            cases hfb : o.value.typ.FieldByName name with
            | none => simp [hfb] at h
            | some p =>
              obtain ⟨k, ft⟩ := p
              simp [hfb] at h
              subst h
              obtain ⟨hk, _⟩ := FieldByName_some _ _ _ _ hfb
              rw [hF] at hk
              cases hk
              simp [hfb, htag] at hcheck
          · split at h
            · unfold RecordValue.MethodByName at h
              cases hf : o.value.methodSet.find? (fun m => m.Name == name) with
              | none => simp [hf] at h
              | some p => simp [hf] at h
            · cases h
      · split at h
        · split at h
          · cases h
          · exact ih _ h
        · cases h

/-! ## The claims on host records -/

/-- The stand-in `indexByGoName` resolves a name to a field of that name, and only a name that
passes `validGoStructName`. -/
theorem indexByGoName_valid (t : StructType) (n : GoString) (i : Nat) (f : StructField)
    (h : indexByGoName t n = [i]) (hf : t.fields[i]? = some f) :
    validGoStructName f.Name = true ∧ f.Name = n := by
  unfold indexByGoName at h
  by_cases hv : validGoStructName n = true
  · rw [if_pos hv] at h
    cases hidx : t.fields.findIdx? (fun g => g.Name == n) with
    | none => rw [hidx] at h; cases h
    | some j =>
      rw [hidx] at h
      have hj : j = i := by simpa using h
      subst hj
      obtain ⟨a, ha, hpa⟩ := findIdx_some_get _ _ _ hidx
      rw [hf] at ha
      cases ha
      have hn : f.Name = n := by simpa using hpa
      exact ⟨by rw [hn]; exact hv, hn⟩
  · rw [if_neg hv] at h
    cases h

/-- The stand-in `indexByGoName` gives no index, or the index of a field. -/
theorem indexByGoName_shape (t : StructType) (n : GoString) :
    indexByGoName t n = [] ∨ ∃ j, indexByGoName t n = [j] ∧ j < t.fields.length := by
  unfold indexByGoName
  by_cases hv : validGoStructName n = true
  · rw [if_pos hv]
    cases hidx : t.fields.findIdx? (fun g => g.Name == n) with
    | none => exact Or.inl rfl
    | some j =>
      obtain ⟨a, ha, _⟩ := findIdx_some_get _ _ _ hidx
      exact Or.inr ⟨j, rfl, getElem_lt_of_some _ _ _ ha⟩
  · rw [if_neg hv]
    exact Or.inl rfl

/-- The stand-in `indexByGoName` resolves the name of every field that passes
`validGoStructName`. -/
theorem indexByGoName_resolves (t : StructType) (f : StructField) (hf : f ∈ t.fields)
    (hv : validGoStructName f.Name = true) :
    ∃ j, indexByGoName t f.Name = [j] ∧ j < t.fields.length := by
  rcases indexByGoName_shape t f.Name with h | h
  · unfold indexByGoName at h
    rw [if_pos hv] at h
    cases hidx : t.fields.findIdx? (fun g => g.Name == f.Name) with
    | none =>
      rw [List.findIdx?_eq_none_iff] at hidx
      have := hidx f hf
      simp at this
    | some j => rw [hidx] at h; cases h
  · exact h

/-- The stand-in `indexSkippingHidden` never gives the index of a field with the tag `-`. -/
theorem indexSkippingHidden_ne_hidden (t : StructType) (n : GoString) (i : Nat) (f : StructField)
    (hf : t.fields[i]? = some f) (htag : f.Tag.Get structTag = structTagIgnoreValue) :
    indexSkippingHidden t n ≠ [i] := by
  intro h
  unfold indexSkippingHidden at h
  by_cases hv : validGoStructName n = true
  · rw [if_pos hv] at h
    cases hidx : t.fields.findIdx? (fun g =>
        g.Name == n && !(g.Tag.Get structTag == structTagIgnoreValue)) with
    | none => rw [hidx] at h; cases h
    | some j =>
      rw [hidx] at h
      have hj : j = i := by simpa using h
      subst hj
      obtain ⟨a, ha, hpa⟩ := findIdx_some_get _ _ _ hidx
      rw [hf] at ha
      cases ha
      simp [htag] at hpa
  · rw [if_neg hv] at h
    cases h

/-- What the code does for the fields claim C1 is about when their name starts with an ASCII
capital: for every host record, passed by value or by pointer, and every field `F` of it that
carries no `otto` tag, whose Go name passes `validGoStructName` and which `fieldIndexByName`
resolves to `F` or not at all, `getValue(F.Name)` returns the valid value of `F`, which holds the
current value of `F`, and `goStructGetOwnProperty` makes a property of mode `0o110` from it. -/
theorem getValue_untagged_field {V : Type}
    (fieldIndexByName : StructType → GoString → List Nat)
    (toValue : RecordValue → MemberValue → V)
    (o : goStructObject) (i : Nat) (F : StructField) (x : GoVal) (fuel : Nat)
    (hF : o.value.typ.fields[i]? = some F)
    (hfirst : ∀ j f, j < i → o.value.typ.fields[j]? = some f → f.Name ≠ F.Name)
    (hx : o.value.fieldVals[i]? = some x)
    (hname : validGoStructName F.Name = true)
    (htag : F.Tag.Get structTag = [])
    (hidx : fieldIndexByName o.value.typ F.Name = [] ∨
      fieldIndexByName o.value.typ F.Name = [i]) :
    getValue fieldIndexByName o (fuel + 1) F.Name = .ok (.field i) ∧
    o.value.read (.field i) = some x ∧
    goStructGetOwnProperty fieldIndexByName toValue o (fuel + 1) F.Name
      = .ok (.property (toValue o.value (.field i)) 72) := by
  have hget := getValue_field_name fieldIndexByName o i F fuel hF hfirst hname
    (by rw [htag]; decide) hidx
  refine ⟨hget, by simpa [RecordValue.read] using hx, ?_⟩
  simp [goStructGetOwnProperty, hget, MemberValue.IsValid]

/-- The reading of `Val` at `struct{ Val int }{Val: 10}` of `TestOttoCall`: it gives 10. -/
theorem getValue_untagged_field_witness :
    getValue noIndex ⟨valRecord, []⟩ 1 (str "Val") = .ok (.field 0) ∧
    valRecord.read (.field 0) = some (.int 10) ∧
    goStructGetOwnProperty noIndex (fun v m => v.read m) ⟨valRecord, []⟩ 1 (str "Val")
      = .ok (.property (some (.int 10)) 72) :=
  getValue_untagged_field noIndex (fun v m => v.read m) ⟨valRecord, []⟩ 0 valField (.int 10) 0
    rfl (fun j _ hj _ => absurd hj (Nat.not_lt_zero j)) rfl (by decide) (by decide) (Or.inl rfl)

/-- The field `Éa` with a lookup that resolves no name: it is an exported field without a tag,
and `getValue` returns the zero value for its name. -/
theorem unicode_field_not_found :
    unicodeRecord.typ.fields[0]? = some unicodeField ∧
    unicodeField.IsExported = true ∧
    unicodeField.Tag.Get structTag = [] ∧
    newGoStructObject unicodeRecord false = .ok ⟨unicodeRecord, []⟩ ∧
    getValue noIndex ⟨unicodeRecord, []⟩ 3 unicodeField.Name = .ok .zero := by
  decide

/-- Claim C1 fails on the code for a field whose name starts with an upper-case letter that is
not ASCII: the field `Éa` of `struct{ Éa int }{10}` is exported, has no `otto` tag and holds 10,
`newGoStructObject` treats it as exported, with or without lowercase remapping, but `getValue`
tests the name with `validGoStructName`, which looks for an ASCII capital; so for every
`fieldIndexByName` that does not resolve the name `Éa`, as the name test of the package does not
accept it, `getValue("Éa")` is the zero value and `goStructGetOwnProperty` makes no property of
the field. -/
theorem unicode_field_unreadable {V : Type}
    (fieldIndexByName : StructType → GoString → List Nat)
    (toValue : RecordValue → MemberValue → V)
    (lowercaseFields : Bool) (o : goStructObject) (fuel : Nat)
    (hnew : newGoStructObject unicodeRecord lowercaseFields = .ok o)
    (hidx : fieldIndexByName unicodeRecord.typ unicodeField.Name = []) :
    unicodeRecord.typ.fields[0]? = some unicodeField ∧
    unicodeField.IsExported = true ∧
    unicodeField.Tag.Get structTag = [] ∧
    unicodeRecord.read (.field 0) = some (.int 10) ∧
    getValue fieldIndexByName o (fuel + 1) unicodeField.Name = .ok .zero ∧
    goStructGetOwnProperty fieldIndexByName toValue o (fuel + 1) unicodeField.Name
      = .ok (.objectGetOwnProperty unicodeField.Name) := by
  have hget : getValue fieldIndexByName o (fuel + 1) unicodeField.Name = .ok .zero := by
    cases lowercaseFields with
    | false =>
      have h2 : newGoStructObject unicodeRecord false = .ok ⟨unicodeRecord, []⟩ := by decide
      rw [h2] at hnew
      cases hnew
      rw [getValue_alias fieldIndexByName _ fuel unicodeField.Name (by decide) (by decide) hidx]
      rfl
    | true =>
      have h2 : newGoStructObject unicodeRecord true
          = .ok ⟨unicodeRecord, [([239, 191, 189, 137, 97], [195, 137, 97])]⟩ := by decide
      rw [h2] at hnew
      cases hnew
      rw [getValue_alias fieldIndexByName _ fuel unicodeField.Name (by decide) (by decide) hidx]
      rfl
  refine ⟨by decide, by decide, by decide, by decide, hget, ?_⟩
  simp [goStructGetOwnProperty, hget, MemberValue.IsValid]

/-- Claim C1, the failure at `struct{ Éa int }{10}` with lowercase remapping and the lookup
`indexByGoName`, which resolves the Go names that pass the name test: `getValue("Éa")` is the
zero value although the field is exported and holds 10. -/
theorem unicode_field_unreadable_witness :
    newGoStructObject unicodeRecord true
      = .ok ⟨unicodeRecord, [([239, 191, 189, 137, 97], [195, 137, 97])]⟩ ∧
    indexByGoName unicodeRecord.typ unicodeField.Name = [] ∧
    unicodeField.IsExported = true ∧
    unicodeRecord.read (.field 0) = some (.int 10) ∧
    getValue indexByGoName ⟨unicodeRecord, [([239, 191, 189, 137, 97], [195, 137, 97])]⟩ 1
      unicodeField.Name = .ok .zero :=
  have h := unicode_field_unreadable indexByGoName memberAndValue true
    ⟨unicodeRecord, [([239, 191, 189, 137, 97], [195, 137, 97])]⟩ 0 (by decide) (by decide)
  ⟨by decide, by decide, h.2.1, h.2.2.2.1, h.2.2.2.2.1⟩

/-- Claim C2, amended: for every host record and every field `F` whose `otto` tag is `-`, whose
Go name starts with an ASCII capital and which is the first field of its name: when
`fieldIndexByName` does not resolve the Go name, `getValue` of the Go name returns the zero
value, so that `goStructGetOwnProperty` hands the name to the ordinary `objectGetOwnProperty`;
when it does not resolve `lowerFirst` of the name either and no other member binds that alias,
`getValue` of `lowerFirst` of the name returns the zero value; and when `fieldIndexByName` never
resolves to `F`, no name at all makes `getValue` return `F`. The conditions on the lookup are
needed: with any lookup that resolves a name to `F`, `getValue` of that name returns `F`,
because the index lookup comes before the check of the tag. -/
theorem hidden_field_not_exposed {V : Type}
    (fieldIndexByName : StructType → GoString → List Nat)
    (toValue : RecordValue → MemberValue → V)
    (v : RecordValue) (lowercaseFields : Bool) (o : goStructObject)
    (i : Nat) (F : StructField) (lower name : GoString) (fuel fuel2 : Nat)
    (hnew : newGoStructObject v lowercaseFields = .ok o)
    (hF : v.typ.fields[i]? = some F)
    (hfirst : ∀ j f, j < i → v.typ.fields[j]? = some f → f.Name ≠ F.Name)
    (htag : F.Tag.Get structTag = structTagIgnoreValue)
    (hname : validGoStructName F.Name = true)
    (hlower : lowerFirst F.Name = .ok lower)
    (hidx : fieldIndexByName v.typ F.Name = [])
    (hidxLower : fieldIndexByName v.typ lower = [])
    (hnever : ∀ n, fieldIndexByName v.typ n ≠ [i])
    (hfields : ∀ f ∈ v.typ.fields, fieldAlias lowercaseFields f = some lower → f.Name = F.Name)
    (hmeths : lowercaseFields = true →
      ∀ meth ∈ v.methodSet, methodAlias meth = some lower → meth.Name = F.Name) :
    getValue fieldIndexByName o (fuel + 1) F.Name = .ok .zero ∧
    getValue fieldIndexByName o (fuel + 2) lower = .ok .zero ∧
    goStructGetOwnProperty fieldIndexByName toValue o (fuel + 1) F.Name
      = .ok (.objectGetOwnProperty F.Name) ∧
    getValue fieldIndexByName o fuel2 name ≠ .ok (.field i) ∧
    (∀ (lookup : StructType → GoString → List Nat) (n : GoString), lookup v.typ n = [i] →
      getValue lookup o (fuel + 1) n = .ok (.field i)) := by
  obtain ⟨hv, hlook⟩ := newGoStructObject_lookup v lowercaseFields o lower F.Name hnew hfields hmeths
  subst hv
  have hzero : ∀ n, getValue fieldIndexByName o (n + 1) F.Name = .ok .zero :=
    fun n => getValue_hidden_name fieldIndexByName o i F n hF hfirst htag hname hidx
  obtain ⟨hlv, hlne⟩ := lowerFirst_of_valid _ _ hname hlower
  have hlt := getElem_lt_of_some _ _ _ hF
  refine ⟨hzero fuel, ?_, ?_,
    getValue_ne_hidden fieldIndexByName o i F hF htag hnever fuel2 name, ?_⟩
  · rw [getValue_alias fieldIndexByName o (fuel + 1) lower hlv hlne hidxLower, hlook]
    split_ifs
    · exact hzero fuel
    · rfl
  · simp [goStructGetOwnProperty, hzero fuel, MemberValue.IsValid]
  · intro lookup n hn
    simp [getValue, hn, RecordValue.FieldByIndex, hlt]

/-- Claim C2, the theorem at `struct{ Hidden int; Val int }` with lowercase remapping and the
lookup `indexSkippingHidden`, which resolves `Val` and passes over `Hidden`. -/
theorem hidden_field_not_exposed_witness :
    indexSkippingHidden hiddenRecord.typ (str "Val") = [1] ∧
    getValue indexSkippingHidden
      ⟨hiddenRecord, [(str "val", str "Val"), (str "hidden", str "Hidden")]⟩ 1
      (str "Hidden") = .ok .zero ∧
    getValue indexSkippingHidden
      ⟨hiddenRecord, [(str "val", str "Val"), (str "hidden", str "Hidden")]⟩ 2
      (str "hidden") = .ok .zero ∧
    goStructGetOwnProperty indexSkippingHidden (fun v m => v.read m)
      ⟨hiddenRecord, [(str "val", str "Val"), (str "hidden", str "Hidden")]⟩ 1 (str "Hidden")
      = .ok (.objectGetOwnProperty (str "Hidden")) ∧
    getValue indexSkippingHidden
      ⟨hiddenRecord, [(str "val", str "Val"), (str "hidden", str "Hidden")]⟩ 3
      (str "hidden") ≠ .ok (.field 0) ∧
    getValue indexByGoName
      ⟨hiddenRecord, [(str "val", str "Val"), (str "hidden", str "Hidden")]⟩ 1
      (str "Hidden") = .ok (.field 0) :=
  have h := hidden_field_not_exposed indexSkippingHidden (fun v m => v.read m) hiddenRecord true
    ⟨hiddenRecord, [(str "val", str "Val"), (str "hidden", str "Hidden")]⟩ 0 hiddenField
    (str "hidden") (str "hidden") 0 3
    (by decide) rfl (fun j _ hj _ => absurd hj (Nat.not_lt_zero j)) (by decide) (by decide)
    (by decide) (by decide) (by decide)
    (fun n => indexSkippingHidden_ne_hidden hiddenRecord.typ n 0 hiddenField rfl (by decide))
    (by decide) (by decide)
  ⟨by decide, h.1, h.2.1, h.2.2.1, h.2.2.2.1,
    h.2.2.2.2 indexByGoName (str "Hidden") (by decide)⟩

/-- Claim C2 as stated fails: with lowercase remapping, the alias `hidden` of the hidden field
`Hidden` is bound again by the tag of `Shown`, and `getValue("hidden")` returns the valid value
of `Shown`, not the zero value; so it is with the lookup that resolves no name, and with every
lookup that gives for `hidden` and for `Shown` no index or the index of `Shown`. -/
theorem hidden_alias_rebound :
    shadowedRecord.typ.fields[0]? = some hiddenField ∧
    hiddenField.Tag.Get structTag = structTagIgnoreValue ∧
    lowerFirst hiddenField.Name = .ok (str "hidden") ∧
    newGoStructObject shadowedRecord true
      = .ok ⟨shadowedRecord, [(str "hidden", str "Shown"), (str "hidden", str "Hidden")]⟩ ∧
    getValue noIndex ⟨shadowedRecord, [(str "hidden", str "Shown"), (str "hidden", str "Hidden")]⟩
      3 (str "hidden") = .ok (.field 1) ∧
    (MemberValue.field 1).IsValid = true ∧
    ∀ (lookup : StructType → GoString → List Nat) (fuel : Nat),
      (lookup shadowedRecord.typ (str "hidden") = [] ∨
        lookup shadowedRecord.typ (str "hidden") = [1]) →
      (lookup shadowedRecord.typ (str "Shown") = [] ∨
        lookup shadowedRecord.typ (str "Shown") = [1]) →
      getValue lookup
        ⟨shadowedRecord, [(str "hidden", str "Shown"), (str "hidden", str "Hidden")]⟩
        (fuel + 2) (str "hidden") = .ok (.field 1) := by
  refine ⟨by decide, by decide, by decide, by decide, by decide, by decide, ?_⟩
  intro lookup fuel h1 h2
  rcases h1 with h1 | h1
  · rw [getValue_alias lookup _ (fuel + 1) (str "hidden") (by decide) (by decide) h1]
    have hl : List.lookup (str "hidden")
        [(str "hidden", str "Shown"), (str "hidden", str "Hidden")] = some (str "Shown") := by
      decide
    simp only [hl]
    exact getValue_field_name lookup
      ⟨shadowedRecord, [(str "hidden", str "Shown"), (str "hidden", str "Hidden")]⟩ 1 shownField
      fuel rfl
      (fun j f hj hf => by
        have hj0 : j = 0 := by omega
        subst hj0
        have : f = hiddenField := by
          have h3 : shadowedRecord.typ.fields[0]? = some hiddenField := rfl
          rw [h3] at hf
          exact (Option.some.inj hf).symm
        rw [this]
        decide)
      (by decide) (by decide) h2
  · have hlt : 1 < shadowedRecord.typ.fields.length := by decide
    simp [getValue, h1, RecordValue.FieldByIndex, hlt]

/-- Claim C3: for every host record whose fields with a name starting with an ASCII capital are
exported (as they are in every Go struct type), every value that `getValue` returns, for every
name and whatever the alias table holds, is an exported method of the method set of the value,
or an exported field, or the field that `fieldIndexByName` gave the index of, which `getValue`
returns as it is; so when `fieldIndexByName` resolves only to fields whose name passes
`validGoStructName`, the name test of the package, no value of `getValue` is an unexported
field. -/
theorem getValue_only_exported
    (fieldIndexByName : StructType → GoString → List Nat) (o : goStructObject)
    (hwf : ∀ f ∈ o.value.typ.fields, validGoStructName f.Name = true → f.IsExported = true)
    (fuel : Nat) (name : GoString) (m : MemberValue)
    (h : getValue fieldIndexByName o fuel name = .ok m) :
    (∀ i, m = .field i →
      (∃ f, o.value.typ.fields[i]? = some f ∧ f.IsExported = true) ∨
      (∃ n f, fieldIndexByName o.value.typ n = [i] ∧ o.value.typ.fields[i]? = some f)) ∧
    (∀ n, m = .method n → ∃ meth ∈ o.value.methodSet, meth.Name = n ∧ meth.IsExported = true) ∧
    ((∀ n i f, fieldIndexByName o.value.typ n = [i] → o.value.typ.fields[i]? = some f →
        validGoStructName f.Name = true) →
      ∀ i, m = .field i → ∃ f, o.value.typ.fields[i]? = some f ∧ f.IsExported = true) := by
  have main : (∀ i, m = .field i →
      (∃ f, o.value.typ.fields[i]? = some f ∧ f.IsExported = true) ∨
      (∃ n f, fieldIndexByName o.value.typ n = [i] ∧ o.value.typ.fields[i]? = some f)) ∧
      (∀ n, m = .method n →
        ∃ meth ∈ o.value.methodSet, meth.Name = n ∧ meth.IsExported = true) := by
    induction fuel generalizing name with
    | zero => simp [getValue] at h
    | succ fuel ih =>
      unfold getValue at h
      split at h
      · -- resolved by the index lookup
        rename_i hlen
        unfold RecordValue.FieldByIndex at h
        split at h
        · rename_i k hk
          split at h
          · rename_i hlt
            cases h
            refine ⟨fun i hi => ?_, fun _ hn => (nomatch hn)⟩
            cases hi
            have hsome : o.value.typ.fields[k]? = some (o.value.typ.fields[k]) :=
              List.getElem?_eq_getElem hlt
            exact Or.inr ⟨name, _, hk, hsome⟩
          · cases h
        · cases h
      · split at h
        · rename_i hvalid
          split at h
          · cases h
            exact ⟨fun _ hi => (nomatch hi), fun _ hn => (nomatch hn)⟩
          · split at h
            · cases h
              refine ⟨fun i hi => ?_, fun n hn => ?_⟩
              · unfold RecordValue.FieldByName at hi
                cases hfb : o.value.typ.FieldByName name with
                | none => simp [hfb] at hi
                | some p =>
                  obtain ⟨k, f⟩ := p
                  simp [hfb] at hi
                  subst hi
                  obtain ⟨hk, hn⟩ := FieldByName_some _ _ _ _ hfb
                  refine Or.inl ⟨f, hk, hwf f (List.getElem?_mem hk) ?_⟩
                  rw [hn]; exact hvalid
              · unfold RecordValue.FieldByName at hn
                cases hfb : o.value.typ.FieldByName name with
                | none => simp [hfb] at hn
                | some p => simp [hfb] at hn
            · split at h
              · cases h
                refine ⟨fun i hi => ?_, fun n hn => ?_⟩
                · unfold RecordValue.MethodByName at hi
                  cases hf : o.value.methodSet.find? (fun m => m.Name == name) with
                  | none => simp [hf] at hi
                  | some p => simp [hf] at hi
                · exact (MethodByName_method _ _ _ hn).2
              · cases h
                exact ⟨fun _ hi => (nomatch hi), fun _ hn => (nomatch hn)⟩
        · split at h
          · split at h
            · cases h
              exact ⟨fun _ hi => (nomatch hi), fun _ hn => (nomatch hn)⟩
            · exact ih _ h
          · cases h
            exact ⟨fun _ hi => (nomatch hi), fun _ hn => (nomatch hn)⟩
  refine ⟨main.1, main.2, fun hlookup i hi => ?_⟩
  rcases main.1 i hi with hexp | ⟨n, f, hn, hf⟩
  · exact hexp
  · exact ⟨f, hf, hwf f (List.getElem?_mem hf) (hlookup n i f hn hf)⟩

/-- Claim C3, the theorem at `struct{ secret int; Val int }{1, 2}` with the lookup
`indexByGoName`: `getValue("Val")` is the second field, which is exported, and
`getValue("secret")` is the zero value, not the unexported field. -/
theorem getValue_only_exported_witness :
    secretField.IsExported = false ∧
    getValue indexByGoName ⟨secretRecord, []⟩ 1 (str "Val") = .ok (.field 1) ∧
    (∃ f, secretRecord.typ.fields[1]? = some f ∧ f.IsExported = true) ∧
    getValue indexByGoName ⟨secretRecord, []⟩ 1 (str "secret") = .ok .zero :=
  ⟨by decide, by decide,
    (getValue_only_exported indexByGoName ⟨secretRecord, []⟩ (by decide) 1 (str "Val")
      (.field 1) (by decide)).2.2
      (fun n i f hn hf => (indexByGoName_valid secretRecord.typ n i f hn hf).1) 1 rfl,
    by decide⟩

/-- Claim C4 fails on the code: the field `Val` has the tag `Value`, `newGoStructObject` binds
`Value` to `Val` in the alias table, yet `getValue("Value")` returns the zero value while
`getValue("Val")` returns the field, because a name starting with an ASCII capital never reaches
the alias table. -/
theorem upper_case_tag_unresolved :
    upperTagRecord.typ.fields[0]? = some upperTagField ∧
    upperTagField.IsExported = true ∧
    upperTagField.Tag.Get structTag = str "Value" ∧
    newGoStructObject upperTagRecord false
      = .ok ⟨upperTagRecord, [(str "Value", str "Val")]⟩ ∧
    getValue noIndex ⟨upperTagRecord, [(str "Value", str "Val")]⟩ 3 (str "Value") = .ok .zero ∧
    getValue noIndex ⟨upperTagRecord, [(str "Value", str "Val")]⟩ 3 (str "Val")
      = .ok (.field 0) := by
  decide

/-- The sibling case of claim C4 that the code handles: a custom tag `t` that does not start with
an ASCII capital, that no other member binds and that `fieldIndexByName` does not resolve, reads
the field it is written on, like the Go name of the field does. -/
theorem custom_tag_resolves
    (fieldIndexByName : StructType → GoString → List Nat)
    (v : RecordValue) (lowercaseFields : Bool) (o : goStructObject)
    (i : Nat) (F : StructField) (fuel : Nat)
    (hnew : newGoStructObject v lowercaseFields = .ok o)
    (hF : v.typ.fields[i]? = some F)
    (hfirst : ∀ j f, j < i → v.typ.fields[j]? = some f → f.Name ≠ F.Name)
    (hexp : F.IsExported = true)
    (hname : validGoStructName F.Name = true)
    (hcustom : F.Tag.Get structTag ≠ [] ∧ F.Tag.Get structTag ≠ structTagIgnoreValue)
    (hlow : validGoStructName (F.Tag.Get structTag) = false)
    (hidx : fieldIndexByName v.typ F.Name = [] ∨ fieldIndexByName v.typ F.Name = [i])
    (hidxTag : fieldIndexByName v.typ (F.Tag.Get structTag) = [])
    (hfields : ∀ f ∈ v.typ.fields,
      fieldAlias lowercaseFields f = some (F.Tag.Get structTag) → f.Name = F.Name)
    (hmeths : lowercaseFields = true →
      ∀ meth ∈ v.methodSet, methodAlias meth = some (F.Tag.Get structTag) →
        meth.Name = F.Name) :
    getValue fieldIndexByName o (fuel + 1) F.Name = .ok (.field i) ∧
    getValue fieldIndexByName o (fuel + 2) (F.Tag.Get structTag) = .ok (.field i) := by
  obtain ⟨hv, hlook⟩ :=
    newGoStructObject_lookup v lowercaseFields o (F.Tag.Get structTag) F.Name hnew hfields hmeths
  subst hv
  have halias : fieldAlias lowercaseFields F = some (F.Tag.Get structTag) := by
    have hne : ¬ ((!F.IsExported) = true) := by simp [hexp]
    unfold fieldAlias
    rw [if_neg hne, if_pos hcustom]
  rw [any_alias_of_mem _ (fieldAlias lowercaseFields) F _ (List.getElem?_mem hF) halias] at hlook
  simp only [Bool.true_or, if_true] at hlook
  have hg : ∀ n, getValue fieldIndexByName o (n + 1) F.Name = .ok (.field i) :=
    fun n => getValue_field_name fieldIndexByName o i F n hF hfirst hname hcustom.2 hidx
  refine ⟨hg fuel, ?_⟩
  rw [getValue_alias fieldIndexByName o (fuel + 1) _ hlow hcustom.1 hidxTag, hlook]
  exact hg fuel

/-- The sibling case at `struct{ Val int }` with the tag `otto:"value"`: `value` reads `Val`. -/
theorem custom_tag_resolves_example :
    getValue noIndex ⟨lowerTagRecord, [(str "value", str "Val")]⟩ 1 (str "Val")
      = .ok (.field 0) ∧
    getValue noIndex ⟨lowerTagRecord, [(str "value", str "Val")]⟩ 2 (str "value")
      = .ok (.field 0) :=
  custom_tag_resolves noIndex lowerTagRecord false ⟨lowerTagRecord, [(str "value", str "Val")]⟩
    0 lowerTagField 0 (by decide) rfl (fun j _ hj _ => absurd hj (Nat.not_lt_zero j))
    (by decide) (by decide) (by decide) (by decide) (Or.inl rfl) rfl (by decide) (by decide)

/-- With lowercase remapping, an exported field without an `otto` tag is read by its Go name and
by `lowerFirst` of it, when no other member binds that alias and `fieldIndexByName` resolves the
Go name to the field or not at all and does not resolve the alias. -/
theorem lowercase_alias_field
    (fieldIndexByName : StructType → GoString → List Nat)
    (v : RecordValue) (o : goStructObject)
    (i : Nat) (F : StructField) (lowerF : GoString) (fuel : Nat)
    (hnew : newGoStructObject v true = .ok o)
    (hF : v.typ.fields[i]? = some F)
    (hfirst : ∀ j f, j < i → v.typ.fields[j]? = some f → f.Name ≠ F.Name)
    (hexp : F.IsExported = true)
    (hnameF : validGoStructName F.Name = true)
    (htag : F.Tag.Get structTag = [])
    (hlowerF : lowerFirst F.Name = .ok lowerF)
    (hidxF : fieldIndexByName v.typ F.Name = [] ∨ fieldIndexByName v.typ F.Name = [i])
    (hidxLowerF : fieldIndexByName v.typ lowerF = [])
    (hfieldsF : ∀ f ∈ v.typ.fields, fieldAlias true f = some lowerF → f.Name = F.Name)
    (hmethsF : ∀ meth ∈ v.methodSet, methodAlias meth = some lowerF → meth.Name = F.Name) :
    getValue fieldIndexByName o (fuel + 1) F.Name = .ok (.field i) ∧
    getValue fieldIndexByName o (fuel + 2) lowerF = .ok (.field i) := by
  obtain ⟨hv, hlookF⟩ :=
    newGoStructObject_lookup v true o lowerF F.Name hnew hfieldsF (fun _ => hmethsF)
  subst hv
  have hFmem : F ∈ o.value.typ.fields := List.getElem?_mem hF
  have haliasF : fieldAlias true F = some lowerF := by
    have hne : ¬ ((!F.IsExported) = true) := by simp [hexp]
    have hnc : ¬ (F.Tag.Get structTag ≠ [] ∧ F.Tag.Get structTag ≠ structTagIgnoreValue) := by
      simp [htag]
    unfold fieldAlias
    rw [if_neg hne, if_neg hnc, if_pos rfl, hlowerF]
  rw [any_alias_of_mem _ (fieldAlias true) F lowerF hFmem haliasF] at hlookF
  simp only [Bool.true_or, Bool.and_self, Bool.or_true, if_true] at hlookF
  have hgF : ∀ n, getValue fieldIndexByName o (n + 1) F.Name = .ok (.field i) :=
    fun n => getValue_field_name fieldIndexByName o i F n hF hfirst hnameF
      (by rw [htag]; decide) hidxF
  obtain ⟨hvF, hneF⟩ := lowerFirst_of_valid _ _ hnameF hlowerF
  refine ⟨hgF fuel, ?_⟩
  rw [getValue_alias fieldIndexByName o (fuel + 1) lowerF hvF hneF hidxLowerF, hlookF]
  exact hgF fuel

/-- With lowercase remapping, an exported method of the method set of the value that no field is
named after is read by its Go name and by `lowerFirst` of it, when no other member binds that
alias and `fieldIndexByName` resolves neither name. -/
theorem lowercase_alias_method
    (fieldIndexByName : StructType → GoString → List Nat)
    (v : RecordValue) (o : goStructObject)
    (M : Method) (lowerM : GoString) (fuel : Nat)
    (hnew : newGoStructObject v true = .ok o)
    (hM : M ∈ v.methodSet)
    (hnameM : validGoStructName M.Name = true)
    (hnofield : ∀ f ∈ v.typ.fields, f.Name ≠ M.Name)
    (hlowerM : lowerFirst M.Name = .ok lowerM)
    (hidxM : fieldIndexByName v.typ M.Name = [])
    (hidxLowerM : fieldIndexByName v.typ lowerM = [])
    (hfieldsM : ∀ f ∈ v.typ.fields, fieldAlias true f = some lowerM → f.Name = M.Name)
    (hmethsM : ∀ meth ∈ v.methodSet, methodAlias meth = some lowerM → meth.Name = M.Name) :
    getValue fieldIndexByName o (fuel + 1) M.Name = .ok (.method M.Name) ∧
    getValue fieldIndexByName o (fuel + 2) lowerM = .ok (.method M.Name) := by
  obtain ⟨hv, hlookM⟩ :=
    newGoStructObject_lookup v true o lowerM M.Name hnew hfieldsM (fun _ => hmethsM)
  subst hv
  have hMexp : M.IsExported = true := by
    unfold RecordValue.methodSet at hM
    exact (List.mem_filter.mp hM).2
  have haliasM : methodAlias M = some lowerM := by
    have hne : ¬ ((!M.IsExported) = true) := by simp [hMexp]
    unfold methodAlias
    rw [if_neg hne, hlowerM]
  rw [any_alias_of_mem _ methodAlias M lowerM hM haliasM] at hlookM
  simp only [Bool.true_or, Bool.and_self, Bool.or_true, if_true] at hlookM
  have hgM : ∀ n, getValue fieldIndexByName o (n + 1) M.Name = .ok (.method M.Name) :=
    fun n => getValue_method_name fieldIndexByName o M n hM hnameM hnofield hidxM
  obtain ⟨hvM, hneM⟩ := lowerFirst_of_valid _ _ hnameM hlowerM
  refine ⟨hgM fuel, ?_⟩
  rw [getValue_alias fieldIndexByName o (fuel + 1) lowerM hvM hneM hidxLowerM, hlookM]
  exact hgM fuel

/-- Claim C5, amended: with lowercase remapping, on every host record, (1) for every exported
field `F` without an `otto` tag, the first of its name, and (2) for every exported method `M` of
the method set of the value (of `*T` for a pointer, of `T` for a struct) that no field is named
after, each with a Go name starting with an ASCII capital, when no other member binds the
lowercase alias and `fieldIndexByName` resolves the Go name to the member or not at all (for a
method: not at all) and does not resolve the alias: `getValue` of the Go name and `getValue` of
`lowerFirst` of it are valid and are the same field, respectively the same method. Each of the
two parts holds on its own, also on a record without methods. -/
theorem lowercase_alias_same_member
    (fieldIndexByName : StructType → GoString → List Nat)
    (v : RecordValue) (o : goStructObject) (fuel : Nat)
    (hnew : newGoStructObject v true = .ok o) :
    (∀ (i : Nat) (F : StructField) (lowerF : GoString),
      v.typ.fields[i]? = some F →
      (∀ j f, j < i → v.typ.fields[j]? = some f → f.Name ≠ F.Name) →
      F.IsExported = true →
      validGoStructName F.Name = true →
      F.Tag.Get structTag = [] →
      lowerFirst F.Name = .ok lowerF →
      (fieldIndexByName v.typ F.Name = [] ∨ fieldIndexByName v.typ F.Name = [i]) →
      fieldIndexByName v.typ lowerF = [] →
      (∀ f ∈ v.typ.fields, fieldAlias true f = some lowerF → f.Name = F.Name) →
      (∀ meth ∈ v.methodSet, methodAlias meth = some lowerF → meth.Name = F.Name) →
      getValue fieldIndexByName o (fuel + 1) F.Name = .ok (.field i) ∧
      getValue fieldIndexByName o (fuel + 2) lowerF = .ok (.field i) ∧
      (MemberValue.field i).IsValid = true) ∧
    (∀ (M : Method) (lowerM : GoString),
      M ∈ v.methodSet →
      validGoStructName M.Name = true →
      (∀ f ∈ v.typ.fields, f.Name ≠ M.Name) →
      lowerFirst M.Name = .ok lowerM →
      fieldIndexByName v.typ M.Name = [] →
      fieldIndexByName v.typ lowerM = [] →
      (∀ f ∈ v.typ.fields, fieldAlias true f = some lowerM → f.Name = M.Name) →
      (∀ meth ∈ v.methodSet, methodAlias meth = some lowerM → meth.Name = M.Name) →
      getValue fieldIndexByName o (fuel + 1) M.Name = .ok (.method M.Name) ∧
      getValue fieldIndexByName o (fuel + 2) lowerM = .ok (.method M.Name) ∧
      (MemberValue.method M.Name).IsValid = true) := by
  constructor
  · intro i F lowerF hF hfirst hexp hnameF htag hlowerF hidxF hidxLowerF hfieldsF hmethsF
    have h := lowercase_alias_field fieldIndexByName v o i F lowerF fuel hnew hF hfirst hexp
      hnameF htag hlowerF hidxF hidxLowerF hfieldsF hmethsF
    exact ⟨h.1, h.2, rfl⟩
  · intro M lowerM hM hnameM hnofield hlowerM hidxM hidxLowerM hfieldsM hmethsM
    have h := lowercase_alias_method fieldIndexByName v o M lowerM fuel hnew hM hnameM hnofield
      hlowerM hidxM hidxLowerM hfieldsM hmethsM
    exact ⟨h.1, h.2, rfl⟩

/-- Claim C5, the theorem with the lookup `indexByGoName`: its first part at
`struct{ Val int }{10}`, a record without methods, and its second part at a pointer to
`struct{ Val int }` with a method `Get`. -/
theorem lowercase_alias_same_member_witness :
    (newGoStructObject valRecord true = .ok ⟨valRecord, [(str "val", str "Val")]⟩ ∧
      valRecord.methodSet = [] ∧
      indexByGoName valRecord.typ (str "Val") = [0] ∧
      getValue indexByGoName ⟨valRecord, [(str "val", str "Val")]⟩ 1 (str "Val")
        = .ok (.field 0) ∧
      getValue indexByGoName ⟨valRecord, [(str "val", str "Val")]⟩ 2 (str "val")
        = .ok (.field 0)) ∧
    (newGoStructObject methodPointer true
        = .ok ⟨methodPointer, [(str "get", str "Get"), (str "val", str "Val")]⟩ ∧
      getValue indexByGoName ⟨methodPointer, [(str "get", str "Get"), (str "val", str "Val")]⟩ 1
        (str "Get") = .ok (.method (str "Get")) ∧
      getValue indexByGoName ⟨methodPointer, [(str "get", str "Get"), (str "val", str "Val")]⟩ 2
        (str "get") = .ok (.method (str "Get"))) :=
  have hf := (lowercase_alias_same_member indexByGoName valRecord
    ⟨valRecord, [(str "val", str "Val")]⟩ 0 (by decide)).1 0 valField (str "val")
    rfl (fun j _ hj _ => absurd hj (Nat.not_lt_zero j)) (by decide) (by decide)
    (by decide) (by decide) (Or.inr (by decide)) (by decide) (by decide) (by decide)
  have hm := (lowercase_alias_same_member indexByGoName methodPointer
    ⟨methodPointer, [(str "get", str "Get"), (str "val", str "Val")]⟩ 0 (by decide)).2
    getMethod (str "get") (by decide) (by decide) (by decide) (by decide) (by decide)
    (by decide) (by decide) (by decide)
  ⟨⟨by decide, by decide, by decide, hf.1, hf.2.1⟩, ⟨by decide, hm.1, hm.2.1⟩⟩

/-- Claim C5 as stated fails: with lowercase remapping, the exported field `Val` with the tag
`value` is read by `Val`, but its lowercase alias `val` is not bound, and `getValue("val")`
returns the zero value, with the lookup `indexByGoName` as with every lookup that does not
resolve the name `val`, which is the name of no field. -/
theorem tagged_field_without_lowercase_alias :
    lowerTagRecord.typ.fields[0]? = some lowerTagField ∧
    lowerTagField.IsExported = true ∧
    lowerFirst lowerTagField.Name = .ok (str "val") ∧
    newGoStructObject lowerTagRecord true
      = .ok ⟨lowerTagRecord, [(str "value", str "Val")]⟩ ∧
    getValue indexByGoName ⟨lowerTagRecord, [(str "value", str "Val")]⟩ 3 (str "Val")
      = .ok (.field 0) ∧
    getValue indexByGoName ⟨lowerTagRecord, [(str "value", str "Val")]⟩ 3 (str "val")
      = .ok .zero ∧
    ∀ (lookup : StructType → GoString → List Nat) (fuel : Nat),
      lookup lowerTagRecord.typ (str "val") = [] →
      getValue lookup ⟨lowerTagRecord, [(str "value", str "Val")]⟩ (fuel + 1) (str "val")
        = .ok .zero := by
  refine ⟨by decide, by decide, by decide, by decide, by decide, by decide, ?_⟩
  intro lookup fuel h
  rw [getValue_alias lookup _ fuel (str "val") (by decide) (by decide) h]
  rfl

/-- Claim C6: on a record passed by pointer, for every name `n` that `fieldIndexByName` resolves
to an exported field and every script value that `convertCallParameter` converts to the type of
that field, `goStructPut` stores the converted value (it does not reach `objectPut`), and a
following `getValue(n)` returns that field, which now holds the converted value. -/
theorem put_get_roundtrip {V : Type}
    (fieldIndexByName : StructType → GoString → List Nat)
    (convertCallParameter : V → GoType → Except GoString GoVal)
    (o : goStructObject) (i : Nat) (f : StructField) (n : GoString) (value : V) (x : GoVal)
    (throw : Bool) (fuel fuel2 : Nat)
    (hptr : o.value.isPointer = true)
    (hidx : fieldIndexByName o.value.typ n = [i])
    (hF : o.value.typ.fields[i]? = some f)
    (hexp : f.IsExported = true)
    (hlen : i < o.value.fieldVals.length)
    (hconv : convertCallParameter value f.Typ = .ok x) :
    ∃ o2, goStructPut fieldIndexByName convertCallParameter o (fuel + 1) n value throw
        = .stored o2 ∧
      getValue fieldIndexByName o2 (fuel2 + 1) n = .ok (.field i) ∧
      o2.value.read (.field i) = some x := by
  have hlt := getElem_lt_of_some _ _ _ hF
  have hget : getValue fieldIndexByName o (fuel + 1) n = .ok (.field i) := by
    simp [getValue, hidx, RecordValue.FieldByIndex, hlt]
  refine ⟨{ o with value := { o.value with fieldVals := o.value.fieldVals.set i x } }, ?_, ?_, ?_⟩
  · simp [goStructPut, setValue, hidx, hget, RecordValue.typeOf, hF, hconv, RecordValue.Set,
      hptr, hexp]
  · simp [getValue, hidx, RecordValue.FieldByIndex, hlt]
  · simp [RecordValue.read, hlen]

/-- Claim C6, the theorem at a pointer to `struct{ Val int }{Val: 10}`, writing 5 to `Val`. -/
theorem put_get_roundtrip_witness :
    ∃ o2, goStructPut indexOfVal convertInt ⟨valPointer, []⟩ 1 (str "Val") 5 true = .stored o2 ∧
      getValue indexOfVal o2 1 (str "Val") = .ok (.field 0) ∧
      o2.value.read (.field 0) = some (.int 5) :=
  put_get_roundtrip indexOfVal convertInt ⟨valPointer, []⟩ 0 valField (str "Val") 5 (.int 5)
    true 0 0 rfl (by decide) rfl (by decide) (by decide) (by decide)

/-- Claim C7: on a record passed by value (no pointer, not addressable), every `goStructPut` on a
name that `setValue` resolves fails, with a `TypeError` when the conversion fails and with the
panic of `reflect` otherwise, and it leaves the record as it was: `getValue` returns the same for
every name before and after. -/
theorem put_by_value_fails {V : Type}
    (fieldIndexByName : StructType → GoString → List Nat)
    (convertCallParameter : V → GoType → Except GoString GoVal)
    (o : goStructObject) (n : GoString) (value : V) (throw : Bool) (fuel fuel2 : Nat)
    (name : GoString)
    (hval : o.value.isPointer = false) (haddr : o.value.canAddr = false)
    (hres : 0 < (fieldIndexByName o.value.typ n).length) :
    ((∃ err, goStructPut fieldIndexByName convertCallParameter o (fuel + 1) n value throw
          = .raised (.typeError err)) ∨
      goStructPut fieldIndexByName convertCallParameter o (fuel + 1) n value throw
          = .raised (.fault .panic)) ∧
    (goStructPut fieldIndexByName convertCallParameter o (fuel + 1) n value throw).record o
      = o ∧
    getValue fieldIndexByName
        ((goStructPut fieldIndexByName convertCallParameter o (fuel + 1) n value throw).record o)
        fuel2 name
      = getValue fieldIndexByName o fuel2 name := by
  have hne : ¬ ((fieldIndexByName o.value.typ n).length = 0) := Nat.pos_iff_ne_zero.mp hres
  have hget : getValue fieldIndexByName o (fuel + 1) n
      = o.value.FieldByIndex (fieldIndexByName o.value.typ n) := by
    rw [getValue, if_pos hres]
  have hraised : (∃ err,
        goStructPut fieldIndexByName convertCallParameter o (fuel + 1) n value throw
          = .raised (.typeError err)) ∨
      goStructPut fieldIndexByName convertCallParameter o (fuel + 1) n value throw
          = .raised (.fault .panic) := by
    unfold goStructPut setValue
    rw [if_neg hne, hget]
    cases hg : o.value.FieldByIndex (fieldIndexByName o.value.typ n) with
    | error e =>
      have he : e = .panic := by
        unfold RecordValue.FieldByIndex at hg
        split at hg
        · split at hg
          · cases hg
          · cases hg; rfl
        · cases hg; rfl
      subst he
      exact Or.inr rfl
    | ok fieldValue =>
      dsimp only
      cases ht : o.value.typeOf fieldValue with
      | error e =>
        have he : e = .panic := by
          unfold RecordValue.typeOf at ht
          split at ht
          · split at ht
            · cases ht
            · cases ht; rfl
          · cases ht
          · cases ht; rfl
        subst he
        exact Or.inr rfl
      | ok t =>
        dsimp only
        cases hc : convertCallParameter value t with
        | error e => exact Or.inl ⟨e, rfl⟩
        | ok converted =>
          dsimp only
          have hset : o.value.Set fieldValue converted = .error .panic := by
            cases fieldValue with
            | zero => rfl
            | method _ => rfl
            | field k =>
              cases hk : o.value.typ.fields[k]? with
              | none => simp [RecordValue.Set, hk]
              | some g => simp [RecordValue.Set, hk, hval, haddr]
          rw [hset]
          exact Or.inr rfl
  have hrec : (goStructPut fieldIndexByName convertCallParameter o (fuel + 1) n value
      throw).record o = o := by
    rcases hraised with ⟨err, h⟩ | h <;> rw [h] <;> rfl
  exact ⟨hraised, hrec, by rw [hrec]⟩

/-- Claim C7, the theorem at `struct{ Val int }{Val: 10}` passed by value, writing 5 to `Val`. -/
theorem put_by_value_fails_witness :
    ((∃ err, goStructPut indexOfVal convertInt ⟨valRecord, []⟩ 1 (str "Val") 5 true
          = .raised (.typeError err)) ∨
      goStructPut indexOfVal convertInt ⟨valRecord, []⟩ 1 (str "Val") 5 true
          = .raised (.fault .panic)) ∧
    (goStructPut indexOfVal convertInt ⟨valRecord, []⟩ 1 (str "Val") 5 true).record
      ⟨valRecord, []⟩ = ⟨valRecord, []⟩ ∧
    getValue indexOfVal
        ((goStructPut indexOfVal convertInt ⟨valRecord, []⟩ 1 (str "Val") 5 true).record
          ⟨valRecord, []⟩) 1 (str "Val")
      = getValue indexOfVal ⟨valRecord, []⟩ 1 (str "Val") :=
  put_by_value_fails indexOfVal convertInt ⟨valRecord, []⟩ (str "Val") 5 true 0 1 (str "Val")
    rfl rfl (by decide)

/-- Claim C8: for every name that `setValue` resolves to a field and every script value that
`convertCallParameter` cannot convert to the type of that field, `goStructPut` raises a
`TypeError` carrying the conversion error, for either value of `throw`; nothing is stored and
`objectPut` is not reached, so the record is as before. -/
theorem put_conversion_error {V : Type}
    (fieldIndexByName : StructType → GoString → List Nat)
    (convertCallParameter : V → GoType → Except GoString GoVal)
    (o : goStructObject) (i : Nat) (f : StructField) (n : GoString) (value : V)
    (err : GoString) (throw : Bool) (fuel : Nat)
    (hidx : fieldIndexByName o.value.typ n = [i])
    (hF : o.value.typ.fields[i]? = some f)
    (hconv : convertCallParameter value f.Typ = .error err) :
    goStructPut fieldIndexByName convertCallParameter o (fuel + 1) n value throw
      = .raised (.typeError err) ∧
    (goStructPut fieldIndexByName convertCallParameter o (fuel + 1) n value throw).record o
      = o := by
  have hlt := getElem_lt_of_some _ _ _ hF
  have hget : getValue fieldIndexByName o (fuel + 1) n = .ok (.field i) := by
    simp [getValue, hidx, RecordValue.FieldByIndex, hlt]
  have h : goStructPut fieldIndexByName convertCallParameter o (fuel + 1) n value throw
      = .raised (.typeError err) := by
    simp [goStructPut, setValue, hidx, hget, RecordValue.typeOf, hF, hconv]
  exact ⟨h, by rw [h]; rfl⟩

/-- Claim C8, the theorem at a pointer to `struct{ Val int }` and a conversion that fails. -/
theorem put_conversion_error_witness :
    goStructPut indexOfVal (fun (_ : Int) _ => .error (str "no")) ⟨valPointer, []⟩ 1 (str "Val")
      5 false = .raised (.typeError (str "no")) ∧
    (goStructPut indexOfVal (fun (_ : Int) _ => .error (str "no")) ⟨valPointer, []⟩ 1
      (str "Val") 5 false).record ⟨valPointer, []⟩ = ⟨valPointer, []⟩ :=
  put_conversion_error indexOfVal (fun (_ : Int) _ => .error (str "no")) ⟨valPointer, []⟩ 0
    valField (str "Val") 5 (str "no") false 0 (by decide) rfl rfl

/-- What `goStructMarshalJSON` looks at: it returns a marshaler exactly when the method set of
the struct type itself (the methods declared with a value receiver) holds `MarshalJSON`, and the
answer is the same whether the record was passed by value or by pointer. -/
theorem marshalJSON_of_value_method_set (o : goStructObject) (b : Bool) :
    (goStructMarshalJSON o ≠ none ↔
      ∃ m ∈ o.value.typ.methods,
        m.Name = jsonMarshalerMethod.Name ∧ m.Typ = jsonMarshalerMethod.Typ) ∧
    goStructMarshalJSON { o with value := { o.value with isPointer := b } }
      = goStructMarshalJSON o := by
  refine ⟨?_, rfl⟩
  unfold goStructMarshalJSON assertMarshaler
  rw [Ne, ← Option.not_isSome_iff_eq_none, not_not, List.find?_isSome]
  simp

/-- Claim C9 fails on the code: for every record passed by pointer whose type declares
`MarshalJSON` with a pointer receiver and no method of that name with a value receiver, the
method is in the method set of the passed value, which `getValue`, `goStructEnumerate` and
`newGoStructObject` work on, and `goStructEnumerate` passes its name to `each`; yet
`goStructMarshalJSON`, which asserts the interface on `reflect.Indirect` of the value, returns
nil. -/
theorem pointer_receiver_marshaler_missed (o : goStructObject)
    (hptr : o.value.isPointer = true)
    (hdecl : jsonMarshalerMethod ∈ o.value.typ.ptrMethods)
    (hnot : ∀ m ∈ o.value.typ.methods, m.Name ≠ jsonMarshalerMethod.Name) :
    jsonMarshalerMethod ∈ o.value.methodSet ∧
    jsonMarshalerMethod.Name ∈ enumerationOrder o ∧
    goStructMarshalJSON o = none := by
  have hmem : jsonMarshalerMethod ∈ o.value.methodSet := by
    unfold RecordValue.methodSet
    rw [hptr]
    exact List.mem_filter.2 ⟨hdecl, by decide⟩
  refine ⟨hmem, ?_, ?_⟩
  · unfold enumerationOrder
    exact List.mem_append_right _
      (List.mem_filter.2 ⟨List.mem_map.2 ⟨jsonMarshalerMethod, hmem, rfl⟩, by decide⟩)
  · unfold goStructMarshalJSON assertMarshaler
    rw [List.find?_eq_none]
    intro m hm hp
    rw [Bool.and_eq_true] at hp
    exact hnot m hm (by simpa using hp.1)

/-- Claim C9, the failure at a pointer to `struct{ Val int }` whose type declares
`func (*T) MarshalJSON() ([]byte, error)`: the method is read by its name like any other method
of the record, and `goStructMarshalJSON` returns nil. -/
theorem pointer_receiver_marshaler_missed_witness :
    pointerMarshalRecord.isPointer = true ∧
    getValue indexByGoName ⟨pointerMarshalRecord, []⟩ 1 (str "MarshalJSON")
      = .ok (.method (str "MarshalJSON")) ∧
    jsonMarshalerMethod ∈ pointerMarshalRecord.methodSet ∧
    jsonMarshalerMethod.Name ∈ enumerationOrder ⟨pointerMarshalRecord, []⟩ ∧
    goStructMarshalJSON ⟨pointerMarshalRecord, []⟩ = none :=
  ⟨by decide, by decide,
    pointer_receiver_marshaler_missed ⟨pointerMarshalRecord, []⟩ (by decide) (by decide)
      (by decide)⟩

/-! ## The claim on `try`/`finally` -/

/-- Claim C10: for every `try { A } finally { B }`, with or without a catch clause, and every
completion of `A` or of the catch block (the pending completion `p`): `B` is evaluated in the
state the pending completion left, the state afterwards is the one `B` leaves, and the completion
of the statement is that of `B` when it is not normal and the pending completion otherwise. -/
theorem try_finally_completion {S V : Type} (body : Statement S V)
    (handler : Option (Option V → Statement S V)) (B : Statement S V)
    (s s1 s2 s3 : S) (cA p cB : Completion V)
    (hA : body s = some (cA, s1))
    (hP : pendingCompletion handler cA s1 = some (p, s2))
    (hB : B s2 = some (cB, s3)) :
    tryStatement body handler (some B) s = some (if cB.kind = .Normal then p else cB, s3) := by
  unfold tryStatement
  simp only [hA, hP, hB]
  by_cases h : cB.kind = .Normal <;> simp [h]

/-- Claim C10, the theorem at `try { abc += 1; throw "ghi" } finally { def = 1; continue }`: the
`finally` block runs and its `continue` discards the throw. -/
theorem try_finally_completion_witness :
    tryStatement throwingBlock none (some continuingBlock) ⟨0, 0, 0, false⟩
      = some (⟨.Continue, none, none⟩, ⟨1, 1, 0, false⟩) :=
  try_finally_completion throwingBlock none continuingBlock ⟨0, 0, 0, false⟩ ⟨1, 0, 0, false⟩
    ⟨1, 0, 0, false⟩ ⟨1, 1, 0, false⟩ ⟨.Throw, some (str "ghi"), none⟩
    ⟨.Throw, some (str "ghi"), none⟩ ⟨.Continue, none, none⟩ rfl rfl rfl

/-- The second program of `TestTryFinally` ends normally with `def = 1`: the `finally` block ran
after the `continue` of the `try` block. -/
theorem continueProgram_result :
    (continueProgram 20 ⟨0, 0, 0, false⟩).map (fun r => (r.1.kind, r.2.dfn, r.2.flag))
      = some (.Normal, 1, true) := by
  decide

/-- The third program of `TestTryFinally` ends with `ghi = 11`. -/
theorem catchProgram_result :
    (catchProgram 20 ⟨0, 0, 0, false⟩).map (fun r => (r.1.kind, r.2.ghi)) = some (.Normal, 11) := by
  decide

/-- The fourth program of `TestTryFinally` ends with `abc = 2` and `def = 1`. -/
theorem discardProgram_result :
    (discardProgram 20 ⟨0, 0, 0, false⟩).map (fun r => (r.1.kind, r.2.abc, r.2.dfn))
      = some (.Normal, 2, 1) := by
  decide

/-! ## The claim on the stack-depth guard -/

/-- The greatest depth is at least the depth at the start. -/
theorem le_peakDepth (d : Nat) (calls : List CallEvent) : d ≤ peakDepth d calls := by
  induction calls generalizing d with
  | nil => exact Nat.le_refl d
  | cons e rest ih =>
    cases e with
    | enter => exact Nat.le_trans (Nat.le_succ d) (ih (d + 1))
    | leave => exact Nat.le_max_left _ _

/-- With a limit, the calls end in a `RangeError` exactly when they would go deeper than it. -/
theorem runCalls_eq_none_iff (k : Nat) (hk : 1 ≤ k) (calls : List CallEvent) (d : Nat)
    (hd : d ≤ k) : runCalls ⟨k, d⟩ calls = none ↔ k < peakDepth d calls := by
  induction calls generalizing d with
  | nil => simp [runCalls, peakDepth]; exact hd
  | cons e rest ih =>
    cases e with
    | enter =>
      by_cases hlt : k < d + 1
      · have hne : k ≠ 0 := by omega
        have h1 : enterActivation ⟨k, d⟩ = none := by simp [enterActivation, hne, hlt]
        have h2 : k < peakDepth (d + 1) rest :=
          Nat.lt_of_lt_of_le hlt (le_peakDepth (d + 1) rest)
        simp [runCalls, peakDepth, h1, h2]
      · have h1 : enterActivation ⟨k, d⟩ = some ⟨k, d + 1⟩ := by simp [enterActivation, hlt]
        have := ih (d + 1) (by omega)
        simp [runCalls, peakDepth, h1, this]
    | leave =>
      have := ih (d - 1) (by omega)
      simp only [runCalls, peakDepth, leaveActivation, this]
      constructor
      · intro h; exact Nat.lt_of_lt_of_le h (Nat.le_max_right _ _)
      · intro h
        rcases Nat.lt_or_ge k (peakDepth (d - 1) rest) with h2 | h2
        · exact h2
        · exact absurd (Nat.max_le.mpr ⟨hd, h2⟩) (Nat.not_le.mpr h)

/-- Without a limit, no call is rejected. -/
theorem runCalls_unlimited (calls : List CallEvent) (d : Nat) :
    runCalls ⟨0, d⟩ calls ≠ none := by
  induction calls generalizing d with
  | nil => simp [runCalls]
  | cons e rest ih =>
    cases e with
    | enter => simpa [runCalls, enterActivation] using ih (d + 1)
    | leave => simpa [runCalls, leaveActivation] using ih (d - 1)

/-- Claim C11: for every limit `k >= 1` and every program, run on a stack at rest, the execution
ends in a `RangeError` exactly when its calls would take the activation depth, the program
itself counted, above `k`; one call is rejected exactly when it would make the depth `d + 1`
greater than `k`; and with the limit set back to 0 after an earlier limit no call is rejected. -/
theorem stack_depth_guard (c : CallStack) (k d : Nat) (calls : List CallEvent)
    (hk : 1 ≤ k) (hrest : c.depth = 0) :
    (runProgram (SetStackDepthLimit c k) calls = none
      ↔ k < peakDepth 0 (.enter :: (calls ++ [.leave]))) ∧
    (enterActivation ⟨k, d⟩ = none ↔ k < d + 1) ∧
    runProgram (SetStackDepthLimit (SetStackDepthLimit c k) 0) calls ≠ none := by
  refine ⟨?_, ?_, ?_⟩
  · have h := runCalls_eq_none_iff k hk (.enter :: (calls ++ [.leave])) 0 (Nat.zero_le k)
    simpa [runProgram, SetStackDepthLimit, hrest] using h
  · have hne : k ≠ 0 := by omega
    simp [enterActivation, hne]
  · have h := runCalls_unlimited (.enter :: (calls ++ [.leave])) c.depth
    simpa [runProgram, SetStackDepthLimit] using h

/-- Claim C11, the theorem at the limit 5 and the five nested calls of `Test_stackLimit`: the
chain is six deep and the run ends in a `RangeError`. -/
theorem stack_depth_guard_witness :
    (runProgram (SetStackDepthLimit ⟨0, 0⟩ 5) nestedCalls = none
      ↔ 5 < peakDepth 0 (.enter :: (nestedCalls ++ [.leave]))) ∧
    (enterActivation ⟨5, 5⟩ = none ↔ 5 < 5 + 1) ∧
    runProgram (SetStackDepthLimit (SetStackDepthLimit ⟨0, 0⟩ 5) 0) nestedCalls ≠ none :=
  stack_depth_guard ⟨0, 0⟩ 5 5 nestedCalls (by decide) rfl

/-- The runs of `Test_stackLimit`: no limit passes, the limits 2 and 5 end in a `RangeError`,
the limit 6 passes, and the limit 1 followed by the limit 0 passes. -/
theorem stackLimit_test :
    peakDepth 0 (.enter :: (nestedCalls ++ [.leave])) = 6 ∧
    runProgram ⟨0, 0⟩ nestedCalls = some ⟨0, 0⟩ ∧
    runProgram (SetStackDepthLimit ⟨0, 0⟩ 2) nestedCalls = none ∧
    runProgram (SetStackDepthLimit ⟨0, 0⟩ 5) nestedCalls = none ∧
    runProgram (SetStackDepthLimit ⟨0, 0⟩ 6) nestedCalls = some ⟨6, 0⟩ ∧
    runProgram (SetStackDepthLimit (SetStackDepthLimit ⟨0, 0⟩ 1) 0) nestedCalls
      = some ⟨0, 0⟩ := by
  decide

/-! ## The claim on the clone of a VM -/

theorem ref_place_place (k k2 : Nat) (r : Ref) : (r.place k).place k2 = r.place k2 := rfl

theorem value_place_place (k k2 : Nat) (v : Value) : (v.place k).place k2 = v.place k2 := by
  cases v <;> rfl

theorem property_place_place (k k2 : Nat) (p : Property) :
    (p.place k).place k2 = p.place k2 := by
  simp [Property.place, value_place_place]

theorem object_place_place (k k2 : Nat) (o : ScriptObject) :
    (o.place k).place k2 = o.place k2 := by
  cases o with
  | mk c ps proto ext host scope code =>
    simp only [ScriptObject.place, List.map_map, Option.map_map, ScriptObject.mk.injEq, true_and,
      and_true]
    refine ⟨?_, ?_, ?_⟩
    · apply List.map_congr_left
      intro q _
      simp [property_place_place]
    · cases proto <;> rfl
    · cases scope <;> rfl

theorem Ref.place_eq_self (k : Nat) (r : Ref) (h : r.place k = r) : r = ⟨k, r.index⟩ := by
  rw [← h]
  rfl

theorem lookup_map_place (k : Nat) (name : GoString) :
    ∀ (ps : List (GoString × Property)),
      (ps.map (fun q => (q.1, q.2.place k))).lookup name
        = (ps.lookup name).map (Property.place k)
  | [] => rfl
  | (n, p) :: ps => by
    simp only [List.map_cons, List.lookup_cons]
    cases name == n
    · exact lookup_map_place k name ps
    · rfl

theorem ScriptObject.own_place (k : Nat) (o : ScriptObject) (name : GoString) :
    (o.place k).own name = (o.own name).map (Property.place k) :=
  lookup_map_place k name o.properties

theorem ScriptObject.place_define (k : Nat) (o : ScriptObject) (name : GoString)
    (p : Property) : (o.define name p).place k = (o.place k).define name (p.place k) := by
  unfold ScriptObject.define
  have hany : (o.place k).properties.any (fun q => q.1 == name)
      = o.properties.any (fun q => q.1 == name) := by
    simp [ScriptObject.place, List.any_map, Function.comp_def]
  rw [hany]
  cases hq : o.properties.any (fun q => q.1 == name)
  · simp [ScriptObject.place]
  · simp only [ScriptObject.place, if_true, List.map_map, ScriptObject.mk.injEq, true_and,
      and_true]
    apply List.map_congr_left
    intro q _
    simp only [Function.comp]
    cases q.1 == name <;> simp

theorem ScriptObject.own_closed (k : Nat) (o : ScriptObject) (name : GoString) (q : Property)
    (ho : o.place k = o) (hq : o.own name = some q) : q.place k = q := by
  have h := ScriptObject.own_place k o name
  rw [ho, hq] at h
  simpa using h.symm

theorem Property.value_closed (k : Nat) (q : Property) (h : q.place k = q) :
    q.value.place k = q.value := by
  have := congrArg Property.value h
  simpa [Property.place] using this

theorem ScriptObject.prototype_closed (k : Nat) (o : ScriptObject) (parent : Ref)
    (ho : o.place k = o) (hp : o.prototype = some parent) : parent = ⟨k, parent.index⟩ := by
  have h := congrArg ScriptObject.prototype ho
  simp only [ScriptObject.place, hp, Option.map_some'] at h
  exact Ref.place_eq_self k parent (Option.some.inj h)

theorem ScriptObject.define_closed (k : Nat) (o : ScriptObject) (name : GoString)
    (p : Property) (ho : o.place k = o) (hp : p.place k = p) :
    (o.define name p).place k = o.define name p := by
  rw [ScriptObject.place_define, ho, hp]

theorem Closed.map_place (k : Nat) (g : List ScriptObject) (h : Closed k g) :
    g.map (ScriptObject.place k) = g := by
  induction g with
  | nil => rfl
  | cons o g ih =>
    rw [List.map_cons, h o (List.mem_cons_self _ _),
      ih (fun o2 ho2 => h o2 (List.mem_cons_of_mem _ ho2))]

theorem Corresponds.wellFormed {Ha Hb : Heap} {k k2 : Nat} (h : Corresponds Ha k Hb k2) :
    WellFormed Ha k := by
  obtain ⟨g, hg, hc, _⟩ := h
  exact ⟨g, hg, hc⟩

theorem WellFormed.corresponds {H : Heap} {k : Nat} (h : WellFormed H k) :
    Corresponds H k H k := by
  obtain ⟨g, hg, hc⟩ := h
  exact ⟨g, hg, hc, by rw [Closed.map_place k g hc]; exact hg⟩

theorem Corresponds.object {Ha Hb : Heap} {k k2 : Nat} (h : Corresponds Ha k Hb k2) (i : Nat) :
    Hb.object? ⟨k2, i⟩ = (Ha.object? ⟨k, i⟩).map (ScriptObject.place k2) := by
  obtain ⟨g, hga, _, hgb⟩ := h
  simp [Heap.object?, hga, hgb, List.getElem?_map]

theorem Corresponds.object_closed {Ha Hb : Heap} {k k2 : Nat} (h : Corresponds Ha k Hb k2)
    (i : Nat) (o : ScriptObject) (ho : Ha.object? ⟨k, i⟩ = some o) : o.place k = o := by
  obtain ⟨g, hga, hc, _⟩ := h
  simp only [Heap.object?, hga] at ho
  exact hc o (List.getElem?_mem ho)

theorem Corresponds.chainFuel {Ha Hb : Heap} {k k2 : Nat} (h : Corresponds Ha k Hb k2)
    (i : Nat) : Hb.chainFuel ⟨k2, i⟩ = Ha.chainFuel ⟨k, i⟩ := by
  obtain ⟨g, hga, _, hgb⟩ := h
  simp [Heap.chainFuel, Heap.graph, hga, hgb]

theorem Corresponds.getProperty {Ha Hb : Heap} {k k2 : Nat} (h : Corresponds Ha k Hb k2)
    (name : GoString) :
    ∀ (fuel i : Nat),
      getProperty Hb fuel ⟨k2, i⟩ name
          = (getProperty Ha fuel ⟨k, i⟩ name).map (Property.place k2) ∧
        ∀ p, getProperty Ha fuel ⟨k, i⟩ name = some p → p.place k = p
  | 0, _ => ⟨rfl, fun _ hp => by simp [Otto.getProperty] at hp⟩
  | fuel + 1, i => by
    have hobj := h.object i
    cases ho : Ha.object? ⟨k, i⟩ with
    | none =>
      rw [ho] at hobj
      simp [Otto.getProperty, ho, hobj]
    | some o =>
      rw [ho] at hobj
      have hoc := h.object_closed i o ho
      simp only [Otto.getProperty, ho, hobj, Option.map_some', ScriptObject.own_place]
      cases hq : o.own name with
      | some q =>
        simp only [Option.map_some', Option.some.injEq, true_and]
        intro p hp
        rw [← hp]
        exact ScriptObject.own_closed k o name q hoc hq
      | none =>
        simp only [Option.map_none']
        cases hp : o.prototype with
        | none => simp [ScriptObject.place, hp]
        | some parent =>
          have hparent := ScriptObject.prototype_closed k o parent hoc hp
          have ih := Corresponds.getProperty h name fuel parent.index
          simp only [ScriptObject.place, hp, Option.map_some', Ref.place]
          rw [hparent]
          exact ih

theorem Corresponds.get {Ha Hb : Heap} {k k2 : Nat} (h : Corresponds Ha k Hb k2)
    (i : Nat) (name : GoString) :
    Get Hb ⟨k2, i⟩ name = (Get Ha ⟨k, i⟩ name).place k2 ∧
      (Get Ha ⟨k, i⟩ name).place k = Get Ha ⟨k, i⟩ name := by
  have hp := h.getProperty name (Ha.chainFuel ⟨k, i⟩) i
  unfold Get
  rw [h.chainFuel i, hp.1]
  cases hq : Otto.getProperty Ha (Ha.chainFuel ⟨k, i⟩) ⟨k, i⟩ name with
  | none => exact ⟨rfl, rfl⟩
  | some q => exact ⟨rfl, Property.value_closed k q (hp.2 q hq)⟩

theorem Corresponds.resolveMember {Ha Hb : Heap} {k k2 : Nat} (h : Corresponds Ha k Hb k2)
    (base : Value) (name : GoString) (hbase : base.place k = base) :
    resolveMember Hb (base.place k2) name
        = (resolveMember Ha base name).map (Value.place k2) ∧
      ∀ v, resolveMember Ha base name = .ok v → v.place k = v := by
  cases base with
  | Object r =>
    have hr : r = ⟨k, r.index⟩ := Ref.place_eq_self k r (by simpa [Value.place] using hbase)
    have hg := h.get r.index name
    rw [hr]
    refine ⟨?_, ?_⟩
    · simp only [Value.place, Ref.place, Otto.resolveMember, hg.1]
      rfl
    · intro v hv
      simp only [Otto.resolveMember, Except.ok.injEq] at hv
      rw [← hv]
      exact hg.2
  | Undefined => exact ⟨rfl, fun v hv => by simp [Otto.resolveMember] at hv⟩
  | Null => exact ⟨rfl, fun v hv => by simp [Otto.resolveMember] at hv⟩
  | Boolean b =>
    exact ⟨rfl, fun v hv => by simp only [Otto.resolveMember, Except.ok.injEq] at hv; rw [← hv]; rfl⟩
  | Number n =>
    exact ⟨rfl, fun v hv => by simp only [Otto.resolveMember, Except.ok.injEq] at hv; rw [← hv]; rfl⟩
  | String s =>
    exact ⟨rfl, fun v hv => by simp only [Otto.resolveMember, Except.ok.injEq] at hv; rw [← hv]; rfl⟩

theorem Corresponds.valueFrom {Ha Hb : Heap} {k k2 : Nat} (h : Corresponds Ha k Hb k2) :
    ∀ (path : List GoString) (a : Except ErrorValue Value),
      (∀ v, a = .ok v → v.place k = v) →
      valueFrom Hb (a.map (Value.place k2)) path
          = (valueFrom Ha a path).map (Value.place k2) ∧
        ∀ v, valueFrom Ha a path = .ok v → v.place k = v
  | [], a, ha => ⟨rfl, ha⟩
  | name :: rest, a, ha => by
    simp only [Otto.valueFrom]
    cases a with
    | error e =>
      exact Corresponds.valueFrom h rest (.error e) (fun v hv => by cases hv)
    | ok b =>
      have hb := ha b rfl
      have hm := h.resolveMember b name hb
      have ih := Corresponds.valueFrom h rest (Otto.resolveMember Ha b name) hm.2
      have e1 : (Except.map (Value.place k2) (.ok b) : Except ErrorValue Value).bind
          (fun b => Otto.resolveMember Hb b name)
          = (Otto.resolveMember Ha b name).map (Value.place k2) := hm.1
      have e2 : (Except.ok b : Except ErrorValue Value).bind
          (fun b => Otto.resolveMember Ha b name) = Otto.resolveMember Ha b name := rfl
      rw [e1, e2]
      exact ih

theorem Corresponds.valueAt {Ha Hb : Heap} {k k2 : Nat} (h : Corresponds Ha k Hb k2)
    (path : List GoString) :
    valueAt Hb k2 path = (valueAt Ha k path).map (Value.place k2) ∧
      ∀ v, valueAt Ha k path = .ok v → v.place k = v := by
  have hv := h.valueFrom path (.ok (.Object ⟨k, 0⟩))
    (fun v hv => by cases hv; rfl)
  exact hv

theorem Corresponds.setObject {Ha Hb : Heap} {k k2 : Nat} (h : Corresponds Ha k Hb k2)
    (i : Nat) (o : ScriptObject) (ho : o.place k = o) :
    Corresponds (Ha.setObject ⟨k, i⟩ o) k (Hb.setObject ⟨k2, i⟩ (o.place k2)) k2 := by
  obtain ⟨g, hga, hc, hgb⟩ := h
  have hka : k < Ha.graphs.length := (List.getElem?_eq_some.1 hga).1
  have hkb : k2 < Hb.graphs.length := (List.getElem?_eq_some.1 hgb).1
  refine ⟨g.set i o, ?_, ?_, ?_⟩
  · simp only [Heap.setObject, hga]
    exact List.getElem?_set_self hka
  · intro o2 hmem
    rcases List.mem_or_eq_of_mem_set hmem with h2 | h2
    · exact hc o2 h2
    · rw [h2]; exact ho
  · simp only [Heap.setObject, hgb, List.map_set]
    exact List.getElem?_set_self hkb

theorem Corresponds.alloc {Ha Hb : Heap} {k k2 : Nat} (h : Corresponds Ha k Hb k2)
    (o : ScriptObject) (ho : o.place k = o) :
    Corresponds (Ha.alloc k o).1 k (Hb.alloc k2 (o.place k2)).1 k2 ∧
      (Hb.alloc k2 (o.place k2)).2 = (Ha.alloc k o).2.place k2 ∧
      (Ha.alloc k o).2.place k = (Ha.alloc k o).2 := by
  obtain ⟨g, hga, hc, hgb⟩ := h
  have hka : k < Ha.graphs.length := (List.getElem?_eq_some.1 hga).1
  have hkb : k2 < Hb.graphs.length := (List.getElem?_eq_some.1 hgb).1
  have hgra : Ha.graph k = g := by simp [Heap.graph, hga]
  have hgrb : Hb.graph k2 = g.map (ScriptObject.place k2) := by simp [Heap.graph, hgb]
  refine ⟨⟨g ++ [o], ?_, ?_, ?_⟩, ?_, rfl⟩
  · simp only [Heap.alloc, hgra]
    exact List.getElem?_set_self hka
  · intro o2 hmem
    rcases List.mem_append.1 hmem with h2 | h2
    · exact hc o2 h2
    · rw [List.mem_singleton.1 h2]; exact ho
  · simp only [Heap.alloc, hgrb, List.map_append, List.map_cons, List.map_nil]
    exact List.getElem?_set_self hkb
  · simp [Heap.alloc, hgra, hgrb, Ref.place]

theorem Corresponds.putValue {Ha Hb : Heap} {k k2 : Nat} (h : Corresponds Ha k Hb k2)
    (i : Nat) (name : GoString) (v : Value) (hv : v.place k = v) :
    Corresponds (putValue Ha ⟨k, i⟩ name v) k (putValue Hb ⟨k2, i⟩ name (v.place k2)) k2 := by
  have hobj := h.object i
  unfold Otto.putValue
  cases ho : Ha.object? ⟨k, i⟩ with
  | none =>
    rw [ho] at hobj
    simp only [hobj, Option.map_none']
    exact h
  | some o =>
    rw [ho] at hobj
    have hoc := h.object_closed i o ho
    simp only [hobj, Option.map_some', ScriptObject.own_place]
    cases hq : o.own name with
    | some q =>
      have hqc := ScriptObject.own_closed k o name q hoc hq
      simp only [Option.map_some']
      have hw : (q.place k2).writable = q.writable := rfl
      rw [hw]
      by_cases hqw : q.writable = true
      · rw [if_pos hqw, if_pos hqw]
        have hp : ({ q with value := v } : Property).place k = { q with value := v } := by
          simp [Property.place, hv]
        have hd := h.setObject i (o.define name { q with value := v })
          (ScriptObject.define_closed k o name _ hoc hp)
        rw [ScriptObject.place_define] at hd
        exact hd
      · rw [if_neg hqw, if_neg hqw]
        exact h
    | none =>
      simp only [Option.map_none']
      have he : (o.place k2).extensible = o.extensible := rfl
      rw [he]
      by_cases hoe : o.extensible = true
      · rw [if_pos hoe, if_pos hoe]
        have hp : (plainProperty v).place k = plainProperty v := by
          simp [Property.place, plainProperty, hv]
        have hd := h.setObject i (o.define name (plainProperty v))
          (ScriptObject.define_closed k o name _ hoc hp)
        rw [ScriptObject.place_define] at hd
        exact hd
      · rw [if_neg hoe, if_neg hoe]
        exact h

theorem Value.ref_closed (k : Nat) (v : Value) (hv : v.place k = v) :
    (v.ref?).map (Ref.place k) = v.ref? := by
  cases v with
  | Object r =>
    have hr : r.place k = r := by simpa [Value.place] using hv
    simp [Value.ref?, hr]
  | _ => rfl

theorem Value.ref_place (k : Nat) (v : Value) : (v.place k).ref? = (v.ref?).map (Ref.place k) := by
  cases v <;> rfl

theorem Value.primitive_place (k : Nat) (v : Value) : (v.primitive).place k = v.primitive := by
  cases v <;> rfl

theorem frame_setObject (H : Heap) (k i j : Nat) (o : ScriptObject) (hj : j ≠ k) :
    (H.setObject ⟨k, i⟩ o).graphs[j]? = H.graphs[j]? := by
  unfold Heap.setObject
  cases H.graphs[k]? with
  | none => rfl
  | some g => exact List.getElem?_set_ne (Ne.symm hj)

theorem frame_putValue (H : Heap) (k i j : Nat) (name : GoString) (v : Value) (hj : j ≠ k) :
    (putValue H ⟨k, i⟩ name v).graphs[j]? = H.graphs[j]? := by
  unfold putValue
  cases ho : H.object? ⟨k, i⟩ with
  | none => rfl
  | some o =>
    simp only []
    cases hq : o.own name with
    | none =>
      simp only []
      by_cases he : o.extensible = true
      · rw [if_pos he]
        exact frame_setObject H k i j _ hj
      · rw [if_neg he]
    | some q =>
      simp only []
      by_cases hw : q.writable = true
      · rw [if_pos hw]
        exact frame_setObject H k i j _ hj
      · rw [if_neg hw]

theorem clone_corresponds (H : Heap) (k : Nat) (hwf : WellFormed H k) :
    Corresponds H k (clone H k).1 (clone H k).2 ∧ Corresponds H k (clone H k).1 k ∧
      k ≠ (clone H k).2 := by
  obtain ⟨g, hg, hc⟩ := hwf
  have hk : k < H.graphs.length := (List.getElem?_eq_some.1 hg).1
  have hgr : H.graph k = g := by simp [Heap.graph, hg]
  refine ⟨⟨g, hg, hc, ?_⟩, ⟨g, hg, hc, ?_⟩, Nat.ne_of_lt hk⟩
  · simp [clone, hgr]
  · simp only [clone, Closed.map_place k g hc]
    rw [List.getElem?_append_left hk]
    exact hg

theorem Corresponds.wellFormed_right {Ha Hb : Heap} {k k2 : Nat} (h : Corresponds Ha k Hb k2) :
    WellFormed Hb k2 := by
  obtain ⟨g, _, _, hgb⟩ := h
  refine ⟨_, hgb, ?_⟩
  intro o ho
  obtain ⟨o2, _, rfl⟩ := List.mem_map.1 ho
  exact object_place_place k2 k2 o2

theorem ScriptObject.scope_closed (k : Nat) (o : ScriptObject) (s : Ref)
    (ho : o.place k = o) (hs : o.scope = some s) : s = ⟨k, s.index⟩ := by
  have h := congrArg ScriptObject.scope ho
  simp only [ScriptObject.place, hs, Option.map_some'] at h
  exact Ref.place_eq_self k s (Option.some.inj h)

theorem Corresponds.hasProperty {Ha Hb : Heap} {k k2 : Nat} (h : Corresponds Ha k Hb k2)
    (i : Nat) (name : GoString) :
    HasProperty Hb ⟨k2, i⟩ name = HasProperty Ha ⟨k, i⟩ name := by
  unfold HasProperty
  rw [h.chainFuel i, (h.getProperty name _ i).1]
  cases Otto.getProperty Ha (Ha.chainFuel ⟨k, i⟩) ⟨k, i⟩ name <;> rfl

theorem Corresponds.findRecord {Ha Hb : Heap} {k k2 : Nat} (h : Corresponds Ha k Hb k2)
    (name : GoString) :
    ∀ (fuel i : Nat),
      findRecord Hb fuel ⟨k2, i⟩ name
          = (findRecord Ha fuel ⟨k, i⟩ name).map (Ref.place k2) ∧
        ∀ r, findRecord Ha fuel ⟨k, i⟩ name = some r → r.place k = r
  | 0, _ => ⟨rfl, fun _ hr => by simp [Otto.findRecord] at hr⟩
  | fuel + 1, i => by
    have hobj := h.object i
    cases ho : Ha.object? ⟨k, i⟩ with
    | none =>
      rw [ho] at hobj
      simp [Otto.findRecord, ho, hobj]
    | some o =>
      rw [ho] at hobj
      have hoc := h.object_closed i o ho
      have hcls : (o.place k2).className = o.className := rfl
      simp only [Otto.findRecord, ho, hobj, Option.map_some', hcls, ScriptObject.own_place]
      by_cases henv : o.className = environmentClass
      · rw [if_pos henv, if_pos henv]
        cases hq : o.own name with
        | some q =>
          simp only [Option.map_some', Option.some.injEq]
          exact ⟨rfl, fun r hr => by rw [← hr]; rfl⟩
        | none =>
          simp only [Option.map_none']
          cases hp : o.prototype with
          | none => simp [ScriptObject.place, hp]
          | some parent =>
            have hparent := ScriptObject.prototype_closed k o parent hoc hp
            have ih := Corresponds.findRecord h name fuel parent.index
            simp only [ScriptObject.place, hp, Option.map_some', Ref.place]
            rw [hparent]
            exact ih
      · rw [if_neg henv, if_neg henv, h.hasProperty i name]
        by_cases hhp : HasProperty Ha ⟨k, i⟩ name = true
        · rw [if_pos hhp, if_pos hhp]
          exact ⟨rfl, fun r hr => by rw [← Option.some.inj hr]; rfl⟩
        · rw [if_neg hhp, if_neg hhp]
          exact ⟨rfl, fun r hr => by cases hr⟩

theorem Corresponds.readIdentifier {Ha Hb : Heap} {k k2 : Nat} (h : Corresponds Ha k Hb k2)
    (i : Nat) (name : GoString) :
    readIdentifier Hb ⟨k2, i⟩ name = (readIdentifier Ha ⟨k, i⟩ name).place k2 ∧
      (readIdentifier Ha ⟨k, i⟩ name).place k = readIdentifier Ha ⟨k, i⟩ name := by
  have hf := h.findRecord name (Ha.chainFuel ⟨k, i⟩) i
  unfold Otto.readIdentifier
  rw [h.chainFuel i, hf.1]
  cases hr : Otto.findRecord Ha (Ha.chainFuel ⟨k, i⟩) ⟨k, i⟩ name with
  | none => exact ⟨rfl, rfl⟩
  | some r =>
    have hrc := Ref.place_eq_self k r (hf.2 r hr)
    have hg := h.get r.index name
    rw [hrc]
    simp only [Option.map_some', Ref.place, Outcome.place]
    exact ⟨by rw [hg.1], by rw [hg.2]⟩

theorem Corresponds.target {Ha Hb : Heap} {k k2 : Nat} (h : Corresponds Ha k Hb k2)
    (i : Nat) (name : GoString) :
    ∃ t, (Otto.findRecord Ha (Ha.chainFuel ⟨k, i⟩) ⟨k, i⟩ name).getD ⟨k, 0⟩ = ⟨k, t⟩ ∧
      (Otto.findRecord Hb (Hb.chainFuel ⟨k2, i⟩) ⟨k2, i⟩ name).getD ⟨k2, 0⟩ = ⟨k2, t⟩ := by
  have hf := h.findRecord name (Ha.chainFuel ⟨k, i⟩) i
  rw [h.chainFuel i, hf.1]
  cases hr : Otto.findRecord Ha (Ha.chainFuel ⟨k, i⟩) ⟨k, i⟩ name with
  | none => exact ⟨0, rfl, rfl⟩
  | some r =>
    have hrc := Ref.place_eq_self k r (hf.2 r hr)
    exact ⟨r.index, by simpa using hrc, rfl⟩

theorem Corresponds.prototypeOf {Ha Hb : Heap} {k k2 : Nat} (h : Corresponds Ha k Hb k2)
    (c : GoString) :
    prototypeOf Hb k2 c = (prototypeOf Ha k c).map (Ref.place k2) ∧
      (prototypeOf Ha k c).map (Ref.place k) = prototypeOf Ha k c := by
  have hv := h.valueAt [c, str "prototype"]
  unfold Otto.prototypeOf
  rw [hv.1]
  cases hp : Otto.valueAt Ha k [c, str "prototype"] with
  | error e => exact ⟨rfl, rfl⟩
  | ok v => exact ⟨Value.ref_place k2 v, Value.ref_closed k v (hv.2 v hp)⟩

theorem frame_alloc (H : Heap) (k j : Nat) (o : ScriptObject) (hj : j ≠ k) :
    (H.alloc k o).1.graphs[j]? = H.graphs[j]? := by
  simp only [Heap.alloc]
  exact List.getElem?_set_ne (Ne.symm hj)

theorem plusValues_place (k : Nat) (a b : Value) :
    plusValues (a.place k) (b.place k) = (plusValues a b).place k ∧
      ∀ k3, (plusValues a b).place k3 = plusValues a b := by
  cases a <;> cases b <;> exact ⟨rfl, fun _ => rfl⟩

theorem Simulates.bind {k k2 : Nat} {H : Heap} {ra rb : Outcome × Heap}
    {f g : Value → Heap → Outcome × Heap} (h : Simulates k k2 H ra rb)
    (hf : ∀ v Ha Hb, v.place k = v → Corresponds Ha k Hb k2 →
      Simulates k k2 Ha (f v Ha) (g (v.place k2) Hb)) :
    Simulates k k2 H (bindEval ra f) (bindEval rb g) := by
  obtain ⟨oa, Ha⟩ := ra
  obtain ⟨ob, Hb⟩ := rb
  obtain ⟨h1, h2, h3, h4⟩ := h
  simp only at h1 h2 h3 h4
  subst h1
  cases oa with
  | value v =>
    have hv : v.place k = v := by simpa [Outcome.place] using h2
    have h5 := hf v Ha Hb hv h3
    simp only [bindEval, Outcome.place]
    exact ⟨h5.1, h5.2.1, h5.2.2.1, fun j hj => (h5.2.2.2 j hj).trans (h4 j hj)⟩
  | thrown e => exact ⟨rfl, rfl, h3, h4⟩
  | stopped => exact ⟨rfl, rfl, h3, h4⟩

theorem Simulates.frame {k k2 : Nat} {H H2 : Heap} {ra rb : Outcome × Heap}
    (h : Simulates k k2 H2 ra rb) (hH : ∀ j, j ≠ k → H2.graphs[j]? = H.graphs[j]?) :
    Simulates k k2 H ra rb :=
  ⟨h.1, h.2.1, h.2.2.1, fun j hj => (h.2.2.2 j hj).trans (hH j hj)⟩

theorem Value.self_place (k k2 : Nat) (v : Value) (hv : v.place k = v) :
    ∃ t, (v.ref?).getD ⟨k, 0⟩ = ⟨k, t⟩ ∧ ((v.place k2).ref?).getD ⟨k2, 0⟩ = ⟨k2, t⟩ := by
  cases v with
  | Object r =>
    have hr : r = ⟨k, r.index⟩ := Ref.place_eq_self k r (by simpa [Value.place] using hv)
    exact ⟨r.index, by simpa [Value.ref?] using hr, rfl⟩
  | Undefined => exact ⟨0, rfl, rfl⟩
  | Null => exact ⟨0, rfl, rfl⟩
  | Boolean b => exact ⟨0, rfl, rfl⟩
  | Number n => exact ⟨0, rfl, rfl⟩
  | String s => exact ⟨0, rfl, rfl⟩

theorem Corresponds.enterCall {Ha Hb : Heap} {k k2 : Nat} (h : Corresponds Ha k Hb k2)
    (f a : Value) (hf : f.place k = f) (ha : a.place k = a) :
    (Otto.enterCall Ha k f a = none →
      Otto.enterCall Hb k2 (f.place k2) (a.place k2) = none) ∧
    ∀ Ha2 record body, Otto.enterCall Ha k f a = some (Ha2, record, body) →
      ∃ Hb2 i, Otto.enterCall Hb k2 (f.place k2) (a.place k2) = some (Hb2, ⟨k2, i⟩, body) ∧
        record = ⟨k, i⟩ ∧ Corresponds Ha2 k Hb2 k2 ∧
        ∀ j, j ≠ k → Ha2.graphs[j]? = Ha.graphs[j]? := by
  cases f with
  | Object r =>
    have hrr : r = ⟨k, r.index⟩ := Ref.place_eq_self k r (by simpa [Value.place] using hf)
    rw [hrr]
    rw [show (Value.Object ⟨k, r.index⟩).place k2 = Value.Object ⟨k2, r.index⟩ from rfl]
    have hobj := h.object r.index
    simp only [Otto.enterCall, hobj]
    cases ho : Ha.object? ⟨k, r.index⟩ with
    | none => exact ⟨fun _ => rfl, fun _ _ _ hc => by cases hc⟩
    | some o =>
      have hoc := h.object_closed r.index o ho
      simp only [Option.map_some']
      have hsc : (o.place k2).scope = o.scope.map (Ref.place k2) := rfl
      have hcd : (o.place k2).code = o.code := rfl
      rw [hsc, hcd]
      cases hs : o.scope with
      | none => exact ⟨fun _ => rfl, fun _ _ _ hc => by cases hc⟩
      | some s =>
        cases hc : o.code with
        | none => exact ⟨fun _ => rfl, fun _ _ _ hc => by cases hc⟩
        | some code =>
          have hss := ScriptObject.scope_closed k o s hoc hs
          have hac : (activation code s a).place k = activation code s a := by
            rw [hss]
            simp only [activation, ScriptObject.place, List.map_cons, List.map_nil,
              Option.map_some', Option.map_none', Ref.place, Property.place,
              plainProperty, ha]
          have hab : activation code (s.place k2) (a.place k2)
              = (activation code s a).place k2 := by
            simp only [activation, ScriptObject.place, List.map_cons, List.map_nil,
              Option.map_some', Option.map_none', Property.place, plainProperty]
          have hal := h.alloc _ hac
          simp only [Option.map_some']
          rw [hab]
          refine ⟨(fun hn => by cases hn), ?_⟩
          intro Ha2 record body hsome
          simp only [Option.some.injEq, Prod.mk.injEq] at hsome
          obtain ⟨h1, h2, h3⟩ := hsome
          subst h1 h2 h3
          refine ⟨(Hb.alloc k2 ((activation code s a).place k2)).1,
            (Ha.alloc k (activation code s a)).2.index, ?_,
            Ref.place_eq_self k _ hal.2.2, hal.1, fun j hj => frame_alloc Ha k j _ hj⟩
          rw [show (⟨k2, (Ha.alloc k (activation code s a)).2.index⟩ : Ref)
            = (Hb.alloc k2 ((activation code s a).place k2)).2 from by rw [hal.2.1]; rfl]
  | Undefined => exact ⟨fun _ => rfl, fun _ _ _ hc => by cases hc⟩
  | Null => exact ⟨fun _ => rfl, fun _ _ _ hc => by cases hc⟩
  | Boolean b => exact ⟨fun _ => rfl, fun _ _ _ hc => by cases hc⟩
  | Number n => exact ⟨fun _ => rfl, fun _ _ _ hc => by cases hc⟩
  | String s => exact ⟨fun _ => rfl, fun _ _ _ hc => by cases hc⟩

theorem eval_simulates (k k2 : Nat) :
    ∀ (fuel i t : Nat) (Ha Hb : Heap) (e : Expr), Corresponds Ha k Hb k2 →
      Simulates k k2 Ha (eval k fuel ⟨k, i⟩ ⟨k, t⟩ Ha e) (eval k2 fuel ⟨k2, i⟩ ⟨k2, t⟩ Hb e)
  | 0, _, _, _, _, _, h => ⟨rfl, rfl, h, fun _ _ => rfl⟩
  | fuel + 1, i, t, Ha, Hb, e, h => by
    cases e with
    | literal v =>
      simp only [eval]
      exact ⟨by simp [Outcome.place, Value.primitive_place],
        by simp [Outcome.place, Value.primitive_place], h, fun _ _ => rfl⟩
    | this =>
      simp only [eval]
      exact ⟨rfl, rfl, h, fun _ _ => rfl⟩
    | identifier name =>
      simp only [eval]
      have hr := h.readIdentifier i name
      exact ⟨hr.1, hr.2, h, fun _ _ => rfl⟩
    | member target name =>
      simp only [eval]
      refine (eval_simulates k k2 fuel i t Ha Hb target h).bind ?_
      intro v Ha2 Hb2 hv h2
      have hm := h2.resolveMember v name hv
      rw [hm.1]
      cases hres : resolveMember Ha2 v name with
      | error err => exact ⟨rfl, rfl, h2, fun _ _ => rfl⟩
      | ok w =>
        exact ⟨rfl, by simp only [Outcome.place]; rw [hm.2 w hres], h2, fun _ _ => rfl⟩
    | declare name value =>
      simp only [eval]
      refine (eval_simulates k k2 fuel i t Ha Hb value h).bind ?_
      intro v Ha2 Hb2 hv h2
      exact ⟨rfl, rfl, h2.putValue i name v hv, fun j hj => frame_putValue Ha2 k i j name v hj⟩
    | assign name value =>
      simp only [eval]
      obtain ⟨r, hta, htb⟩ := h.target i name
      rw [hta, htb]
      refine (eval_simulates k k2 fuel i t Ha Hb value h).bind ?_
      intro v Ha2 Hb2 hv h2
      exact ⟨rfl, by simp only [Outcome.place]; rw [hv], h2.putValue r name v hv,
        fun j hj => frame_putValue Ha2 k r j name v hj⟩
    | assignMember target name value =>
      simp only [eval]
      refine (eval_simulates k k2 fuel i t Ha Hb target h).bind ?_
      intro base Ha2 Hb2 hbase h2
      refine (eval_simulates k k2 fuel i t Ha2 Hb2 value h2).bind ?_
      intro v Ha3 Hb3 hv h3
      cases base with
      | Object r =>
        have hr : r = ⟨k, r.index⟩ :=
          Ref.place_eq_self k r (by simpa [Value.place] using hbase)
        rw [hr]
        simp only [Value.place, Ref.place]
        exact ⟨rfl, by simp only [Outcome.place]; rw [hv], h3.putValue r.index name v hv,
          fun j hj => frame_putValue Ha3 k r.index j name v hj⟩
      | Undefined => exact ⟨rfl, rfl, h3, fun _ _ => rfl⟩
      | Null => exact ⟨rfl, rfl, h3, fun _ _ => rfl⟩
      | Boolean b =>
        exact ⟨rfl, by simp only [Outcome.place]; rw [hv], h3, fun _ _ => rfl⟩
      | Number n =>
        exact ⟨rfl, by simp only [Outcome.place]; rw [hv], h3, fun _ _ => rfl⟩
      | String s =>
        exact ⟨rfl, by simp only [Outcome.place]; rw [hv], h3, fun _ _ => rfl⟩
    | object =>
      simp only [eval]
      have hp := h.prototypeOf (str "Object")
      have hoc : (emptyObject (prototypeOf Ha k (str "Object"))).place k
          = emptyObject (prototypeOf Ha k (str "Object")) := by
        simp only [emptyObject, ScriptObject.place, List.map_nil, Option.map_none', hp.2]
      have hob : emptyObject (prototypeOf Hb k2 (str "Object"))
          = (emptyObject (prototypeOf Ha k (str "Object"))).place k2 := by
        simp only [emptyObject, ScriptObject.place, List.map_nil, Option.map_none', hp.1]
      have ha := h.alloc _ hoc
      rw [hob]
      exact ⟨by simp only [Outcome.place, Value.place]; rw [ha.2.1],
        by simp only [Outcome.place, Value.place]; rw [ha.2.2], ha.1,
        fun j hj => frame_alloc Ha k j _ hj⟩
    | function param body =>
      simp only [eval]
      have hp := h.prototypeOf (str "Function")
      have hoc : (functionObject (prototypeOf Ha k (str "Function")) ⟨k, i⟩ ⟨param, body⟩).place k
          = functionObject (prototypeOf Ha k (str "Function")) ⟨k, i⟩ ⟨param, body⟩ := by
        simp only [functionObject, ScriptObject.place, List.map_nil, Option.map_some', hp.2,
          Ref.place]
      have hob : functionObject (prototypeOf Hb k2 (str "Function")) ⟨k2, i⟩ ⟨param, body⟩
          = (functionObject (prototypeOf Ha k (str "Function")) ⟨k, i⟩ ⟨param, body⟩).place
              k2 := by
        simp only [functionObject, ScriptObject.place, List.map_nil, Option.map_some', hp.1,
          Ref.place]
      have ha := h.alloc _ hoc
      rw [hob]
      exact ⟨by simp only [Outcome.place, Value.place]; rw [ha.2.1],
        by simp only [Outcome.place, Value.place]; rw [ha.2.2], ha.1,
        fun j hj => frame_alloc Ha k j _ hj⟩
    | call callee argument =>
      simp only [eval]
      have hr := h.readIdentifier i callee
      rw [hr.1]
      cases hf : readIdentifier Ha ⟨k, i⟩ callee with
      | thrown err => exact ⟨rfl, rfl, h, fun _ _ => rfl⟩
      | stopped => exact ⟨rfl, rfl, h, fun _ _ => rfl⟩
      | value f =>
        have hfc : f.place k = f := by
          have := hr.2
          rw [hf] at this
          simpa [Outcome.place] using this
        simp only [Outcome.place]
        refine (eval_simulates k k2 fuel i t Ha Hb argument h).bind ?_
        intro a Ha2 Hb2 ha h2
        have hec := h2.enterCall f a hfc ha
        cases hen : enterCall Ha2 k f a with
        | none =>
          rw [hec.1 hen]
          exact ⟨rfl, rfl, h2, fun _ _ => rfl⟩
        | some entered =>
          obtain ⟨Ha3, record, body⟩ := entered
          obtain ⟨Hb3, r, hb, hrec, hcor, hfr⟩ := hec.2 Ha3 record body hen
          rw [hb, hrec]
          exact (eval_simulates k k2 fuel r 0 Ha3 Hb3 body hcor).frame hfr
    | callMember target name argument =>
      simp only [eval]
      refine (eval_simulates k k2 fuel i t Ha Hb target h).bind ?_
      intro base Ha2 Hb2 hbase h2
      have hm := h2.resolveMember base name hbase
      rw [hm.1]
      cases hres : resolveMember Ha2 base name with
      | error err => exact ⟨rfl, rfl, h2, fun _ _ => rfl⟩
      | ok f =>
        have hfc := hm.2 f hres
        simp only [Except.map]
        refine (eval_simulates k k2 fuel i t Ha2 Hb2 argument h2).bind ?_
        intro a Ha3 Hb3 ha h3
        have hec := h3.enterCall f a hfc ha
        cases hen : enterCall Ha3 k f a with
        | none =>
          rw [hec.1 hen]
          exact ⟨rfl, rfl, h3, fun _ _ => rfl⟩
        | some entered =>
          obtain ⟨Ha4, record, body⟩ := entered
          obtain ⟨Hb4, r, hb, hrec, hcor, hfr⟩ := hec.2 Ha4 record body hen
          obtain ⟨s, hsa, hsb⟩ := Value.self_place k k2 base hbase
          rw [hb, hrec, hsa, hsb]
          exact (eval_simulates k k2 fuel r s Ha4 Hb4 body hcor).frame hfr
    | plus left right =>
      simp only [eval]
      refine (eval_simulates k k2 fuel i t Ha Hb left h).bind ?_
      intro a Ha2 Hb2 _ h2
      refine (eval_simulates k k2 fuel i t Ha2 Hb2 right h2).bind ?_
      intro b Ha3 Hb3 _ h3
      have hp := plusValues_place k2 a b
      exact ⟨hp.1, (plusValues_place k a b).2 k, h3, fun _ _ => rfl⟩
    | seq first second =>
      simp only [eval]
      refine (eval_simulates k k2 fuel i t Ha Hb first h).bind ?_
      intro _ Ha2 Hb2 _ h2
      exact eval_simulates k k2 fuel i t Ha2 Hb2 second h2

theorem runScript_simulates (k k2 fuel : Nat) :
    ∀ (program : List Expr) (Ha Hb : Heap), Corresponds Ha k Hb k2 →
      (runScript k2 fuel Hb program).1 = (runScript k fuel Ha program).1 ∧
        Corresponds (runScript k fuel Ha program).2 k (runScript k2 fuel Hb program).2 k2 ∧
        ∀ j, j ≠ k → (runScript k fuel Ha program).2.graphs[j]? = Ha.graphs[j]?
  | [], _, _, h => ⟨rfl, h, fun _ _ => rfl⟩
  | statement :: rest, Ha, Hb, h => by
    obtain ⟨h1, _, h3, h4⟩ := eval_simulates k k2 fuel 0 0 Ha Hb statement h
    simp only [runScript]
    cases hra : eval k fuel ⟨k, 0⟩ ⟨k, 0⟩ Ha statement with
    | mk oa Ha2 =>
      cases hrb : eval k2 fuel ⟨k2, 0⟩ ⟨k2, 0⟩ Hb statement with
      | mk ob Hb2 =>
        rw [hra, hrb] at h1 h3
        rw [hra] at h4
        simp only at h1 h3 h4
        subst h1
        cases oa with
        | value v =>
          obtain ⟨ih1, ih2, ih3⟩ := runScript_simulates k k2 fuel rest Ha2 Hb2 h3
          simp only [Outcome.place]
          refine ⟨?_, ih2, fun j hj => (ih3 j hj).trans (h4 j hj)⟩
          rw [ih1, value_place_place]
        | thrown e => exact ⟨rfl, h3, h4⟩
        | stopped => exact ⟨rfl, h3, h4⟩

theorem Corresponds.result {Ha Hb : Heap} {k k2 : Nat} (h : Corresponds Ha k Hb k2)
    (fuel : Nat) (program : List Expr) :
    Otto.result k2 fuel Hb program = Otto.result k fuel Ha program :=
  (runScript_simulates k k2 fuel program Ha Hb h).1

theorem independent_step (H : Heap) (a b fuel fuel2 : Nat) (P Q : List Expr) (hab : a ≠ b)
    (hwa : WellFormed H a) (hwb : WellFormed H b) :
    result b fuel2 (heapAfter a fuel H P) Q = result b fuel2 H Q ∧
      WellFormed (heapAfter a fuel H P) a ∧ WellFormed (heapAfter a fuel H P) b := by
  obtain ⟨_, hc, hframe⟩ := runScript_simulates a a fuel P H H hwa.corresponds
  obtain ⟨g, hg, hcl⟩ := hwb
  have hgb : (heapAfter a fuel H P).graphs[b]? = some g :=
    (hframe b (Ne.symm hab)).trans hg
  have hcor : Corresponds H b (heapAfter a fuel H P) b :=
    ⟨g, hg, hcl, by rw [Closed.map_place b g hcl]; exact hgb⟩
  exact ⟨hcor.result fuel2 Q, hc.wellFormed, g, hgb, hcl⟩

/-- Claim C12: the clone of a VM whose references stay in its graph gives for every program, of
expressions with declarations, assignments to names and to members, object literals, function
expressions that capture their environment record, and calls of names and of members, and for
every fuel, the result the original gives, before and after the clone was made, and the two VMs
are separate; and of two separate VMs of a heap, after a program run in one, every program run
in the other has the result it would have had without the first, and the two VMs are separate
again, so that the same holds for every later program. -/
theorem clone_independence (H : Heap) (k : Nat) (H2 : Heap) (a b fuel fuel2 : Nat)
    (P Q : List Expr) (hwf : WellFormed H k) (hsep : Separate H2 a b) :
    result (clone H k).2 fuel (clone H k).1 Q = result k fuel H Q ∧
    result k fuel (clone H k).1 Q = result k fuel H Q ∧
    Separate (clone H k).1 k (clone H k).2 ∧
    result b fuel2 (heapAfter a fuel H2 P) Q = result b fuel2 H2 Q ∧
    result a fuel2 (heapAfter b fuel H2 P) Q = result a fuel2 H2 Q ∧
    Separate (heapAfter a fuel H2 P) a b ∧ Separate (heapAfter b fuel H2 P) a b := by
  obtain ⟨hc1, hc2, hne⟩ := clone_corresponds H k hwf
  obtain ⟨hab, hwa, hwb⟩ := hsep
  have h1 := independent_step H2 a b fuel fuel2 P Q hab hwa hwb
  have h2 := independent_step H2 b a fuel fuel2 P Q (Ne.symm hab) hwb hwa
  exact ⟨hc1.result fuel Q, hc2.result fuel Q,
    ⟨hne, hc2.wellFormed_right, hc1.wellFormed_right⟩,
    h1.1, h2.1, ⟨hab, h1.2.1, h1.2.2⟩, ⟨hab, h2.2.2, h2.2.1⟩⟩

theorem WellFormed.heapAfter {H : Heap} {k : Nat} (hwf : WellFormed H k) (fuel : Nat)
    (program : List Expr) : WellFormed (Otto.heapAfter k fuel H program) k :=
  (runScript_simulates k k fuel program H H hwf.corresponds).2.1.wellFormed

/-- The claim C12 in `TestOttoCopy`, on the VM 0 after `closureProgram` set up the closures and
`def()` was called once: the clone gives for `def()` what the VM 0 gives, and after the clone
ran `def()`, which adds to `global.abc` and to the captured `jkl` of the clone, the VM 0 gives
for `def()` what it would have given without. -/
theorem clone_independence_witness :
    result (clone closureHeap 0).2 40 (clone closureHeap 0).1 callProgram
      = result 0 40 closureHeap callProgram ∧
    result 0 40 (heapAfter (clone closureHeap 0).2 40 (clone closureHeap 0).1 callProgram)
        callProgram
      = result 0 40 (clone closureHeap 0).1 callProgram :=
  have hwf : WellFormed closureHeap 0 :=
    ((show WellFormed copyHeap 0 from ⟨[emptyObject none], rfl, by decide⟩).heapAfter 40
      closureProgram).heapAfter 40 callProgram
  have hc := clone_corresponds closureHeap 0 hwf
  have h := clone_independence closureHeap 0 (clone closureHeap 0).1 (clone closureHeap 0).2 0
    40 40 callProgram callProgram hwf
    ⟨Ne.symm hc.2.2, hc.1.wellFormed_right, hc.2.1.wellFormed_right⟩
  ⟨h.1, h.2.2.2.1⟩

/-- The lines of `TestOttoCopy` on the closures: the first `def()` gives `vm0,0,0,1`; the clone,
the VM 1, renamed to `vm1`, gives `vm1,1,1,1`, the original then `vm0,1,1,1`, and the clone
again `vm1,2,2,1`; and after the clone redefined `def`, the original calls the old function. -/
theorem copy_test :
    result 0 40 (heapAfter 0 40 copyHeap closureProgram) callProgram
      = [.value (.Object ⟨0, 6⟩), .value (.String (str "vm0")), .value (numberValue 0),
         .value (numberValue 0), .value (numberValue 1)] ∧
    (clone closureHeap 0).2 = 1 ∧
    result 1 40 (heapAfter 1 40 (clone closureHeap 0).1 renameProgram) callProgram
      = [.value (.Object ⟨0, 9⟩), .value (.String (str "vm1")), .value (numberValue 1),
         .value (numberValue 1), .value (numberValue 1)] ∧
    result 0 40
        (heapAfter 1 40 (heapAfter 1 40 (clone closureHeap 0).1 renameProgram) callProgram)
        callProgram
      = [.value (.Object ⟨0, 9⟩), .value (.String (str "vm0")), .value (numberValue 1),
         .value (numberValue 1), .value (numberValue 1)] ∧
    result 1 40
        (heapAfter 0 40
          (heapAfter 1 40 (heapAfter 1 40 (clone closureHeap 0).1 renameProgram) callProgram)
          callProgram)
        callProgram
      = [.value (.Object ⟨0, 12⟩), .value (.String (str "vm1")), .value (numberValue 2),
         .value (numberValue 2), .value (numberValue 1)] ∧
    result 1 40 (heapAfter 1 40 (clone closureHeap 0).1 redefineProgram) callProgram
      = [.value (numberValue 7), .value .Undefined, .value .Undefined, .value .Undefined,
         .value .Undefined] ∧
    result 0 40 (heapAfter 1 40 (clone closureHeap 0).1 redefineProgram) callProgram
      = [.value (.Object ⟨0, 9⟩), .value (.String (str "vm0")), .value (numberValue 1),
         .value (numberValue 1), .value (numberValue 1)] ∧
    result 0 40 copyHeap [.identifier (str "xyzzy")] = [.thrown (notDefined (str "xyzzy"))] ∧
    result 0 3 closureHeap callProgram = [.stopped] := by
  decide!

/-- The lines of `TestOttoCall_clone`: after `var abc = 1; var def = function(value) { abc +=
value; return abc; }` the clone gives 2 for `def(1)` and the original then 5 for `def(4)`; and
after `methodProgram` the clone gives 2 for `def.abc.jkl(1)`, which adds to `this.ghi`, and the
original then 5 for `def.abc.jkl(4)`. -/
theorem call_clone_test :
    result 1 40
        (clone (heapAfter 0 40 copyHeap
          [.declare (str "abc") (.literal (numberValue 1)),
           .declare (str "def") (.function (str "value")
             (.seq (.assign (str "abc") (.plus (.identifier (str "abc"))
                 (.identifier (str "value"))))
               (.identifier (str "abc"))))]) 0).1
        [.call (str "def") (.literal (numberValue 1))]
      = [.value (numberValue 2)] ∧
    result 0 40
        (heapAfter 1 40
          (clone (heapAfter 0 40 copyHeap
            [.declare (str "abc") (.literal (numberValue 1)),
             .declare (str "def") (.function (str "value")
               (.seq (.assign (str "abc") (.plus (.identifier (str "abc"))
                   (.identifier (str "value"))))
                 (.identifier (str "abc"))))]) 0).1
          [.call (str "def") (.literal (numberValue 1))])
        [.call (str "def") (.literal (numberValue 4))]
      = [.value (numberValue 5)] ∧
    result 1 40 (clone methodHeap 0).1 (methodCall 1) = [.value (numberValue 2)] ∧
    result 0 40 (heapAfter 1 40 (clone methodHeap 0).1 (methodCall 1)) (methodCall 4)
      = [.value (numberValue 5)] := by
  decide!

/-- A label set only adds a way for `BreakIsLast` to hold. -/
theorem breakIsLast_weaken (L : GoString) (labels : List GoString) (c : Completion Value)
    (evs : List Event) (h : BreakIsLast L [] c evs) : BreakIsLast L labels c evs := by
  rcases h with h | ⟨before, h1, h2, h3 | ⟨h3, _⟩⟩
  · exact Or.inl h
  · exact Or.inr ⟨before, h1, h2, Or.inl h3⟩
  · simp at h3

/-- What was evaluated before, without any `break L`, keeps `BreakIsLast`. -/
theorem breakIsLast_append (L : GoString) (labels : List GoString) (c : Completion Value)
    (t1 t2 : List Event) (h1 : breakEvent L ∉ t1) (h2 : BreakIsLast L labels c t2) :
    BreakIsLast L labels c (t1 ++ t2) := by
  rcases h2 with h | ⟨before, h3, h4, h5⟩
  · exact Or.inl (by simp [h1, h])
  · exact Or.inr ⟨t1 ++ before, by rw [h3, List.append_assoc], by simp [h1, h4], h5⟩

/-- A completion that is not `break L`, from a statement without labels, tells that no `break L`
was evaluated. -/
theorem breakIsLast_not_mem (L : GoString) (c : Completion Value) (evs : List Event)
    (h : BreakIsLast L [] c evs) (hc : ¬ (c.kind = .Break ∧ c.target = some L)) :
    breakEvent L ∉ evs := by
  rcases h with h | ⟨before, _, _, h3 | ⟨h3, _⟩⟩
  · exact h
  · exact absurd h3 hc
  · simp at h3

/-- A loop that leaves after its body keeps `BreakIsLast`. -/
theorem loopExit_some_breakIsLast (L : GoString) (labels : List GoString)
    (r c : Completion Value) (evs : List Event) (h : BreakIsLast L [] r evs)
    (he : loopExit labels r = some c) : BreakIsLast L labels c evs := by
  unfold loopExit at he
  split at he
  · cases he
  · split at he
    · rename_i hb
      cases he
      rcases h with h | ⟨before, h1, h2, h3 | ⟨h3, _⟩⟩
      · exact Or.inl h
      · refine Or.inr ⟨before, h1, h2, Or.inr ⟨?_, rfl⟩⟩
        have := hb.2
        rw [h3.2] at this
        simpa [inLabelSet] using this
      · simp at h3
    · cases he
      exact breakIsLast_weaken L labels _ evs h

/-- A loop that goes on after its body has not evaluated `break L` in it. -/
theorem loopExit_none_not_mem (L : GoString) (labels : List GoString) (r : Completion Value)
    (evs : List Event) (h : BreakIsLast L [] r evs) (he : loopExit labels r = none) :
    breakEvent L ∉ evs := by
  apply breakIsLast_not_mem L r evs h
  intro hb
  unfold loopExit at he
  split at he
  · rename_i hgo
    rcases hgo with hgo | hgo
    · rw [hb.1] at hgo; cases hgo
    · rw [hb.1] at hgo; cases hgo.1
  · split at he <;> cases he

/-- A `switch` keeps `BreakIsLast`. -/
theorem switchExit_breakIsLast (L : GoString) (labels : List GoString) (r : Completion Value)
    (evs : List Event) (h : BreakIsLast L [] r evs) :
    BreakIsLast L labels (switchExit labels r) evs := by
  unfold switchExit
  split
  · rename_i hb
    rcases h with h | ⟨before, h1, h2, h3 | ⟨h3, _⟩⟩
    · exact Or.inl h
    · refine Or.inr ⟨before, h1, h2, Or.inr ⟨?_, rfl⟩⟩
      have := hb.2
      rw [h3.2] at this
      simpa [inLabelSet] using this
    · simp at h3
  · exact breakIsLast_weaken L labels r evs h

/-- The chain of clauses without the label `L` is without the label `L`. -/
theorem labelFree_clauseChain {S : Type} (L : GoString)
    (clauses : List (Option (S → Value) × Stmt S))
    (h : ∀ c ∈ clauses, LabelFree L c.2) : LabelFree L (clauseChain clauses) := by
  induction clauses with
  | nil => exact LabelFree.empty
  | cons c rest ih =>
    exact LabelFree.seq _ _ (h c (List.mem_cons_self _ _))
      (ih (fun d hd => h d (List.mem_cons_of_mem _ hd)))

/-- One turn of a loop: the body, then either the exit or the turns that follow. -/
theorem loopTurn_breakIsLast {S : Type} (L : GoString) (labels : List GoString)
    (r : Completion Value) (s1 : S) (t1 : List Event)
    (next : Option (Completion Value × S × List Event))
    (c : Completion Value) (s2 : S) (evs : List Event)
    (hr : BreakIsLast L [] r t1)
    (h : (match loopExit labels r with
          | some c => some (c, s1, t1)
          | none =>
            match next with
            | none => none
            | some (c, s2, t2) => some (c, s2, t1 ++ t2)) = some (c, s2, evs))
    (hnext : ∀ c2 s3 t2, next = some (c2, s3, t2) → BreakIsLast L labels c2 t2) :
    BreakIsLast L labels c evs := by
  cases he : loopExit labels r with
  | some c1 =>
    rw [he] at h
    simp only [Option.some.injEq, Prod.mk.injEq] at h
    obtain ⟨rfl, rfl, rfl⟩ := h
    exact loopExit_some_breakIsLast L labels r _ _ hr he
  | none =>
    rw [he] at h
    cases hn : next with
    | none => rw [hn] at h; cases h
    | some p =>
      obtain ⟨c2, s3, t2⟩ := p
      rw [hn] at h
      simp only [Option.some.injEq, Prod.mk.injEq] at h
      obtain ⟨rfl, rfl, rfl⟩ := h
      exact breakIsLast_append L labels _ t1 t2 (loopExit_none_not_mem L labels r t1 hr he)
        (hnext _ _ _ hn)

/-- In a statement without the label `L` inside, a `break L` that is evaluated is the last thing
evaluated, and it is the completion of the statement unless the statement has `L` in its label
set. -/
theorem evalStmt_breakIsLast {S : Type} (L : GoString) (fuel : Nat) :
    ∀ (labels : List GoString) (stmt : Stmt S) (s : S) (c : Completion Value) (s1 : S)
      (evs : List Event),
      LabelFree L stmt → evalStmt fuel labels stmt s = some (c, s1, evs) →
      BreakIsLast L labels c evs := by
  induction fuel with
  | zero =>
    intro labels stmt s c s1 evs _ h
    simp [evalStmt] at h
  | succ fuel ih =>
    intro labels stmt s c s1 evs hfree h
    cases hfree with
    | exec f =>
      simp only [evalStmt, Option.some.injEq, Prod.mk.injEq] at h
      obtain ⟨rfl, rfl, rfl⟩ := h
      exact Or.inl (by simp [breakEvent])
    | empty =>
      simp only [evalStmt, Option.some.injEq, Prod.mk.injEq] at h
      obtain ⟨rfl, rfl, rfl⟩ := h
      exact Or.inl (by simp)
    | jump k t =>
      simp only [evalStmt, Option.some.injEq, Prod.mk.injEq] at h
      obtain ⟨rfl, rfl, rfl⟩ := h
      by_cases hk : k = .Break ∧ t = some L
      · obtain ⟨rfl, rfl⟩ := hk
        exact Or.inr ⟨[], rfl, by simp, Or.inl ⟨rfl, rfl⟩⟩
      · refine Or.inl ?_
        simp only [breakEvent, List.mem_singleton, Event.jumped.injEq]
        intro he
        exact hk ⟨he.1.symm, he.2.symm⟩
    | seq a b ha hb =>
      simp only [evalStmt] at h
      cases h1 : evalStmt fuel [] a s with
      | none => rw [h1] at h; cases h
      | some p =>
        obtain ⟨c1, s2, t1⟩ := p
        rw [h1] at h
        have i1 := ih [] a s c1 s2 t1 ha h1
        by_cases hn : c1.kind = .Normal
        · simp only [hn, if_true] at h
          cases h2 : evalStmt fuel [] b s2 with
          | none => rw [h2] at h; cases h
          | some q =>
            obtain ⟨c2, s3, t2⟩ := q
            rw [h2] at h
            simp only [Option.some.injEq, Prod.mk.injEq] at h
            obtain ⟨rfl, rfl, rfl⟩ := h
            have i2 := ih [] b s2 c2 s3 t2 hb h2
            exact breakIsLast_append L labels _ t1 t2
              (breakIsLast_not_mem L c1 t1 i1 (fun hb => by rw [hn] at hb; cases hb.1))
              (breakIsLast_weaken L labels _ _ i2)
        · simp only [hn, if_false, Option.some.injEq, Prod.mk.injEq] at h
          obtain ⟨rfl, rfl, rfl⟩ := h
          exact breakIsLast_weaken L labels _ _ i1
    | ifElse cond a b ha hb =>
      simp only [evalStmt] at h
      by_cases hc : cond s = true
      · rw [if_pos hc] at h
        exact breakIsLast_weaken L labels _ _ (ih [] a s c s1 evs ha h)
      · rw [if_neg hc] at h
        exact breakIsLast_weaken L labels _ _ (ih [] b s c s1 evs hb h)
    | whileLoop cond body hbody =>
      simp only [evalStmt] at h
      by_cases hc : cond s = true
      · rw [if_pos hc] at h
        cases h1 : evalStmt fuel [] body s with
        | none => rw [h1] at h; cases h
        | some p =>
          obtain ⟨r, s2, t1⟩ := p
          rw [h1] at h
          dsimp only at h
          exact loopTurn_breakIsLast L labels r s2 t1 _ c s1 evs (ih [] body s r s2 t1 hbody h1) h
            (fun c2 s3 t2 hn => ih labels _ s2 c2 s3 t2 (LabelFree.whileLoop cond body hbody) hn)
      · rw [if_neg hc] at h
        simp only [Option.some.injEq, Prod.mk.injEq] at h
        obtain ⟨rfl, rfl, rfl⟩ := h
        exact Or.inl (by simp)
    | doWhileLoop body cond hbody =>
      simp only [evalStmt] at h
      cases h1 : evalStmt fuel [] body s with
      | none => rw [h1] at h; cases h
      | some p =>
        obtain ⟨r, s2, t1⟩ := p
        rw [h1] at h
        have i1 := ih [] body s r s2 t1 hbody h1
        dsimp only at h
        by_cases hc : cond s2 = true
        · simp only [hc, if_true] at h
          exact loopTurn_breakIsLast L labels r s2 t1 _ c s1 evs i1 h
            (fun c2 s3 t2 hn =>
              ih labels _ s2 c2 s3 t2 (LabelFree.doWhileLoop body cond hbody) hn)
        · simp only [hc] at h
          cases he : loopExit labels r with
          | some c1 =>
            rw [he] at h
            simp only [Option.some.injEq, Prod.mk.injEq] at h
            obtain ⟨rfl, rfl, rfl⟩ := h
            exact loopExit_some_breakIsLast L labels r _ _ i1 he
          | none =>
            rw [he] at h
            simp only [Bool.false_eq_true, if_false, Option.some.injEq, Prod.mk.injEq] at h
            obtain ⟨rfl, rfl, rfl⟩ := h
            exact Or.inl (loopExit_none_not_mem L labels r _ i1 he)
    | forLoop cond update body hbody =>
      simp only [evalStmt] at h
      by_cases hc : cond s = true
      · rw [if_pos hc] at h
        cases h1 : evalStmt fuel [] body s with
        | none => rw [h1] at h; cases h
        | some p =>
          obtain ⟨r, s2, t1⟩ := p
          rw [h1] at h
          dsimp only at h
          exact loopTurn_breakIsLast L labels r s2 t1 _ c s1 evs (ih [] body s r s2 t1 hbody h1) h
            (fun c2 s3 t2 hn =>
              ih labels _ (update s2) c2 s3 t2 (LabelFree.forLoop cond update body hbody) hn)
      · rw [if_neg hc] at h
        simp only [Option.some.injEq, Prod.mk.injEq] at h
        obtain ⟨rfl, rfl, rfl⟩ := h
        exact Or.inl (by simp)
    | forKeys keys bind body hbody =>
      cases keys with
      | nil =>
        simp only [evalStmt, Option.some.injEq, Prod.mk.injEq] at h
        obtain ⟨rfl, rfl, rfl⟩ := h
        exact Or.inl (by simp)
      | cons k ks =>
        simp only [evalStmt] at h
        cases h1 : evalStmt fuel [] body (bind k s) with
        | none => rw [h1] at h; cases h
        | some p =>
          obtain ⟨r, s2, t1⟩ := p
          rw [h1] at h
          dsimp only at h
          exact loopTurn_breakIsLast L labels r s2 t1 _ c s1 evs
            (ih [] body (bind k s) r s2 t1 hbody h1) h
            (fun c2 s3 t2 hn =>
              ih labels _ s2 c2 s3 t2 (LabelFree.forKeys ks bind body hbody) hn)
    | forIn keys bind body hbody =>
      simp only [evalStmt] at h
      exact ih labels _ s c s1 evs (LabelFree.forKeys (keys s) bind body hbody) h
    | switch disc clauses hcl =>
      simp only [evalStmt] at h
      cases hsel : selectClause (disc s) s clauses with
      | none =>
        rw [hsel] at h
        simp only [Option.some.injEq, Prod.mk.injEq] at h
        obtain ⟨rfl, rfl, rfl⟩ := h
        exact Or.inl (by simp)
      | some i =>
        rw [hsel] at h
        dsimp only at h
        cases h1 : evalStmt fuel [] (clauseChain (clauses.drop i)) s with
        | none => rw [h1] at h; cases h
        | some p =>
          obtain ⟨r, s2, t1⟩ := p
          rw [h1] at h
          simp only [Option.some.injEq, Prod.mk.injEq] at h
          obtain ⟨rfl, rfl, rfl⟩ := h
          exact switchExit_breakIsLast L labels r _
            (ih [] _ s r _ _
              (labelFree_clauseChain L _ (fun d hd => hcl d (List.mem_of_mem_drop hd))) h1)
    | labelled l body hl hbody =>
      simp only [evalStmt] at h
      cases h1 : evalStmt fuel (l :: labels) body s with
      | none => rw [h1] at h; cases h
      | some p =>
        obtain ⟨r, s2, t1⟩ := p
        rw [h1] at h
        dsimp only at h
        have i1 := ih (l :: labels) body s r s2 t1 hbody h1
        by_cases hb : r.kind = .Break ∧ r.target = some l
        · rw [if_pos hb] at h
          simp only [Option.some.injEq, Prod.mk.injEq] at h
          obtain ⟨rfl, rfl, rfl⟩ := h
          rcases i1 with i1 | ⟨before, _, _, h3 | ⟨_, h3⟩⟩
          · exact Or.inl i1
          · rw [hb.2] at h3
            exact absurd (Option.some.inj h3.2) hl
          · rw [hb.1] at h3; cases h3
        · rw [if_neg hb] at h
          simp only [Option.some.injEq, Prod.mk.injEq] at h
          obtain ⟨rfl, rfl, rfl⟩ := h
          rcases i1 with i1 | ⟨before, h1, h2, h3 | ⟨h3, h4⟩⟩
          · exact Or.inl i1
          · exact Or.inr ⟨before, h1, h2, Or.inl h3⟩
          · refine Or.inr ⟨before, h1, h2, Or.inr ⟨?_, h4⟩⟩
            rcases List.mem_cons.mp h3 with h5 | h5
            · exact absurd h5.symm hl
            · exact h5

/-- The body of the loop of the second program of `TestSwitch_break` has no statement labelled
`WHILE` inside. -/
theorem labelledBreakBody_labelFree : LabelFree (str "WHILE") labelledBreakBody := by
  refine LabelFree.whileLoop _ _ (LabelFree.seq _ _ (LabelFree.switch _ _ ?_)
    (LabelFree.seq _ _ (LabelFree.exec _) (LabelFree.exec _)))
  intro c hc
  rw [List.mem_singleton] at hc
  subst hc
  exact LabelFree.seq _ _ (LabelFree.jump _ _) (LabelFree.exec _)

/-- Claim C13: for every statement labelled `L` whose body has blocks, `if`, `switch`, loops and
statements with other labels in any nesting, when a `break L` inside it is evaluated, nothing of
the body is evaluated after it and the labelled statement completes normally: control leaves
it. Whereas a `switch` whose clauses end in a `break` without label completes normally, and the
statements that follow the `switch` are evaluated from the state the `switch` left. -/
theorem labelled_break {S : Type} (L : GoString) (fuel : Nat) (labels : List GoString)
    (body : Stmt S) (s : S) (c : Completion Value) (s1 : S) (evs : List Event)
    (fuel2 : Nat) (labels2 : List GoString) (disc : S → Value)
    (clauses : List (Option (S → Value) × Stmt S)) (rest : Stmt S) (i : Nat)
    (v : Option Value) (s2 s3 : S) (t1 : List Event)
    (hfree : LabelFree L body)
    (h : evalStmt fuel labels (.labelled L body) s = some (c, s1, evs))
    (hbreak : breakEvent L ∈ evs)
    (hsel : selectClause (disc s2) s2 clauses = some i)
    (hchain : evalStmt fuel2 [] (clauseChain (clauses.drop i)) s2
      = some ({ kind := .Break, value := v, target := none }, s3, t1)) :
    (∃ before, evs = before ++ [breakEvent L] ∧ breakEvent L ∉ before) ∧
    c.kind = .Normal ∧
    evalStmt (fuel2 + 1) labels2 (.switch disc clauses) s2 = some (normalCompletion, s3, t1) ∧
    evalStmt (fuel2 + 2) [] (.seq (.switch disc clauses) rest) s2 =
      (match evalStmt (fuel2 + 1) [] rest s3 with
       | none => none
       | some (c2, s4, t2) => some (c2, s4, t1 ++ t2)) := by
  have hsw : ∀ ls, evalStmt (fuel2 + 1) ls (.switch disc clauses) s2
      = some (normalCompletion, s3, t1) := by
    intro ls
    rw [evalStmt, hsel]
    dsimp only
    rw [hchain]
    rfl
  have hA : (∃ before, evs = before ++ [breakEvent L] ∧ breakEvent L ∉ before) ∧
      c.kind = .Normal := by
    cases fuel with
    | zero => simp [evalStmt] at h
    | succ fuel =>
      rw [evalStmt] at h
      cases h1 : evalStmt fuel (L :: labels) body s with
      | none => rw [h1] at h; cases h
      | some p =>
        obtain ⟨r, s5, t5⟩ := p
        rw [h1] at h
        dsimp only at h
        have i1 := evalStmt_breakIsLast L fuel (L :: labels) body s r s5 t5 hfree h1
        by_cases hb : r.kind = .Break ∧ r.target = some L
        · rw [if_pos hb] at h
          simp only [Option.some.injEq, Prod.mk.injEq] at h
          obtain ⟨rfl, rfl, rfl⟩ := h
          rcases i1 with i1 | ⟨before, h2, h3, _⟩
          · exact absurd hbreak i1
          · exact ⟨⟨before, h2, h3⟩, rfl⟩
        · rw [if_neg hb] at h
          simp only [Option.some.injEq, Prod.mk.injEq] at h
          obtain ⟨rfl, rfl, rfl⟩ := h
          rcases i1 with i1 | ⟨before, h2, h3, h4 | ⟨_, h4⟩⟩
          · exact absurd hbreak i1
          · exact absurd h4 hb
          · exact ⟨⟨before, h2, h3⟩, h4⟩
  refine ⟨hA.1, hA.2, hsw labels2, ?_⟩
  rw [evalStmt, hsw []]
  rfl

/-- Claim C13, the theorem at the programs of `TestSwitch_break`: in the loop labelled `WHILE`,
`break WHILE` inside the `switch` is the last thing evaluated and the labelled loop completes
normally; in the loop without label, the `switch` ends by its `break` and the statements after
it are evaluated. -/
theorem labelled_break_witness :
    (∃ before, [breakEvent (str "WHILE")] = before ++ [breakEvent (str "WHILE")] ∧
      breakEvent (str "WHILE") ∉ before) ∧
    normalCompletion.kind = .Normal ∧
    evalStmt 4 [] (.switch (fun _ => .String (str "def")) (breakingClauses none))
        (⟨0, 0, 0, true⟩ : Vars)
      = some (normalCompletion, ⟨0, 0, 0, true⟩, [.jumped .Break none]) ∧
    evalStmt 5 [] (.seq (.switch (fun _ => .String (str "def")) (breakingClauses none))
        afterSwitch) (⟨0, 0, 0, true⟩ : Vars) =
      (match evalStmt 4 [] afterSwitch (⟨0, 0, 0, true⟩ : Vars) with
       | none => none
       | some (c2, s4, t2) => some (c2, s4, [.jumped .Break none] ++ t2)) :=
  labelled_break (str "WHILE") 20 [] labelledBreakBody ⟨0, 0, 0, true⟩ normalCompletion
    ⟨0, 0, 0, true⟩ [breakEvent (str "WHILE")] 3 [] (fun _ => .String (str "def"))
    (breakingClauses none) afterSwitch 0 none ⟨0, 0, 0, true⟩ ⟨0, 0, 0, true⟩
    [.jumped .Break none] labelledBreakBody_labelFree (by decide) (by decide) (by decide)
    (by decide)

/-- The programs of `TestSwitch_break`: with `break` alone in the `switch` the loop body goes on
and `ghi` ends as `"Nothing happens."` (1); with `break WHILE` and `break FOR` the loop is left
and `ghi` stays `"Xyzzy"` (0), also in the `for`-`in` loop over no key. -/
theorem switch_break_test :
    (evalStmt 20 [] switchBreakProgram ⟨0, 0, 0, true⟩).map (fun r => (r.1.kind, r.2.1.ghi))
      = some (.Normal, 1) ∧
    (evalStmt 20 [] labelledBreakProgram ⟨0, 0, 0, true⟩).map (fun r => (r.1.kind, r.2.1.ghi))
      = some (.Normal, 0) ∧
    (evalStmt 20 [] forBreakProgram ⟨0, 0, 0, true⟩).map (fun r => (r.1.kind, r.2.1.ghi))
      = some (.Normal, 0) ∧
    (evalStmt 20 [] forInBreakProgram ⟨0, 0, 0, true⟩).map (fun r => (r.1.kind, r.2.1.ghi))
      = some (.Normal, 0) := by
  decide

/-- The programs of `TestLabelled`: `continue xyzzy` from the inner loop goes on with the outer
loop, which then ends, and `break def` from the inner `while` and `do`-`while` loops leaves the
outer loop with `abc = 12`. -/
theorem labelled_test :
    (evalStmt 40 [] continueOuterProgram ⟨0, 0, 0, false⟩).map (fun r => (r.1.kind, r.2.1.abc))
      = some (.Normal, 1) ∧
    (evalStmt 40 [] nestedWhileProgram ⟨0, 0, 0, false⟩).map (fun r => (r.1.kind, r.2.1.abc))
      = some (.Normal, 12) ∧
    (evalStmt 40 [] nestedDoWhileProgram ⟨0, 0, 0, false⟩).map (fun r => (r.1.kind, r.2.1.abc))
      = some (.Normal, 12) := by
  decide

/-! ## The claims on `switch` and on labels -/

/-- The clause selected by `selectClause` is the one the claim describes. -/
theorem selectClause_eq {S : Type} (d : Value) (s : S)
    (clauses : List (Option (S → Value) × Stmt S)) (start : Option Nat)
    (h : StartsAt d s clauses start) : selectClause d s clauses = start := by
  unfold selectClause
  rcases h with ⟨i, test, body, hs, hi, hm, hfirst⟩ | ⟨hno, hdef⟩
  · have := findIdx_first (fun c : Option (S → Value) × Stmt S =>
        match c.1 with
        | some test => strictEquals d (test s)
        | none => false) clauses i (some test, body) hi (by simpa using hm)
      (by
        intro j b hj hb
        obtain ⟨t, bd⟩ := b
        cases t with
        | none => rfl
        | some t => simpa using hfirst j t bd hj hb)
    rw [this, hs]
  · have hnone : clauses.findIdx? (fun c : Option (S → Value) × Stmt S =>
        match c.1 with
        | some test => strictEquals d (test s)
        | none => false) = none := by
      rw [List.findIdx?_eq_none_iff]
      intro c hc
      obtain ⟨j, hj⟩ := List.getElem?_of_mem hc
      obtain ⟨t, bd⟩ := c
      cases t with
      | none => simp
      | some t => simpa using hno j t bd hj
    rw [hnone]
    rcases hdef with ⟨i, body, hs, hi, hfirst⟩ | ⟨hs, hnodef⟩
    · have := findIdx_first (fun c : Option (S → Value) × Stmt S => c.1.isNone) clauses i
        (none, body) hi rfl
        (by
          intro j b hj hb
          have := hfirst j b hj hb
          cases hb1 : b.1 with
          | none => exact absurd hb1 this
          | some t => simp [hb1])
      simp [this, hs]
    · have : clauses.findIdx? (fun c : Option (S → Value) × Stmt S => c.1.isNone) = none := by
        rw [List.findIdx?_eq_none_iff]
        intro c hc
        obtain ⟨j, hj⟩ := List.getElem?_of_mem hc
        have := hnodef j c hj
        cases hb1 : c.1 with
        | none => exact absurd hb1 this
        | some t => simp
      simp [this, hs]

/-- Claim C14: for every `switch` statement, with `start` the first clause whose test equals the
discriminant by `===`, or the first `default` when no test does, or nothing when there is no
`default` either: the `switch` does nothing when there is no start, and otherwise it evaluates
the statements of the clauses from the start on in source order; a clause that completes
normally falls through to the next one, any other completion ends the clauses, and a `break`
without label ends the `switch` normally. -/
theorem switch_statement {S : Type} (fuel : Nat) (labels : List GoString) (disc : S → Value)
    (clauses : List (Option (S → Value) × Stmt S)) (s : S) (start : Option Nat)
    (c : Option (S → Value) × Stmt S) (rest : List (Option (S → Value) × Stmt S))
    (v : Option Value)
    (hstart : StartsAt (disc s) s clauses start) :
    evalStmt (fuel + 1) labels (.switch disc clauses) s =
      (match start with
       | none => some (normalCompletion, s, [])
       | some i =>
         match evalStmt fuel [] (clauseChain (clauses.drop i)) s with
         | none => none
         | some (r, s1, t1) => some (switchExit labels r, s1, t1)) ∧
    evalStmt (fuel + 1) [] (clauseChain (c :: rest)) s =
      (match evalStmt fuel [] c.2 s with
       | none => none
       | some (r, s1, t1) =>
         if r.kind = .Normal then
           match evalStmt fuel [] (clauseChain rest) s1 with
           | none => none
           | some (c2, s2, t2) => some (c2, s2, t1 ++ t2)
         else some (r, s1, t1)) ∧
    switchExit labels { kind := .Break, value := v, target := none } = normalCompletion := by
  refine ⟨?_, rfl, rfl⟩
  rw [evalStmt, selectClause_eq _ _ _ _ hstart]
  cases start <;> rfl

/-- Claim C14, the theorem at `switch (1) { case 1: abc += 2; case 2: abc += 4; case 3: abc += 8
}`: it starts at the first clause and runs all three. -/
theorem switch_statement_witness :
    evalStmt 6 [] (noDefaultSwitch 1) ⟨0, 0, 0, false⟩ =
      (match evalStmt 5 [] (clauseChain (caseClauses.drop 0)) (⟨0, 0, 0, false⟩ : Vars) with
       | none => none
       | some (r, s1, t1) => some (switchExit [] r, s1, t1)) ∧
    evalStmt 6 [] (clauseChain caseClauses) (⟨0, 0, 0, false⟩ : Vars) =
      (match evalStmt 5 [] (.exec (fun s => { s with abc := s.abc + 2 }))
          (⟨0, 0, 0, false⟩ : Vars) with
       | none => none
       | some (r, s1, t1) =>
         if r.kind = .Normal then
           match evalStmt 5 [] (clauseChain (caseClauses.drop 1)) s1 with
           | none => none
           | some (c2, s2, t2) => some (c2, s2, t1 ++ t2)
         else some (r, s1, t1)) ∧
    switchExit [] { kind := .Break, value := none, target := none } = normalCompletion :=
  switch_statement 5 [] (fun _ => num 1) caseClauses ⟨0, 0, 0, false⟩ (some 0)
    (some (fun _ => num 1), .exec (fun s => { s with abc := s.abc + 2 })) (caseClauses.drop 1)
    none
    (show StartsAt _ _ _ _ from
      Or.inl ⟨0, fun _ => num 1, .exec (fun s => { s with abc := s.abc + 2 }), rfl, rfl,
        by decide, fun j _ _ hj _ => absurd hj (Nat.not_lt_zero j)⟩)

/-- The programs of `TestSwitch`: the `switch` that starts with `default` gives 15 on 0 and 8 on
3, and the `switch` without `default` gives 0 on 60. -/
theorem switch_test :
    (evalStmt 10 [] (defaultFirstSwitch 0) ⟨0, 0, 0, false⟩).map (fun r => (r.1.kind, r.2.1.abc))
      = some (.Normal, 15) ∧
    (evalStmt 10 [] (defaultFirstSwitch 3) ⟨0, 0, 0, false⟩).map (fun r => (r.1.kind, r.2.1.abc))
      = some (.Normal, 8) ∧
    (evalStmt 10 [] (noDefaultSwitch 60) ⟨0, 0, 0, false⟩).map (fun r => (r.1.kind, r.2.1.abc))
      = some (.Normal, 0) := by
  decide

/-! ## The claim on host calls -/

theorem hostResult_error_none (result : Except ErrorValue Value) :
    (hostResult result).error = none ↔ ∃ v, result = .ok v := by
  cases result with
  | ok v => simp [hostResult]
  | error e => simp [hostResult]

theorem hostResult_undefined (result : Except ErrorValue Value)
    (h : (hostResult result).error ≠ none) : (hostResult result).value = .Undefined := by
  cases result with
  | ok v => simp [hostResult] at h
  | error e => rfl

/-- Claim C16 as stated fails: a host call has an error although no throw escaped: `Run` of a
source that does not parse, here `abc.`, gives the parse error and `undefined`. -/
theorem parse_error_without_throw :
    Run parsePath resolvePath (str "abc.") callVM
      = ({ value := .Undefined,
           error := some (.parse [str "SyntaxError: (anonymous): Line 1:1 Unexpected end of input"]) },
         callVM) ∧
    ∀ e, (Run parsePath resolvePath (str "abc.") callVM).1.error ≠ some (.thrown e) := by
  have h : Run parsePath resolvePath (str "abc.") callVM
      = ({ value := .Undefined,
           error := some (.parse [str "SyntaxError: (anonymous): Line 1:1 Unexpected end of input"]) },
         callVM) := by decide
  refine ⟨h, fun e he => ?_⟩
  rw [h] at he
  cases he

/-- Claim C16, with the parse errors told apart: a `Run` whose execution ends in a throw, and a
`Call` whose target does not resolve, give the host the error of the throw and the value
`undefined`; for every source, an error comes with the value `undefined`, and the error is nil
exactly when the source parses and the execution throws nothing, and so for `Call` when the
target parses and neither its evaluation nor the call throws. -/
theorem host_call_error {Src Prog VM : Type} (parse : Src → Except (List GoString) Prog)
    (execute : Prog → VM → Except ErrorValue Value × VM)
    (invoke : Value → Option Value → List Value → VM → Except ErrorValue Value × VM)
    (source target : Src) (this : Option Value) (args : List Value) (vm vm1 vm2 : VM)
    (p pt : Prog) (e e2 : ErrorValue)
    (hparse : parse source = .ok p) (hthrow : execute p vm = (.error e, vm1))
    (htarget : parse target = .ok pt) (hunresolved : execute pt vm = (.error e2, vm2)) :
    Run parse execute source vm = ({ value := .Undefined, error := some (.thrown e) }, vm1) ∧
    Call parse execute invoke target this args vm
      = ({ value := .Undefined, error := some (.thrown e2) }, vm2) ∧
    (∀ src, (Run parse execute src vm).1.error ≠ none →
      (Run parse execute src vm).1.value = .Undefined) ∧
    (∀ src, (Run parse execute src vm).1.error = none ↔
      ∃ q v, parse src = .ok q ∧ (execute q vm).1 = .ok v) ∧
    (∀ tgt, (Call parse execute invoke tgt this args vm).1.error ≠ none →
      (Call parse execute invoke tgt this args vm).1.value = .Undefined) ∧
    (∀ tgt, (Call parse execute invoke tgt this args vm).1.error = none ↔
      ∃ q f v, parse tgt = .ok q ∧ (execute q vm).1 = .ok f ∧
        (invoke f this args (execute q vm).2).1 = .ok v) := by
  refine ⟨?_, ?_, ?_, ?_, ?_, ?_⟩
  · simp [Run, hparse, hthrow, hostResult]
  · simp [Call, htarget, hunresolved, hostResult]
  · intro src
    cases hp : parse src with
    | error messages => intro _; simp [Run, hp]
    | ok q =>
      simp only [Run, hp]
      exact hostResult_undefined _
  · intro src
    cases hp : parse src with
    | error messages => simp [Run, hp]
    | ok q => simp [Run, hp, hostResult_error_none]
  · intro tgt
    cases hp : parse tgt with
    | error messages => intro _; simp [Call, hp]
    | ok q =>
      rcases hq : execute q vm with ⟨result, vm3⟩
      cases result with
      | error e3 => intro _; simp [Call, hp, hq, hostResult]
      | ok f =>
        simp only [Call, hp, hq]
        exact hostResult_undefined _
  · intro tgt
    cases hp : parse tgt with
    | error messages => simp [Call, hp]
    | ok q =>
      rcases hq : execute q vm with ⟨result, vm3⟩
      cases result with
      | error e3 => simp [Call, hp, hq, hostResult]
      | ok f => simp [Call, hp, hq, hostResult_error_none]

/-- The claim C16 in `TestOttoCall` and `TestShouldError`: `Run` of `xyzzy` and `Call` of
`jkl.def` give a `ReferenceError` and `undefined`. -/
theorem host_call_error_witness :
    Run parsePath resolvePath (str "xyzzy") callVM
      = ({ value := .Undefined,
           error := some (.thrown { kind := str "ReferenceError",
                                    message := str "'xyzzy' is not defined" }) }, callVM) ∧
    Call parsePath resolvePath invokeFirstArgument (str "jkl.def") none
        [numberValue 1, numberValue 2, numberValue 3] callVM
      = ({ value := .Undefined,
           error := some (.thrown { kind := str "ReferenceError",
                                    message := str "'jkl' is not defined" }) }, callVM) :=
  have h := host_call_error parsePath resolvePath invokeFirstArgument (str "xyzzy")
    (str "jkl.def") none [numberValue 1, numberValue 2, numberValue 3] callVM callVM callVM
    [str "xyzzy"] [str "jkl", str "def"]
    { kind := str "ReferenceError", message := str "'xyzzy' is not defined" }
    { kind := str "ReferenceError", message := str "'jkl' is not defined" }
    (by decide) (by decide) (by decide) (by decide)
  ⟨h.1, h.2.1⟩

/-- The lines of `TestOttoCall`: `abc.def` is called and gives no error; `abc.ghi` is no
function, and the call throws. -/
theorem hostCall_test :
    Call parsePath resolvePath invokeFirstArgument (str "abc.def") none [numberValue 2] callVM
      = ({ value := numberValue 2, error := none }, callVM) ∧
    (Call parsePath resolvePath invokeFirstArgument (str "abc.ghi") none [] callVM).1
      = { value := .Undefined,
          error := some (.thrown { kind := str "TypeError", message := str "is not a function" }) } ∧
    (Run parsePath resolvePath (str "abc.ghi") callVM).1
      = { value := numberValue 1, error := none } := by decide

/-! ## The claim on the order of evaluation -/

/-- Claim C17: for every binary expression `l op r` whose operands evaluate to values, the result
is `op` applied to the value `a` that `l` had in the state before `r` was evaluated and to the
value `b` of `r` evaluated in the state `l` left, and the state afterwards is the one `r` left;
and a compound assignment applies `op` to the value its target had before the right operand was
evaluated, then writes the result. -/
theorem left_to_right {S V : Type} (op op2 : V → V → Except V V) (l r r2 : Expression S V)
    (get : S → V) (set : V → S → S) (s s1 s2 s3 : S) (a b b2 w : V)
    (hl : l s = (.ok a, s1)) (hr : r s1 = (.ok b, s2))
    (hr2 : r2 s = (.ok b2, s3)) (hop : op2 (get s) b2 = .ok w) :
    binaryExpression op l r s = (op a b, s2) ∧
    compoundAssignment get set op2 r2 s = (.ok w, set w s3) := by
  constructor
  · simp only [binaryExpression, hl, hr]
  · simp only [compoundAssignment, hr2, hop]

/-- Claim C17, the theorem at `(abc = 1) & abc` and `abc += (abc = 1)` with `abc = 2`: the first
is `1 & 1`, and the second is `2 + 1`, not `1 + 1`. -/
theorem left_to_right_witness :
    binaryExpression bitAnd assignOne readAbc 2 = (bitAnd 1 1, 1) ∧
    compoundAssignment (fun s => s) (fun v _ => v) plus assignOne 2 = (.ok 3, 3) :=
  left_to_right bitAnd plus assignOne readAbc assignOne (fun s => s) (fun v _ => v) 2 1 1 1 1 1 1 3
    rfl rfl rfl rfl

/-- The programs of `Test_assignmentEvaluationOrder`, with `abc = 0`: `(abc = 1) & abc` is 1 and
`abc & (abc = 1)` is 0. -/
theorem assignmentEvaluationOrder_test :
    binaryExpression bitAnd assignOne readAbc 0 = (.ok 1, 1) ∧
    binaryExpression bitAnd readAbc assignOne 0 = (.ok 0, 1) := by
  decide

/-! ## The claim on the keys of an object -/

theorem lookup_eq_none_not_mem {α : Type} (name : GoString) :
    ∀ (l : List (GoString × α)) (q : α), l.lookup name = none → (name, q) ∉ l
  | [], _, _ => by simp
  | (k, v) :: l, q, h => by
    rw [List.lookup_cons] at h
    by_cases hk : name = k
    · subst hk
      simp at h
    · have hne : (name == k) = false := by simpa using hk
      rw [hne] at h
      intro hmem
      rcases List.mem_cons.1 hmem with heq | hmem
      · exact hk (congrArg Prod.fst heq)
      · exact lookup_eq_none_not_mem name l q h hmem

theorem lookup_eq_none_any {α : Type} (name : GoString) :
    ∀ (l : List (GoString × α)), l.lookup name = none → l.any (fun q => q.1 == name) = false
  | [], _ => rfl
  | (k, v) :: l, h => by
    rw [List.lookup_cons] at h
    by_cases hk : name = k
    · subst hk
      simp at h
    · have hne : (name == k) = false := by simpa using hk
      rw [hne] at h
      have hkn : (k == name) = false := by simpa using fun e : k = name => hk e.symm
      simp only [List.any_cons, hkn, Bool.false_or]
      exact lookup_eq_none_any name l h

theorem mem_Keys (o : ScriptObject) (k : GoString) :
    k ∈ Keys o ↔ ∃ q, (k, q) ∈ o.properties ∧ q.enumerable = true := by
  unfold Keys
  constructor
  · intro h
    rcases List.mem_map.1 h with ⟨⟨k2, q⟩, hq, rfl⟩
    rcases List.mem_filter.1 hq with ⟨hmem, hen⟩
    exact ⟨q, hmem, hen⟩
  · rintro ⟨q, hmem, hen⟩
    exact List.mem_map.2 ⟨(k, q), List.mem_filter.2 ⟨hmem, hen⟩, rfl⟩

theorem Keys_sublist (o : ScriptObject) :
    (Keys o).Sublist (o.properties.map (fun q => q.1)) :=
  List.Sublist.map _ (List.filter_sublist _)

theorem Keys_define_new (o : ScriptObject) (name : GoString) (p : Property)
    (hnew : o.own name = none) (hen : p.enumerable = true) :
    Keys (o.define name p) = Keys o ++ [name] := by
  have hany := lookup_eq_none_any name o.properties hnew
  unfold ScriptObject.define
  rw [hany]
  simp [Keys, List.filter_append, hen]

theorem KeysByParent_chain (H : Heap) :
    ∀ (fuel : Nat) (objs : List ScriptObject) (r : Ref), IsChain H r objs →
      objs.length ≤ fuel → KeysByParent H fuel r = objs.map Keys
  | _, [], _, h, _ => h.elim
  | 0, _ :: _, _, _, hfuel => by simp at hfuel
  | fuel + 1, [o], r, h, _ => by
    obtain ⟨ho, hp⟩ := h
    simp [KeysByParent, ho, hp]
  | fuel + 1, o :: o2 :: rest, r, h, hfuel => by
    obtain ⟨ho, parent, hp, hrest⟩ := h
    have ih := KeysByParent_chain H fuel (o2 :: rest) parent hrest
      (by simpa using hfuel)
    simp only [KeysByParent, ho, hp, ih, List.map_cons]

/-- Claim C18: `Keys()` of a script object has exactly the names of the own enumerable
properties (the first part), in insertion order: it is a sublist of the names as they were
inserted, and a new enumerable name goes last; a name the object has not as an own property is
not a key, whatever its prototype has; and `KeysByParent()`, with fuel for the length of the
prototype chain, is the list of the keys of each object of the chain, the object itself
first. -/
theorem object_keys (H : Heap) (fuel : Nat) (r : Ref) (objs : List ScriptObject)
    (o : ScriptObject) (name : GoString) (p : Property)
    (hchain : IsChain H r objs) (hfuel : objs.length ≤ fuel)
    (hnew : o.own name = none) (hen : p.enumerable = true) :
    (∀ k, k ∈ Keys o ↔ ∃ q, (k, q) ∈ o.properties ∧ q.enumerable = true) ∧
    (Keys o).Sublist (o.properties.map (fun q => q.1)) ∧
    Keys (o.define name p) = Keys o ++ [name] ∧
    name ∉ Keys o ∧
    KeysByParent H fuel r = objs.map Keys ∧
    (KeysByParent H fuel r).head? = (H.object? r).map Keys := by
  refine ⟨mem_Keys o, Keys_sublist o, Keys_define_new o name p hnew hen, ?_, ?_, ?_⟩
  · intro h
    rcases (mem_Keys o name).1 h with ⟨q, hq, _⟩
    exact lookup_eq_none_not_mem name o.properties q hnew hq
  · exact KeysByParent_chain H fuel objs r hchain hfuel
  · rw [KeysByParent_chain H fuel objs r hchain hfuel]
    cases objs with
    | nil => exact hchain.elim
    | cons o1 rest =>
      cases rest with
      | nil => simp [hchain.1]
      | cons o2 rest => simp [hchain.1]

/-- The claim C18 on the objects of `TestObjectKeys`: `y`, with the prototype `x`, has the keys
`["b"]`, the inherited `a` is not one of them, and `KeysByParent()` is `[["b"], ["a"]]`. -/
theorem object_keys_witness :
    Keys ((emptyObject (some ⟨0, 0⟩)).define (str "b") (plainProperty (numberValue 2)))
      = Keys (emptyObject (some ⟨0, 0⟩)) ++ [str "b"] ∧
    str "a" ∉ Keys ((emptyObject (some ⟨0, 0⟩)).define (str "b") (plainProperty (numberValue 2))) ∧
    KeysByParent keysHeap 2 ⟨0, 1⟩ = [[str "b"], [str "a"]] := by
  have h1 := object_keys keysHeap 2 ⟨0, 1⟩
    [(emptyObject (some ⟨0, 0⟩)).define (str "b") (plainProperty (numberValue 2)),
     (emptyObject none).define (str "a") (plainProperty (numberValue 1))]
    (emptyObject (some ⟨0, 0⟩)) (str "b") (plainProperty (numberValue 2))
    ⟨by decide, ⟨0, 0⟩, by decide, by decide, by decide⟩ (by decide) (by decide) (by decide)
  have h2 := object_keys keysHeap 2 ⟨0, 1⟩
    [(emptyObject (some ⟨0, 0⟩)).define (str "b") (plainProperty (numberValue 2)),
     (emptyObject none).define (str "a") (plainProperty (numberValue 1))]
    ((emptyObject (some ⟨0, 0⟩)).define (str "b") (plainProperty (numberValue 2))) (str "a")
    (plainProperty (numberValue 1))
    ⟨by decide, ⟨0, 0⟩, by decide, by decide, by decide⟩ (by decide) (by decide) (by decide)
  refine ⟨h1.2.2.1, h2.2.2.2.1, ?_⟩
  rw [h1.2.2.2.2.1]
  decide

/-- The keys of `TestAPI` and `TestObjectKeys`, and those of an object with a property that is
not enumerable. -/
theorem keys_test :
    Keys abcObject = [str "abc", str "def", str "3.14159"] ∧
    (keysHeap.object? ⟨0, 0⟩).map Keys = some [str "a"] ∧
    KeysByParent keysHeap 2 ⟨0, 0⟩ = [[str "a"]] ∧
    (keysHeap.object? ⟨0, 1⟩).map Keys = some [str "b"] ∧
    KeysByParent keysHeap 2 ⟨0, 1⟩ = [[str "b"], [str "a"]] ∧
    Keys hiddenLengthObject = [str "b", str "c"] := by decide

/-! ## The claim on equality -/

/-- Equality of numbers is reflexive except on `NaN`. -/
theorem Number.equals_self (x : Number) (h : x ≠ .NaN) : x.equals x = true := by
  cases x with
  | NaN => exact absurd rfl h
  | Infinity b => simp [Number.equals, Number.place]
  | Zero b => simp [Number.equals, Number.place]
  | Finite q => simp [Number.equals, Number.place]

/-- Claim C19: `===` is reflexive on every value other than `NaN`; `NaN === NaN` is false and
`+0 === -0` is true; for every number `n` and string `s`, `n === s` is false, whereas `n == s`
is true exactly when `ToNumber(s)` equals `n`. -/
theorem strict_equality (ToNumber : GoString → Number) (ToPrimitive : Ref → Except Value Value)
    (v : Value) (n : Number) (s : GoString) (hv : v ≠ .Number .NaN) :
    strictEquals v v = true ∧
    strictEquals (.Number .NaN) (.Number .NaN) = false ∧
    strictEquals (.Number (.Zero false)) (.Number (.Zero true)) = true ∧
    strictEquals (.Number n) (.String s) = false ∧
    looseEquals ToNumber ToPrimitive (.Number n) (.String s) = .ok (n.equals (ToNumber s)) := by
  refine ⟨?_, by decide, by decide, rfl, rfl⟩
  cases v with
  | Undefined => rfl
  | Null => rfl
  | Boolean b => simp [strictEquals]
  | Number x => exact Number.equals_self x (fun h => hv (by rw [h]))
  | String a => simp [strictEquals]
  | Object a => simp [strictEquals]

/-- Claim C19, the theorem at the string `"1"` and the number 1: `"1" === "1"` is true,
`1 === "1"` is false and `1 == "1"` compares 1 with `ToNumber("1")`. -/
theorem strict_equality_witness :
    strictEquals (.String (str "1")) (.String (str "1")) = true ∧
    strictEquals (.Number .NaN) (.Number .NaN) = false ∧
    strictEquals (.Number (.Zero false)) (.Number (.Zero true)) = true ∧
    strictEquals (.Number (.Finite 1)) (.String (str "1")) = false ∧
    looseEquals digitsToNumber noPrimitive (.Number (.Finite 1)) (.String (str "1"))
      = .ok ((Number.Finite 1).equals (digitsToNumber (str "1"))) :=
  strict_equality digitsToNumber noPrimitive (.String (str "1")) (.Finite 1) (str "1")
    (fun h => nomatch h)

/-- The comparisons of `TestBinaryOperation`: `0 == 1` and `0 === 1` are false, `1 == "1"` is
true, `1 === "1"` is false and `"1" === "1"` is true. -/
theorem binaryOperation_test :
    looseEquals digitsToNumber noPrimitive (.Number (.Zero false)) (.Number (.Finite 1))
      = .ok false ∧
    looseEquals digitsToNumber noPrimitive (.Number (.Finite 1)) (.String (str "1"))
      = .ok true ∧
    strictEquals (.Number (.Zero false)) (.Number (.Finite 1)) = false ∧
    strictEquals (.Number (.Finite 1)) (.String (str "1")) = false ∧
    strictEquals (.String (str "1")) (.String (str "1")) = true := by
  decide

/-! ## The claims on identifiers and on `eval` -/

theorem GetIdentifierReference_none (H : Heap) (chain : List EnvironmentRecord) (x : GoString)
    (hnone : ∀ record ∈ chain, HasBinding H record x = false) :
    GetIdentifierReference H chain x = none := by
  unfold GetIdentifierReference
  rw [List.findIdx?_eq_none_iff]
  exact hnone

theorem GetIdentifierReference_first (H : Heap) (record : EnvironmentRecord)
    (outer : List EnvironmentRecord) (x : GoString) (h : HasBinding H record x = true) :
    GetIdentifierReference H (record :: outer) x = some 0 := by
  unfold GetIdentifierReference
  rw [List.findIdx?_cons, h]
  rfl

/-- Claim C20: for an identifier `x` that no record of the scope chain binds, `typeof x` is the
string `"undefined"` and throws nothing, evaluating `x` throws an error of the kind
`ReferenceError`, and `delete x` is `true` and leaves the heap as it was, so that `typeof x` is
`"undefined"` afterwards too. -/
theorem typeof_unresolved (H : Heap) (chain : List EnvironmentRecord) (x : GoString)
    (hnone : ∀ record ∈ chain, HasBinding H record x = false) :
    typeofIdentifier H chain x = .ok (str "undefined") ∧
    (∃ message, evaluateIdentifier H chain x
      = .error { kind := str "ReferenceError", message := message }) ∧
    (deleteIdentifier H chain x).1 = true ∧
    (deleteIdentifier H chain x).2 = H ∧
    typeofIdentifier (deleteIdentifier H chain x).2 chain x = .ok (str "undefined") := by
  have h := GetIdentifierReference_none H chain x hnone
  have hd : deleteIdentifier H chain x = (true, H) := by
    simp only [deleteIdentifier, h]
  refine ⟨?_, ⟨[39] ++ x ++ str "' is not defined", ?_⟩, ?_, ?_, ?_⟩
  · simp only [typeofIdentifier, h]
  · simp only [evaluateIdentifier, h]
  · rw [hd]
  · rw [hd]
  · rw [hd]
    simp only [typeofIdentifier, h]

/-- The claim C20 in the function of `Test_evalDirectIndirect`, for the name `xyzzy` of
`TestShouldError`, which no record of the scope chain binds; the error told to the host there is
`ReferenceError: 'xyzzy' is not defined`. -/
theorem typeof_unresolved_witness :
    GetIdentifierReference evalHeap evalContext.chain (str "xyzzy") = none ∧
    evaluateIdentifier evalHeap evalContext.chain (str "xyzzy")
      = .error { kind := str "ReferenceError", message := str "'xyzzy' is not defined" } ∧
    (typeofIdentifier evalHeap evalContext.chain (str "xyzzy") = .ok (str "undefined") ∧
      (∃ message, evaluateIdentifier evalHeap evalContext.chain (str "xyzzy")
        = .error { kind := str "ReferenceError", message := message }) ∧
      (deleteIdentifier evalHeap evalContext.chain (str "xyzzy")).1 = true ∧
      (deleteIdentifier evalHeap evalContext.chain (str "xyzzy")).2 = evalHeap ∧
      typeofIdentifier (deleteIdentifier evalHeap evalContext.chain (str "xyzzy")).2
        evalContext.chain (str "xyzzy") = .ok (str "undefined")) :=
  ⟨by decide, by decide,
    typeof_unresolved evalHeap evalContext.chain (str "xyzzy") (by decide)⟩

/-- The lines of `Test_typeof`, and `delete` on names that are bound: a declarative binding gives
`false`, a configurable property of the global object `true` and the property is gone. -/
theorem typeof_test :
    typeofIdentifier evalHeap [.object ⟨0, 0⟩] (str "abc") = .ok (str "string") ∧
    typeofIdentifier evalHeap [.object ⟨0, 0⟩] (str "eval") = .ok (str "function") ∧
    typeofValue evalHeap .Null = str "object" ∧
    (deleteIdentifier evalHeap evalContext.chain (str "_eval")).1 = false ∧
    (deleteIdentifier evalHeap [.object ⟨0, 0⟩] (str "abc")).1 = true ∧
    typeofIdentifier (deleteIdentifier evalHeap [.object ⟨0, 0⟩] (str "abc")).2
      [.object ⟨0, 0⟩] (str "abc") = .ok (str "undefined") := by decide

theorem lookup_map_value (x : GoString) (v : Value) :
    ∀ (bs : List (GoString × Binding)) (b : Binding), bs.lookup x = some b → b.mutable = true →
      (bs.map (fun q => if q.1 == x && q.2.mutable then (q.1, { q.2 with value := v }) else q)).lookup x
        = some { b with value := v }
  | [], _, h, _ => by simp at h
  | (k, b2) :: bs, b, h, hm => by
    rw [List.lookup_cons] at h
    by_cases hk : x = k
    · subst hk
      simp only [beq_self_eq_true, Option.some.injEq] at h
      subst h
      simp [List.lookup_cons, hm]
    · have hne : (x == k) = false := by simpa using hk
      have hkn : (k == x) = false := by simpa using fun e : k = x => hk e.symm
      rw [hne] at h
      have hkx : ¬ k = x := fun e => hk e.symm
      have ih := lookup_map_value x v bs b h hm
      simp only [List.map_cons, hkn, Bool.false_and, Bool.false_eq_true, if_false,
        List.lookup_cons, hne]
      exact ih

/-- Claim C15: in a function whose record binds `x` while the global object has an `x` too, a
call whose callee is the identifier `eval`, resolving to the built-in, runs its source in the
context of the caller: `x` reads the local binding, `x = v` writes it, leaving the heap and with
it the global `x` as they were, and `this` is the `this` of the caller; a call of the built-in
through any other callee runs the source in the global context: `x` reads the property of the
global object and `this` is the global object. -/
theorem eval_direct_indirect (H : Heap) (ctx : ExecutionContext) (evalFunction : Ref)
    (bs : List (GoString × Binding)) (outer : List EnvironmentRecord) (x : GoString)
    (b : Binding) (v : Value) (callee : Callee)
    (hchain : ctx.chain = .declarative bs :: outer)
    (hlocal : bs.lookup x = some b) (hmutable : b.mutable = true)
    (hglobal : HasProperty H ctx.globalObject x = true)
    (heval : evaluateIdentifier H ctx.chain (str "eval") = .ok (.Object evalFunction))
    (halias : callee ≠ .identifier (str "eval")) :
    callEval H ctx evalFunction (.identifier (str "eval")) (readProgram x) = (.ok b.value, H, ctx) ∧
    (∃ bs2, bs2.lookup x = some { b with value := v } ∧
      callEval H ctx evalFunction (.identifier (str "eval")) (writeProgram x v)
        = (.ok v, H, { ctx with chain := .declarative bs2 :: outer })) ∧
    callEval H ctx evalFunction (.identifier (str "eval")) thisProgram = (.ok ctx.this, H, ctx) ∧
    callEval H ctx evalFunction callee (readProgram x) = (.ok (Get H ctx.globalObject x), H, ctx) ∧
    callEval H ctx evalFunction callee thisProgram = (.ok (.Object ctx.globalObject), H, ctx) := by
  have hdirect : isDirectEval H ctx evalFunction (.identifier (str "eval")) = true := by
    simp [isDirectEval, heval]
  have hindirect : isDirectEval H ctx evalFunction callee = false := by
    cases callee with
    | other => rfl
    | identifier name =>
      have hne : name ≠ str "eval" := fun e => halias (by rw [e])
      simp [isDirectEval, hne]
  have hbind : HasBinding H (.declarative bs) x = true := by simp [HasBinding, hlocal]
  have href := GetIdentifierReference_first H (.declarative bs) outer x hbind
  have hgref : GetIdentifierReference H [.object ctx.globalObject] x = some 0 :=
    GetIdentifierReference_first H (.object ctx.globalObject) [] x hglobal
  refine ⟨?_, ⟨_, lookup_map_value x v bs b hlocal hmutable, ?_⟩, ?_, ?_, ?_⟩
  · simp [callEval, hdirect, readProgram, evaluateIdentifier, hchain, href, GetBindingValue, hlocal]
  · simp [callEval, hdirect, writeProgram, assignIdentifier, hchain, href]
  · simp [callEval, hdirect, thisProgram]
  · simp [callEval, hindirect, readProgram, globalContext, evaluateIdentifier, hgref,
      GetBindingValue]
  · simp [callEval, hindirect, thisProgram, globalContext]

/-- The claim C15 in `Test_evalDirectIndirect`: `eval("abc")` is `"function"`, `_eval("abc")` is
`"global"`. -/
theorem eval_direct_indirect_witness :
    callEval evalHeap evalContext ⟨0, 1⟩ (.identifier (str "eval")) (readProgram (str "abc"))
      = (.ok (.String (str "function")), evalHeap, evalContext) ∧
    callEval evalHeap evalContext ⟨0, 1⟩ (.identifier (str "_eval")) (readProgram (str "abc"))
      = (.ok (.String (str "global")), evalHeap, evalContext) := by
  have h := eval_direct_indirect evalHeap evalContext ⟨0, 1⟩ evalBindings [.object ⟨0, 0⟩]
    (str "abc") { value := .String (str "function"), mutable := true, initialised := true }
    (numberValue 12) (.identifier (str "_eval")) rfl (by decide) rfl (by decide) (by decide)
    (by decide)
  exact ⟨h.1, h.2.2.2.1.trans (by decide)⟩

/-- The lines of `Test_eval` and `Test_evalDirectIndirect`: the direct `eval` writes the local
`abc` and the global one keeps its value; in a constructor `eval("this")` is the new object; a
member access as callee is indirect. -/
theorem eval_test :
    (match callEval evalHeap evalContext ⟨0, 1⟩ (.identifier (str "eval"))
        (writeProgram (str "abc") (numberValue 12)) with
      | (_, H2, ctx2) => (evaluateIdentifier H2 ctx2.chain (str "abc"),
          evaluateIdentifier H2 [.object ⟨0, 0⟩] (str "abc")))
      = (.ok (numberValue 12), .ok (.String (str "global"))) ∧
    (callEval evalHeap constructorContext ⟨0, 1⟩ (.identifier (str "eval")) thisProgram).1
      = .ok (.Object ⟨0, 2⟩) ∧
    (callEval evalHeap constructorContext ⟨0, 1⟩ .other thisProgram).1 = .ok (.Object ⟨0, 0⟩) ∧
    (callEval evalHeap evalContext ⟨0, 1⟩ .other (readProgram (str "abc"))).1
      = .ok (.String (str "global")) := by decide

/-! ## The claims on the enumeration of host records -/

theorem enumerateNames_eq_callInOrder {σ : Type} (each : GoString → σ → Bool × σ) :
    ∀ (names : List GoString) (s : σ),
      enumerateNames each names s = callInOrder each (names.filter validGoStructName) s
  | [], _ => rfl
  | name :: rest, s => by
    unfold enumerateNames
    by_cases hv : validGoStructName name = true
    · rw [if_pos hv, List.filter_cons_of_pos hv, callInOrder]
      rcases he : each name s with ⟨b, s1⟩
      cases b
      · rfl
      · exact enumerateNames_eq_callInOrder each rest s1
    · rw [if_neg hv, List.filter_cons_of_neg hv]
      exact enumerateNames_eq_callInOrder each rest s

theorem callInOrder_append {σ : Type} (each : GoString → σ → Bool × σ) :
    ∀ (xs ys : List GoString) (s : σ),
      callInOrder each (xs ++ ys) s =
        match callInOrder each xs s with
        | (false, s1) => (false, s1)
        | (true, s1) => callInOrder each ys s1
  | [], ys, s => rfl
  | x :: xs, ys, s => by
    simp only [List.cons_append, callInOrder]
    rcases he : each x s with ⟨b, s1⟩
    cases b
    · rfl
    · exact callInOrder_append each xs ys s1

theorem callInOrder_recordNames (p : GoString → Bool) :
    ∀ (names seen : List GoString),
      callInOrder (recordNames p) names seen
        = (names.all p, seen ++ names.takeWhile p ++ (names.dropWhile p).take 1)
  | [], seen => by simp [callInOrder]
  | name :: rest, seen => by
    simp only [callInOrder, recordNames]
    cases hp : p name
    · simp [List.takeWhile_cons, List.dropWhile_cons, hp]
    · have ih := callInOrder_recordNames p rest (seen ++ [name])
      simp only [recordNames] at ih
      simp [ih, List.takeWhile_cons, List.dropWhile_cons, hp]

/-- Claim C22: `goStructEnumerate` calls `each` on the names of `enumerationOrder`, the field
names that satisfy `validGoStructName` in the order of declaration and then the method names
that satisfy it in the order of their indices, up to the first call that gives `false`; after
such a call it returns, and when every call gave `true` it goes on to `objectEnumerate` with the
same `all` and `each`. With a callback that writes down its calls and answers with a test `p`,
the calls are the names before the first one that fails `p` and that one, and `objectEnumerate`
is reached exactly when all names pass `p`. -/
theorem enumerate_order {σ : Type} (o : goStructObject) (all : Bool)
    (each : GoString → σ → Bool × σ) (s : σ) (p : GoString → Bool) :
    goStructEnumerate o all each s =
      (match callInOrder each (enumerationOrder o) s with
       | (false, s1) => .returned s1
       | (true, s1) => .objectEnumerate all s1) ∧
    goStructEnumerate o all (recordNames p) [] =
      (if (enumerationOrder o).all p then
        .objectEnumerate all (enumerationOrder o)
       else .returned ((enumerationOrder o).takeWhile p ++
        ((enumerationOrder o).dropWhile p).take 1)) := by
  have h1 : ∀ {τ : Type} (each2 : GoString → τ → Bool × τ) (t : τ),
      goStructEnumerate o all each2 t =
        (match callInOrder each2 (enumerationOrder o) t with
         | (false, s1) => .returned s1
         | (true, s1) => .objectEnumerate all s1) := by
    intro τ each2 t
    unfold goStructEnumerate enumerationOrder
    simp only [callInOrder_append, enumerateNames_eq_callInOrder]
    rcases hf : callInOrder each2
      (List.filter validGoStructName (List.map (fun f => f.Name) o.value.typ.fields)) t
      with ⟨b, s1⟩
    cases b
    · simp only [hf]
    · simp only [hf]
  refine ⟨h1 each s, ?_⟩
  rw [h1, callInOrder_recordNames]
  cases hall : (enumerationOrder o).all p
  · simp
  · simp only [List.nil_append, if_true]
    have htw : (enumerationOrder o).takeWhile p = enumerationOrder o := by
      rw [List.takeWhile_eq_self_iff]
      exact List.all_eq_true.1 hall
    have hdw : (enumerationOrder o).dropWhile p = [] := by
      rw [List.dropWhile_eq_nil_iff]
      exact List.all_eq_true.1 hall
    rw [htw, hdw]
    simp

/-- The enumeration of a pointer to `struct{ Hidden int; Val int }` with the method `Get`: all
names when the callback goes on, and the names up to `Val` when it stops there. -/
theorem enumerate_test :
    goStructEnumerate ⟨hiddenMethodPointer, []⟩ false (recordNames (fun _ => true)) []
      = .objectEnumerate false [str "Hidden", str "Val", str "Get"] ∧
    goStructEnumerate ⟨hiddenMethodPointer, []⟩ false
        (recordNames (fun name => decide (name ≠ str "Val"))) []
      = .returned [str "Hidden", str "Val"] ∧
    goStructEnumerate ⟨unicodeRecord, []⟩ true (recordNames (fun _ => true)) []
      = .objectEnumerate true [] := by decide

theorem mem_enumerationOrder_of_field (o : goStructObject) (F : StructField)
    (hF : F ∈ o.value.typ.fields) (hname : validGoStructName F.Name = true) :
    F.Name ∈ enumerationOrder o := by
  unfold enumerationOrder
  exact List.mem_append_left _
    (List.mem_filter.2 ⟨List.mem_map.2 ⟨F, hF, rfl⟩, hname⟩)

theorem enumerate_all (o : goStructObject) (all : Bool) :
    goStructEnumerate o all (recordNames (fun _ => true)) []
      = .objectEnumerate all (enumerationOrder o) := by
  have h1 := enumerateNames_eq_callInOrder (recordNames (fun _ => true))
    (o.value.typ.fields.map fun f => f.Name) []
  have h2 := fun seen => enumerateNames_eq_callInOrder (recordNames (fun _ => true))
    (o.value.methodSet.map fun m => m.Name) seen
  have hall : ∀ l : List GoString, l.all (fun _ => true) = true := by
    intro l; simp
  have htw : ∀ l : List GoString, l.takeWhile (fun _ => true) = l := by
    intro l; simp
  have hdw : ∀ l : List GoString, l.dropWhile (fun _ => true) = [] := by
    intro l
    rw [List.dropWhile_eq_nil_iff]
    intro _ _; rfl
  unfold goStructEnumerate enumerationOrder
  rw [h1, callInOrder_recordNames, hall, htw, hdw]
  simp only [h2, callInOrder_recordNames, hall, htw, hdw]
  simp

/-- Claim C23 fails on the code: `goStructEnumerate` does not look at the tags, so for every
field whose name starts with an ASCII capital and whose `otto` tag is `-`, an enumeration that
goes to its end passes the Go name of the hidden field to the callback. -/
theorem hidden_field_enumerated (o : goStructObject) (all : Bool) (F : StructField)
    (hF : F ∈ o.value.typ.fields) (hname : validGoStructName F.Name = true)
    (_htag : F.Tag.Get structTag = structTagIgnoreValue) :
    ∃ seen, goStructEnumerate o all (recordNames (fun _ => true)) []
        = .objectEnumerate all seen ∧ F.Name ∈ seen :=
  ⟨enumerationOrder o, enumerate_all o all, mem_enumerationOrder_of_field o F hF hname⟩

/-- Claim C23, the failure at `struct{ Hidden int; Val int }` whose first field has the tag
`otto:"-"`: the callback is called with `Hidden`. -/
theorem hidden_field_enumerated_witness :
    hiddenField.Tag.Get structTag = structTagIgnoreValue ∧
    ∃ seen, goStructEnumerate ⟨hiddenRecord, []⟩ false (recordNames (fun _ => true)) []
        = .objectEnumerate false seen ∧ str "Hidden" ∈ seen :=
  ⟨by decide, hidden_field_enumerated ⟨hiddenRecord, []⟩ false hiddenField (by decide)
    (by decide) (by decide)⟩

/-! ## The claims on `Put`, `CanPut` and `GetOwnProperty` of host records -/

/-- Claim C24: when `getValue(name)` returns a valid member, `goStructGetOwnProperty` returns the
property made of `toValue` of that member with the mode `0o110`, whose octal digits say
writable, enumerable and not configurable, and it does not look at the ordinary properties;
when `getValue(name)` returns the zero value, it returns what `objectGetOwnProperty` returns for
the same name. -/
theorem getOwnProperty_member {V : Type}
    (fieldIndexByName : StructType → GoString → List Nat)
    (toValue : RecordValue → MemberValue → V)
    (o : goStructObject) (fuel : Nat) (name : GoString) (m : MemberValue)
    (hget : getValue fieldIndexByName o fuel name = .ok m) :
    (m.IsValid = true →
      goStructGetOwnProperty fieldIndexByName toValue o fuel name
        = .ok (.property (toValue o.value m) 72)) ∧
    (m.IsValid = false →
      goStructGetOwnProperty fieldIndexByName toValue o fuel name
        = .ok (.objectGetOwnProperty name)) ∧
    (72 / 64 % 8 = 1 ∧ 72 / 8 % 8 = 1 ∧ 72 % 8 = 0) := by
  refine ⟨fun hv => ?_, fun hv => ?_, by decide⟩
  · simp [goStructGetOwnProperty, hget, hv]
  · simp [goStructGetOwnProperty, hget, hv]

/-- Claim C24, the theorem at `struct{ Val int }{Val: 10}`: `Val` gives the property of the
field. -/
theorem getOwnProperty_member_witness :
    goStructGetOwnProperty noIndex memberAndValue ⟨valRecord, []⟩ 1 (str "Val")
      = .ok (.property (.field 0, some (.int 10)) 72) :=
  (getOwnProperty_member noIndex memberAndValue ⟨valRecord, []⟩ 1 (str "Val") (.field 0)
    (by decide)).1 rfl

/-- A write to the name of a method, on a pointer to a record with the method `Get`:
`goStructCanPut` says yes for `Get`, `goStructPut` of 5 stores nothing and hands the write to
`objectPut`, and `goStructGetOwnProperty` still gives the method afterwards, the record being
what it was. -/
theorem put_method_not_stored :
    goStructCanPut indexOfVal ⟨methodPointer, []⟩ 1 (str "Get") = .ok (.result true) ∧
    (match goStructPut indexOfVal convertInt ⟨methodPointer, []⟩ 1 (str "Get") 5 true with
     | .objectPut name value throw => name = str "Get" ∧ value = 5 ∧ throw = true
     | _ => False) ∧
    (match goStructGetOwnProperty indexOfVal memberAndValue
        (PutOutcome.record ⟨methodPointer, []⟩
          (goStructPut indexOfVal convertInt ⟨methodPointer, []⟩ 1 (str "Get") 5 true))
        1 (str "Get") with
     | .ok (.property value mode) => value = (.method (str "Get"), none) ∧ mode = 72
     | _ => False) := by
  refine ⟨by decide, ?_, ?_⟩
  · exact ⟨rfl, rfl, rfl⟩
  · exact ⟨rfl, rfl⟩

/-- Where put and lookup agree: on a record passed by pointer, for every name that
`fieldIndexByName` resolves to an exported field and every value that `convertCallParameter`
converts, `goStructCanPut` says yes, `goStructPut` stores the converted value without reaching
`objectPut`, and `goStructGetOwnProperty` on the record afterwards gives the property of that
field, which holds the converted value. -/
theorem put_resolved_field_read_back {V W : Type}
    (fieldIndexByName : StructType → GoString → List Nat)
    (convertCallParameter : V → GoType → Except GoString GoVal)
    (toValue : RecordValue → MemberValue → W)
    (o : goStructObject) (i : Nat) (f : StructField) (n : GoString)
    (value : V) (x : GoVal) (throw : Bool) (fuel fuel2 : Nat)
    (hptr : o.value.isPointer = true)
    (hidx : fieldIndexByName o.value.typ n = [i])
    (hF : o.value.typ.fields[i]? = some f)
    (hexp : f.IsExported = true)
    (hlen : i < o.value.fieldVals.length)
    (hconv : convertCallParameter value f.Typ = .ok x) :
    goStructCanPut fieldIndexByName o (fuel + 1) n = .ok (.result true) ∧
      ∃ o2, goStructPut fieldIndexByName convertCallParameter o (fuel + 1) n value throw
          = .stored o2 ∧
        goStructGetOwnProperty fieldIndexByName toValue o2 (fuel2 + 1) n
          = .ok (.property (toValue o2.value (.field i)) 72) ∧
        o2.value.read (.field i) = some x := by
  have hlt := getElem_lt_of_some _ _ _ hF
  have hget : getValue fieldIndexByName o (fuel + 1) n = .ok (.field i) := by
    simp [getValue, hidx, RecordValue.FieldByIndex, hlt]
  refine ⟨?_, { o with value := { o.value with fieldVals := o.value.fieldVals.set i x } },
    ?_, ?_, ?_⟩
  · simp [goStructCanPut, hget, MemberValue.IsValid]
  · simp [goStructPut, setValue, hidx, hget, RecordValue.typeOf, hF, hconv, RecordValue.Set,
      hptr, hexp]
  · simp [goStructGetOwnProperty, getValue, hidx, RecordValue.FieldByIndex, hlt,
      MemberValue.IsValid]
  · simp [RecordValue.read, hlen]

/-- Claim C21 fails on the code for every name that `getValue` reads but `fieldIndexByName`
does not resolve, such as the tag alias of a field, its lowercase alias, or the name of a
method: `getValue` follows the alias table and the method set, so `goStructCanPut` says yes, but
`setValue` gives up as soon as the index lookup is empty, so `goStructPut` stores nothing, hands
the write to `objectPut` and leaves the record as it was; `goStructGetOwnProperty`, which asks
`getValue` first, goes on giving the property of the member with its old value, whatever value
was put. -/
theorem put_unresolved_name_lost {V W : Type}
    (fieldIndexByName : StructType → GoString → List Nat)
    (convertCallParameter : V → GoType → Except GoString GoVal)
    (toValue : RecordValue → MemberValue → W)
    (o : goStructObject) (n : GoString) (m : MemberValue)
    (value : V) (throw : Bool) (fuel : Nat)
    (hidx : fieldIndexByName o.value.typ n = [])
    (hget : getValue fieldIndexByName o (fuel + 1) n = .ok m)
    (hvalid : m.IsValid = true) :
    goStructCanPut fieldIndexByName o (fuel + 1) n = .ok (.result true) ∧
    goStructPut fieldIndexByName convertCallParameter o (fuel + 1) n value throw
      = .objectPut n value throw ∧
    PutOutcome.record o
      (goStructPut fieldIndexByName convertCallParameter o (fuel + 1) n value throw) = o ∧
    goStructGetOwnProperty fieldIndexByName toValue
        (PutOutcome.record o
          (goStructPut fieldIndexByName convertCallParameter o (fuel + 1) n value throw))
        (fuel + 1) n
      = .ok (.property (toValue o.value m) 72) := by
  have hput : goStructPut fieldIndexByName convertCallParameter o (fuel + 1) n value throw
      = .objectPut n value throw := by
    simp [goStructPut, setValue, hidx]
  refine ⟨?_, hput, ?_, ?_⟩
  · simp [goStructCanPut, hget, hvalid]
  · rw [hput]
    rfl
  · rw [hput]
    simp [PutOutcome.record, goStructGetOwnProperty, hget, hvalid]

/-- Claim C21, the failure at a pointer to `struct{ Val int }{10}` whose field has the tag
`otto:"value"`, with the lookup `indexByGoName`: the script reads 10 at `s.value`, may put to
it, and after `s.value = 5` the record and `s.value` still hold 10; and the same at the name of
the method `Get` of a pointer to `struct{ Val int }`. -/
theorem put_unresolved_name_lost_witness :
    (newGoStructObject lowerTagPointer false
        = .ok ⟨lowerTagPointer, [(str "value", str "Val")]⟩ ∧
      indexByGoName lowerTagPointer.typ (str "value") = [] ∧
      getValue indexByGoName ⟨lowerTagPointer, [(str "value", str "Val")]⟩ 2 (str "value")
        = .ok (.field 0) ∧
      goStructCanPut indexByGoName ⟨lowerTagPointer, [(str "value", str "Val")]⟩ 2 (str "value")
        = .ok (.result true) ∧
      goStructPut indexByGoName convertInt ⟨lowerTagPointer, [(str "value", str "Val")]⟩ 2
        (str "value") 5 true = .objectPut (str "value") 5 true ∧
      goStructGetOwnProperty indexByGoName memberAndValue
          (PutOutcome.record ⟨lowerTagPointer, [(str "value", str "Val")]⟩
            (goStructPut indexByGoName convertInt ⟨lowerTagPointer, [(str "value", str "Val")]⟩
              2 (str "value") 5 true))
          2 (str "value")
        = .ok (.property (.field 0, some (.int 10)) 72)) ∧
    (goStructCanPut indexByGoName ⟨methodPointer, []⟩ 1 (str "Get") = .ok (.result true) ∧
      goStructPut indexByGoName convertInt ⟨methodPointer, []⟩ 1 (str "Get") 5 true
        = .objectPut (str "Get") 5 true) :=
  have h := put_unresolved_name_lost indexByGoName convertInt memberAndValue
    ⟨lowerTagPointer, [(str "value", str "Val")]⟩ (str "value") (.field 0) 5 true 1
    (by decide) (by decide) rfl
  have h2 := put_unresolved_name_lost indexByGoName convertInt memberAndValue
    ⟨methodPointer, []⟩ (str "Get") (.method (str "Get")) 5 true 0
    (by decide) (by decide) rfl
  ⟨⟨by decide, by decide, by decide, h.1, h.2.1, h.2.2.2⟩, ⟨h2.1, h2.2.1⟩⟩

/-! ## The claims on the alias table and on the termination of `getValue` -/

theorem mapFieldNames_cons (lc : Bool) (f : StructField) (rest : List StructField)
    (m m2 : NameMap) (h : mapFieldNames lc (f :: rest) m = .ok m2) :
    mapFieldNames lc rest
      (match fieldAlias lc f with
       | some k => m.set k f.Name
       | none => m) = .ok m2 := by
  unfold mapFieldNames at h
  unfold fieldAlias
  by_cases hexp : (!f.IsExported) = true
  · rw [if_pos hexp] at h
    rw [if_pos hexp]
    exact h
  · rw [if_neg hexp] at h
    rw [if_neg hexp]
    by_cases hcustom : f.Tag.Get structTag ≠ [] ∧ f.Tag.Get structTag ≠ structTagIgnoreValue
    · rw [if_pos hcustom] at h
      rw [if_pos hcustom]
      exact h
    · rw [if_neg hcustom] at h
      rw [if_neg hcustom]
      by_cases hlc : lc = true
      · rw [if_pos hlc] at h
        rw [if_pos hlc]
        cases hl : lowerFirst f.Name with
        | error e => rw [hl] at h; cases h
        | ok lowerName =>
          rw [hl] at h
          exact h
      · rw [if_neg hlc] at h
        rw [if_neg hlc]
        exact h

theorem mapMethodNames_cons (meth : Method) (rest : List Method) (m m2 : NameMap)
    (h : mapMethodNames (meth :: rest) m = .ok m2) :
    mapMethodNames rest
      (match methodAlias meth with
       | some k => m.set k meth.Name
       | none => m) = .ok m2 := by
  unfold mapMethodNames at h
  unfold methodAlias
  by_cases hexp : (!meth.IsExported) = true
  · rw [if_pos hexp] at h
    rw [if_pos hexp]
    exact h
  · rw [if_neg hexp] at h
    rw [if_neg hexp]
    cases hl : lowerFirst meth.Name with
    | error e => rw [hl] at h; cases h
    | ok lowerName =>
      rw [hl] at h
      exact h

theorem mapFieldNames_mem (lc : Bool) (k x : GoString) :
    ∀ (fs : List StructField) (m m2 : NameMap), mapFieldNames lc fs m = .ok m2 →
      ((k, x) ∈ m2 ↔ (k, x) ∈ m ∨ ∃ f ∈ fs, fieldAlias lc f = some k ∧ f.Name = x)
  | [], m, m2, h => by
    simp only [mapFieldNames, Except.ok.injEq] at h
    simp [h]
  | f :: rest, m, m2, h => by
    have ih := mapFieldNames_mem lc k x rest _ m2 (mapFieldNames_cons lc f rest m m2 h)
    rw [ih]
    cases ha : fieldAlias lc f with
    | none =>
      constructor
      · rintro (h1 | ⟨g, hg, hga, hgx⟩)
        · exact Or.inl h1
        · exact Or.inr ⟨g, List.mem_cons_of_mem _ hg, hga, hgx⟩
      · rintro (h1 | ⟨g, hg, hga, hgx⟩)
        · exact Or.inl h1
        · rcases List.mem_cons.1 hg with heq | hg
          · subst heq
            rw [ha] at hga
            cases hga
          · exact Or.inr ⟨g, hg, hga, hgx⟩
    | some kk =>
      constructor
      · rintro (h1 | ⟨g, hg, hga, hgx⟩)
        · rcases List.mem_cons.1 h1 with heq | hmem
          · obtain ⟨hk, hx⟩ := Prod.mk.inj heq
            exact Or.inr ⟨f, List.mem_cons_self _ _, by rw [ha, hk], hx.symm⟩
          · exact Or.inl hmem
        · exact Or.inr ⟨g, List.mem_cons_of_mem _ hg, hga, hgx⟩
      · rintro (h1 | ⟨g, hg, hga, hgx⟩)
        · exact Or.inl (List.mem_cons_of_mem _ h1)
        · rcases List.mem_cons.1 hg with heq | hg
          · subst heq
            rw [ha] at hga
            cases hga
            rw [← hgx]
            exact Or.inl (List.mem_cons_self _ _)
          · exact Or.inr ⟨g, hg, hga, hgx⟩

theorem mapMethodNames_mem (k x : GoString) :
    ∀ (ms : List Method) (m m2 : NameMap), mapMethodNames ms m = .ok m2 →
      ((k, x) ∈ m2 ↔ (k, x) ∈ m ∨ ∃ meth ∈ ms, methodAlias meth = some k ∧ meth.Name = x)
  | [], m, m2, h => by
    simp only [mapMethodNames, Except.ok.injEq] at h
    simp [h]
  | f :: rest, m, m2, h => by
    have ih := mapMethodNames_mem k x rest _ m2 (mapMethodNames_cons f rest m m2 h)
    rw [ih]
    cases ha : methodAlias f with
    | none =>
      constructor
      · rintro (h1 | ⟨g, hg, hga, hgx⟩)
        · exact Or.inl h1
        · exact Or.inr ⟨g, List.mem_cons_of_mem _ hg, hga, hgx⟩
      · rintro (h1 | ⟨g, hg, hga, hgx⟩)
        · exact Or.inl h1
        · rcases List.mem_cons.1 hg with heq | hg
          · subst heq
            rw [ha] at hga
            cases hga
          · exact Or.inr ⟨g, hg, hga, hgx⟩
    | some kk =>
      constructor
      · rintro (h1 | ⟨g, hg, hga, hgx⟩)
        · rcases List.mem_cons.1 h1 with heq | hmem
          · obtain ⟨hk, hx⟩ := Prod.mk.inj heq
            exact Or.inr ⟨f, List.mem_cons_self _ _, by rw [ha, hk], hx.symm⟩
          · exact Or.inl hmem
        · exact Or.inr ⟨g, List.mem_cons_of_mem _ hg, hga, hgx⟩
      · rintro (h1 | ⟨g, hg, hga, hgx⟩)
        · exact Or.inl (List.mem_cons_of_mem _ h1)
        · rcases List.mem_cons.1 hg with heq | hg
          · subst heq
            rw [ha] at hga
            cases hga
            rw [← hgx]
            exact Or.inl (List.mem_cons_self _ _)
          · exact Or.inr ⟨g, hg, hga, hgx⟩

theorem newGoStructObject_mem (v : RecordValue) (lc : Bool) (o : goStructObject)
    (h : newGoStructObject v lc = .ok o) (k x : GoString) :
    (k, x) ∈ o.jsNames ↔
      (∃ f ∈ v.typ.fields, fieldAlias lc f = some k ∧ f.Name = x) ∨
      (lc = true ∧ ∃ meth ∈ v.methodSet, methodAlias meth = some k ∧ meth.Name = x) := by
  unfold newGoStructObject at h
  cases hm : mapFieldNames lc v.typ.fields [] with
  | error e => rw [hm] at h; cases h
  | ok m =>
    rw [hm] at h
    have h1 := mapFieldNames_mem lc k x _ _ _ hm
    by_cases hlc : lc = true
    · simp only [hlc, if_true] at h
      cases hm2 : mapMethodNames v.methodSet m with
      | error e => rw [hm2] at h; cases h
      | ok m2 =>
        rw [hm2] at h
        cases h
        have h2 := mapMethodNames_mem k x _ _ _ hm2
        show (k, x) ∈ m2 ↔ _
        rw [h2, h1]
        simp [hlc]
    · have hlc2 : lc = false := by simpa using hlc
      simp only [hlc2] at h
      cases h
      show (k, x) ∈ m ↔ _
      rw [h1]
      simp [hlc2]

theorem lowerFirst_ok_of_ne_nil (name : GoString) (h : name ≠ []) :
    ∃ lower, lowerFirst name = .ok lower := by
  cases name with
  | nil => exact absurd rfl h
  | cons b rest => exact ⟨_, rfl⟩

theorem mapFieldNames_ok (lc : Bool) :
    ∀ (fs : List StructField) (m : NameMap), (∀ f ∈ fs, f.Name ≠ []) →
      ∃ m2, mapFieldNames lc fs m = .ok m2
  | [], m, _ => ⟨m, rfl⟩
  | f :: rest, m, hne => by
    have hrest : ∀ g ∈ rest, g.Name ≠ [] := fun g hg => hne g (List.mem_cons_of_mem _ hg)
    obtain ⟨lower, hl⟩ := lowerFirst_ok_of_ne_nil f.Name (hne f (List.mem_cons_self _ _))
    unfold mapFieldNames
    rw [hl]
    split
    · exact mapFieldNames_ok lc rest m hrest
    · split
      · exact mapFieldNames_ok lc rest _ hrest
      · split
        · exact mapFieldNames_ok lc rest _ hrest
        · exact mapFieldNames_ok lc rest m hrest

theorem mapMethodNames_ok :
    ∀ (ms : List Method) (m : NameMap), (∀ meth ∈ ms, meth.Name ≠ []) →
      ∃ m2, mapMethodNames ms m = .ok m2
  | [], m, _ => ⟨m, rfl⟩
  | f :: rest, m, hne => by
    have hrest : ∀ g ∈ rest, g.Name ≠ [] := fun g hg => hne g (List.mem_cons_of_mem _ hg)
    obtain ⟨lower, hl⟩ := lowerFirst_ok_of_ne_nil f.Name (hne f (List.mem_cons_self _ _))
    unfold mapMethodNames
    rw [hl]
    split
    · exact mapMethodNames_ok rest m hrest
    · exact mapMethodNames_ok rest _ hrest

theorem newGoStructObject_ok (v : RecordValue) (lc : Bool)
    (hfields : ∀ f ∈ v.typ.fields, f.Name ≠ [])
    (hmeths : ∀ meth ∈ v.methodSet, meth.Name ≠ []) :
    ∃ o, newGoStructObject v lc = .ok o := by
  obtain ⟨m, hm⟩ := mapFieldNames_ok lc v.typ.fields [] hfields
  obtain ⟨m2, hm2⟩ := mapMethodNames_ok v.methodSet m hmeths
  unfold newGoStructObject
  rw [hm]
  cases lc
  · exact ⟨_, rfl⟩
  · simp only [if_true, hm2]
    exact ⟨_, rfl⟩

theorem fieldAlias_eq_some (lc : Bool) (f : StructField) (k : GoString) :
    fieldAlias lc f = some k ↔
      f.IsExported = true ∧
        ((f.Tag.Get structTag ≠ [] ∧ f.Tag.Get structTag ≠ structTagIgnoreValue ∧
            k = f.Tag.Get structTag) ∨
          ((f.Tag.Get structTag = [] ∨ f.Tag.Get structTag = structTagIgnoreValue) ∧
            lc = true ∧ lowerFirst f.Name = .ok k)) := by
  unfold fieldAlias
  by_cases hexp : f.IsExported = true
  · have hne : ¬ ((!f.IsExported) = true) := by simp [hexp]
    rw [if_neg hne]
    by_cases hcustom : f.Tag.Get structTag ≠ [] ∧ f.Tag.Get structTag ≠ structTagIgnoreValue
    · rw [if_pos hcustom]
      constructor
      · intro h
        exact ⟨hexp, Or.inl ⟨hcustom.1, hcustom.2, (Option.some.inj h).symm⟩⟩
      · rintro ⟨_, ⟨_, _, h3⟩ | ⟨h1, _, _⟩⟩
        · rw [h3]
        · rcases h1 with h1 | h1
          · exact absurd h1 hcustom.1
          · exact absurd h1 hcustom.2
    · rw [if_neg hcustom]
      have hor : f.Tag.Get structTag = [] ∨ f.Tag.Get structTag = structTagIgnoreValue := by
        by_cases h1 : f.Tag.Get structTag = []
        · exact Or.inl h1
        · by_cases h2 : f.Tag.Get structTag = structTagIgnoreValue
          · exact Or.inr h2
          · exact absurd ⟨h1, h2⟩ hcustom
      constructor
      · intro h
        by_cases hlc : lc = true
        · rw [if_pos hlc] at h
          cases hl : lowerFirst f.Name with
          | error e =>
            rw [hl] at h
            cases h
          | ok lower =>
            rw [hl] at h
            have hk : lower = k := Option.some.inj h
            exact ⟨hexp, Or.inr ⟨hor, hlc, by rw [hk]⟩⟩
        · rw [if_neg hlc] at h
          cases h
      · rintro ⟨_, ⟨h1, h2, _⟩ | ⟨_, hlc, hl⟩⟩
        · exact absurd ⟨h1, h2⟩ hcustom
        · rw [if_pos hlc, hl]
  · have hpos : (!f.IsExported) = true := by simpa using hexp
    rw [if_pos hpos]
    constructor
    · intro h
      cases h
    · rintro ⟨h, _⟩
      exact absurd h hexp

theorem methodAlias_eq_some (meth : Method) (k : GoString) :
    methodAlias meth = some k ↔ meth.IsExported = true ∧ lowerFirst meth.Name = .ok k := by
  unfold methodAlias
  cases hexp : meth.IsExported
  · simp
  · cases hl : lowerFirst meth.Name with
    | error e => simp
    | ok lower => simp

theorem methodSet_exported (v : RecordValue) (meth : Method) (h : meth ∈ v.methodSet) :
    meth.IsExported = true := by
  unfold RecordValue.methodSet at h
  exact (List.mem_filter.1 h).2

/-- Claim C28: for a record whose fields and methods have names, which Go sees to,
`newGoStructObject` returns an object whose alias table has the following content. Every value
of the table is the Go name of an exported field or of an exported method of the record. The keys
are exactly the tags of the exported fields whose tag is neither empty nor `-`, and, only with
`lowercaseFields`, `lowerFirst` of the names of the exported fields whose tag is empty or `-` and
of the methods `reflect` lists for the record; without `lowercaseFields` every key is such a
tag. -/
theorem alias_table_invariant (v : RecordValue) (lc : Bool)
    (hfields : ∀ f ∈ v.typ.fields, f.Name ≠ [])
    (hmeths : ∀ meth ∈ v.methodSet, meth.Name ≠ []) :
    ∃ o, newGoStructObject v lc = .ok o ∧ o.value = v ∧
      (∀ k x, (k, x) ∈ o.jsNames →
        (∃ f ∈ v.typ.fields, f.IsExported = true ∧ f.Name = x) ∨
        (∃ meth ∈ v.methodSet, meth.IsExported = true ∧ meth.Name = x)) ∧
      (∀ k, k ∈ o.jsNames.map Prod.fst ↔
        (∃ f ∈ v.typ.fields, f.IsExported = true ∧ f.Tag.Get structTag ≠ [] ∧
          f.Tag.Get structTag ≠ structTagIgnoreValue ∧ k = f.Tag.Get structTag) ∨
        (lc = true ∧
          ((∃ f ∈ v.typ.fields, f.IsExported = true ∧
              (f.Tag.Get structTag = [] ∨ f.Tag.Get structTag = structTagIgnoreValue) ∧
              lowerFirst f.Name = .ok k) ∨
            (∃ meth ∈ v.methodSet, meth.IsExported = true ∧ lowerFirst meth.Name = .ok k)))) ∧
      (lc = false → ∀ k, k ∈ o.jsNames.map Prod.fst →
        ∃ f ∈ v.typ.fields, f.IsExported = true ∧ f.Tag.Get structTag ≠ [] ∧
          f.Tag.Get structTag ≠ structTagIgnoreValue ∧ k = f.Tag.Get structTag) := by
  obtain ⟨o, ho⟩ := newGoStructObject_ok v lc hfields hmeths
  have hmem := newGoStructObject_mem v lc o ho
  have hval : o.value = v := by
    unfold newGoStructObject at ho
    cases hm : mapFieldNames lc v.typ.fields [] with
    | error e => rw [hm] at ho; cases ho
    | ok m =>
      rw [hm] at ho
      cases lc
      · simp only [Bool.false_eq_true, if_false, Except.ok.injEq] at ho
        rw [← ho]
      · simp only [if_true] at ho
        cases hm2 : mapMethodNames v.methodSet m with
        | error e => rw [hm2] at ho; cases ho
        | ok m2 =>
          rw [hm2] at ho
          simp only [Except.ok.injEq] at ho
          rw [← ho]
  have hkeys : ∀ k, k ∈ o.jsNames.map Prod.fst ↔
      (∃ f ∈ v.typ.fields, f.IsExported = true ∧ f.Tag.Get structTag ≠ [] ∧
        f.Tag.Get structTag ≠ structTagIgnoreValue ∧ k = f.Tag.Get structTag) ∨
      (lc = true ∧
        ((∃ f ∈ v.typ.fields, f.IsExported = true ∧
            (f.Tag.Get structTag = [] ∨ f.Tag.Get structTag = structTagIgnoreValue) ∧
            lowerFirst f.Name = .ok k) ∨
          (∃ meth ∈ v.methodSet, meth.IsExported = true ∧ lowerFirst meth.Name = .ok k))) := by
    intro k
    constructor
    · intro hk
      obtain ⟨⟨k2, x⟩, hkx, rfl⟩ := List.mem_map.1 hk
      rcases (hmem k2 x).1 hkx with ⟨f, hf, ha, _⟩ | ⟨hlc, meth, hm, ha, _⟩
      · rcases (fieldAlias_eq_some lc f k2).1 ha with ⟨hexp, ⟨h1, h2, h3⟩ | ⟨h1, h2, h3⟩⟩
        · exact Or.inl ⟨f, hf, hexp, h1, h2, h3⟩
        · exact Or.inr ⟨h2, Or.inl ⟨f, hf, hexp, h1, h3⟩⟩
      · obtain ⟨hexp, hl⟩ := (methodAlias_eq_some meth k2).1 ha
        exact Or.inr ⟨hlc, Or.inr ⟨meth, hm, hexp, hl⟩⟩
    · rintro (⟨f, hf, hexp, h1, h2, h3⟩ | ⟨hlc, ⟨f, hf, hexp, h1, h3⟩ | ⟨meth, hm, hexp, hl⟩⟩)
      · exact List.mem_map.2 ⟨(k, f.Name), (hmem k f.Name).2 (Or.inl ⟨f, hf,
          (fieldAlias_eq_some lc f k).2 ⟨hexp, Or.inl ⟨h1, h2, h3⟩⟩, rfl⟩), rfl⟩
      · exact List.mem_map.2 ⟨(k, f.Name), (hmem k f.Name).2 (Or.inl ⟨f, hf,
          (fieldAlias_eq_some lc f k).2 ⟨hexp, Or.inr ⟨h1, hlc, h3⟩⟩, rfl⟩), rfl⟩
      · exact List.mem_map.2 ⟨(k, meth.Name), (hmem k meth.Name).2 (Or.inr ⟨hlc, meth, hm,
          (methodAlias_eq_some meth k).2 ⟨hexp, hl⟩, rfl⟩), rfl⟩
  refine ⟨o, ho, hval, ?_, hkeys, ?_⟩
  · intro k x hkx
    rcases (hmem k x).1 hkx with ⟨f, hf, ha, hx⟩ | ⟨_, meth, hm, _, hx⟩
    · exact Or.inl ⟨f, hf, ((fieldAlias_eq_some lc f k).1 ha).1, hx⟩
    · exact Or.inr ⟨meth, hm, methodSet_exported v meth hm, hx⟩
  · intro hlc k hk
    rcases (hkeys k).1 hk with h | ⟨h, _⟩
    · exact h
    · rw [hlc] at h
      cases h

/-- Claim C28, the theorem at a pointer to `struct{ Val int }` with the method `Get` and
lowercase remapping: the table binds `get` to `Get` and `val` to `Val`. -/
theorem alias_table_invariant_witness :
    ∃ o, newGoStructObject methodPointer true = .ok o ∧
      o.jsNames = [(str "get", str "Get"), (str "val", str "Val")] := by
  obtain ⟨o, ho, _⟩ := alias_table_invariant methodPointer true (by decide) (by decide)
  refine ⟨o, ho, ?_⟩
  have h2 : newGoStructObject methodPointer true
      = .ok ⟨methodPointer, [(str "get", str "Get"), (str "val", str "Val")]⟩ := by decide
  rw [h2] at ho
  cases ho
  rfl

/-- The alias tables of the records with tags: a custom tag is the only key of its field, a
hidden field gets the lowercase alias, and without lowercase remapping only the tags are
keys. -/
theorem aliasTable_test :
    (newGoStructObject lowerTagRecord true).map (fun o => o.jsNames)
      = .ok [(str "value", str "Val")] ∧
    (newGoStructObject hiddenRecord true).map (fun o => o.jsNames)
      = .ok [(str "val", str "Val"), (str "hidden", str "Hidden")] ∧
    (newGoStructObject methodPointer false).map (fun o => o.jsNames) = .ok [] ∧
    (newGoStructObject shadowedRecord false).map (fun o => o.jsNames)
      = .ok [(str "hidden", str "Shown")] := by decide

theorem FieldByIndex_ne_fuel (v : RecordValue) (index : List Nat) :
    v.FieldByIndex index ≠ .error .fuel := by
  unfold RecordValue.FieldByIndex
  split
  · split
    · intro h; cases h
    · intro h; cases h
  · intro h; cases h

theorem getValue_without_alias (fieldIndexByName : StructType → GoString → List Nat)
    (o : goStructObject) (fuel : Nat) (name : GoString)
    (h : (fieldIndexByName o.value.typ name).length > 0 ∨ validGoStructName name = true ∨
      name = []) :
    getValue fieldIndexByName o (fuel + 1) name = getValue fieldIndexByName o 1 name ∧
      getValue fieldIndexByName o 1 name ≠ .error .fuel := by
  unfold getValue
  by_cases hlen : (fieldIndexByName o.value.typ name).length > 0
  · simp only [if_pos hlen]
    exact ⟨trivial, FieldByIndex_ne_fuel _ _⟩
  · simp only [if_neg hlen]
    by_cases hvalid : validGoStructName name = true
    · simp only [if_pos hvalid]
      refine ⟨trivial, ?_⟩
      split
      · intro h2; cases h2
      · split
        · intro h2; cases h2
        · split
          · intro h2; cases h2
          · intro h2; cases h2
    · simp only [if_neg hvalid]
      have hnil : name = [] := by
        rcases h with h | h | h
        · exact absurd h hlen
        · exact absurd h hvalid
        · exact h
      have hn : ¬ name ≠ [] := fun hne => hne hnil
      simp only [if_neg hn]
      exact ⟨trivial, fun h2 => by cases h2⟩

theorem mem_of_lookup_eq_some {α : Type} (name : GoString) (x : α) :
    ∀ (l : List (GoString × α)), l.lookup name = some x → (name, x) ∈ l
  | [], h => by simp at h
  | (k, v) :: l, h => by
    rw [List.lookup_cons] at h
    by_cases hk : name = k
    · subst hk
      simp only [beq_self_eq_true, Option.some.injEq] at h
      rw [h]
      exact List.mem_cons_self _ _
    · have hne : (name == k) = false := by simpa using hk
      rw [hne] at h
      exact List.mem_cons_of_mem _ (mem_of_lookup_eq_some name x l h)

theorem newGoStructObject_value (v : RecordValue) (lc : Bool) (o : goStructObject)
    (h : newGoStructObject v lc = .ok o) : o.value = v := by
  unfold newGoStructObject at h
  cases hm : mapFieldNames lc v.typ.fields [] with
  | error e => rw [hm] at h; cases h
  | ok m =>
    rw [hm] at h
    cases lc
    · simp only [Bool.false_eq_true, if_false, Except.ok.injEq] at h
      rw [← h]
    · simp only [if_true] at h
      cases hm2 : mapMethodNames v.methodSet m with
      | error e => rw [hm2] at h; cases h
      | ok m2 =>
        rw [hm2] at h
        simp only [Except.ok.injEq] at h
        rw [← h]

/-- On a record all of whose exported fields and methods have a name that starts with an ASCII
capital, `getValue` goes through the alias table at most once: the fuel 2 is enough for every
name. -/
theorem getValue_alias_once (fieldIndexByName : StructType → GoString → List Nat)
    (v : RecordValue) (lc : Bool) (o : goStructObject)
    (h : newGoStructObject v lc = .ok o)
    (hfields : ∀ f ∈ v.typ.fields, f.IsExported = true → validGoStructName f.Name = true)
    (hmeths : ∀ meth ∈ v.methodSet, validGoStructName meth.Name = true)
    (fuel : Nat) (name : GoString) :
    getValue fieldIndexByName o (fuel + 2) name = getValue fieldIndexByName o 2 name ∧
      getValue fieldIndexByName o 2 name ≠ .error .fuel := by
  by_cases hcase : (fieldIndexByName o.value.typ name).length > 0 ∨
      validGoStructName name = true ∨ name = []
  · have h1 := getValue_without_alias fieldIndexByName o (fuel + 1) name hcase
    have h2 := getValue_without_alias fieldIndexByName o 1 name hcase
    exact ⟨h1.1.trans h2.1.symm, by rw [h2.1]; exact h2.2⟩
  · have hidx : fieldIndexByName o.value.typ name = [] := by
      cases hl : fieldIndexByName o.value.typ name with
      | nil => rfl
      | cons a l => exact absurd (Or.inl (by simp [hl])) hcase
    have hvalid : validGoStructName name = false := by
      cases hv : validGoStructName name with
      | false => rfl
      | true => exact absurd (Or.inr (Or.inl hv)) hcase
    have hne : name ≠ [] := fun e => hcase (Or.inr (Or.inr e))
    rw [getValue_alias fieldIndexByName o (fuel + 1) name hvalid hne hidx,
      getValue_alias fieldIndexByName o 1 name hvalid hne hidx]
    cases hlook : o.jsNames.lookup name with
    | none => exact ⟨rfl, fun h2 => by cases h2⟩
    | some mapped =>
      have hmem := mem_of_lookup_eq_some name mapped o.jsNames hlook
      have hmapped : validGoStructName mapped = true := by
        rcases (newGoStructObject_mem v lc o h name mapped).1 hmem with
          ⟨f, hf, ha, hx⟩ | ⟨_, meth, hm, _, hx⟩
        · rw [← hx]
          exact hfields f hf ((fieldAlias_eq_some lc f name).1 ha).1
        · rw [← hx]
          exact hmeths meth hm
      have h1 := getValue_without_alias fieldIndexByName o fuel mapped (Or.inr (Or.inl hmapped))
      exact ⟨h1.1, h1.2⟩

/-- Claim C26 fails on the code: for `struct{ Éa int }` whose field has the tag `otto:"Éa"`,
`newGoStructObject` binds the key `Éa` to the name `Éa`, which does not start with an ASCII
capital, so that `getValue("Éa")`, when `fieldIndexByName` does not resolve the name, takes the
alias branch again and again: no fuel is enough. -/
theorem getValue_alias_cycle :
    newGoStructObject selfTagRecord false
      = .ok ⟨selfTagRecord, [([195, 137, 97], [195, 137, 97])]⟩ ∧
    ∀ fuel, getValue noIndex ⟨selfTagRecord, [([195, 137, 97], [195, 137, 97])]⟩ fuel
      [195, 137, 97] = .error .fuel := by
  refine ⟨by decide, fun fuel => ?_⟩
  induction fuel with
  | zero => rfl
  | succ fuel ih =>
    rw [getValue_alias noIndex _ fuel [195, 137, 97] (by decide) (by decide) rfl]
    exact ih

/-- The fuel `getValue` needs: 2 for the aliases of a record with ASCII names, and 3 for the
alias `x` of `struct{ Éa int; B int }` with the tags `x` and `Éa`, where the alias branch is
taken twice. -/
theorem getValue_fuel_test :
    getValue noIndex ⟨hiddenRecord, [(str "val", str "Val")]⟩ 2 (str "val") = .ok (.field 1) ∧
    getValue noIndex
      ⟨{ isPointer := false, canAddr := false,
         typ := { fields := [{ Name := [195, 137, 97], PkgPath := [], Typ := .int,
                               Tag := [(structTag, str "x")] },
                             { Name := str "B", PkgPath := [], Typ := .int,
                               Tag := [(structTag, [195, 137, 97])] }],
                  methods := [], ptrMethods := [] },
         fieldVals := [.int 1, .int 2] },
       [([195, 137, 97], str "B"), (str "x", [195, 137, 97])]⟩ 2 (str "x") = .error .fuel ∧
    getValue noIndex
      ⟨{ isPointer := false, canAddr := false,
         typ := { fields := [{ Name := [195, 137, 97], PkgPath := [], Typ := .int,
                               Tag := [(structTag, str "x")] },
                             { Name := str "B", PkgPath := [], Typ := .int,
                               Tag := [(structTag, [195, 137, 97])] }],
                  methods := [], ptrMethods := [] },
         fieldVals := [.int 1, .int 2] },
       [([195, 137, 97], str "B"), (str "x", [195, 137, 97])]⟩ 3 (str "x")
      = .ok (.field 1) := by decide

/-! ## The claims on lookup after enumeration, on the two tests of visibility and on
`lowerFirst` -/

theorem mem_enumerationOrder (o : goStructObject) (n : GoString)
    (h : n ∈ enumerationOrder o) :
    validGoStructName n = true ∧
      ((∃ f ∈ o.value.typ.fields, f.Name = n) ∨ (∃ meth ∈ o.value.methodSet, meth.Name = n)) := by
  unfold enumerationOrder at h
  rcases List.mem_append.1 h with h1 | h1
  · obtain ⟨hm, hv⟩ := List.mem_filter.1 h1
    obtain ⟨f, hf, hn⟩ := List.mem_map.1 hm
    exact ⟨hv, Or.inl ⟨f, hf, hn⟩⟩
  · obtain ⟨hm, hv⟩ := List.mem_filter.1 h1
    obtain ⟨meth, hf, hn⟩ := List.mem_map.1 hm
    exact ⟨hv, Or.inr ⟨meth, hf, hn⟩⟩

theorem FieldByName_of_mem (t : StructType) (f : StructField) (hf : f ∈ t.fields) :
    ∃ k ft, t.FieldByName f.Name = some (k, ft) := by
  unfold StructType.FieldByName
  cases hidx : t.fields.findIdx? (fun g => g.Name == f.Name) with
  | none =>
    rw [List.findIdx?_eq_none_iff] at hidx
    have := hidx f hf
    simp at this
  | some i =>
    obtain ⟨a, ha, _⟩ := findIdx_some_get _ _ _ hidx
    exact ⟨i, a, by simp [ha]⟩

theorem MethodByName_of_mem (v : RecordValue) (meth : Method) (h : meth ∈ v.methodSet) :
    v.MethodByName meth.Name = .method meth.Name := by
  unfold RecordValue.MethodByName
  cases hf : v.methodSet.find? (fun m => m.Name == meth.Name) with
  | none =>
    rw [List.find?_eq_none] at hf
    exact absurd (by simp) (hf meth h)
  | some m2 =>
    have hn : m2.Name = meth.Name := by simpa using List.find?_some hf
    simp [hn]

/-- What `getValue` returns for an enumerated name: for every name that `goStructEnumerate`
passes to `each` before `objectEnumerate`, when `fieldIndexByName` gives no index or the index
of a field, `getValue` returns a member, and this member is the zero value exactly when
`fieldIndexByName` gives no index and the field of that name has the `otto` tag `-`. -/
theorem enumerate_lookup (fieldIndexByName : StructType → GoString → List Nat)
    (o : goStructObject) (fuel : Nat) (n : GoString)
    (hn : n ∈ enumerationOrder o)
    (hidx : fieldIndexByName o.value.typ n = [] ∨
      ∃ j, fieldIndexByName o.value.typ n = [j] ∧ j < o.value.typ.fields.length) :
    ∃ m, getValue fieldIndexByName o (fuel + 1) n = .ok m ∧
      (m.IsValid = false ↔
        (fieldIndexByName o.value.typ n = [] ∧
          ∃ k ft, o.value.typ.FieldByName n = some (k, ft) ∧
            ft.Tag.Get structTag = structTagIgnoreValue)) := by
  obtain ⟨hvalid, hmem⟩ := mem_enumerationOrder o n hn
  rcases hidx with h0 | ⟨j, hj, hlt⟩
  · cases hfb : o.value.typ.FieldByName n with
    | some p =>
      obtain ⟨k, ft⟩ := p
      by_cases htag : ft.Tag.Get structTag = structTagIgnoreValue
      · refine ⟨.zero, ?_, ?_⟩
        · simp [getValue, h0, hvalid, hfb, htag]
        · exact ⟨fun _ => ⟨h0, k, ft, rfl, htag⟩, fun _ => rfl⟩
      · refine ⟨.field k, ?_, ?_⟩
        · simp [getValue, h0, hvalid, hfb, htag, RecordValue.FieldByName, MemberValue.IsValid]
        · constructor
          · intro h
            simp [MemberValue.IsValid] at h
          · rintro ⟨_, k2, ft2, he, ht⟩
            obtain ⟨_, rfl⟩ := Prod.mk.inj (Option.some.inj he)
            exact absurd ht htag
    | none =>
      have hmeth : ∃ meth ∈ o.value.methodSet, meth.Name = n := by
        rcases hmem with ⟨f, hf, hfn⟩ | h
        · obtain ⟨k, ft, hk⟩ := FieldByName_of_mem o.value.typ f hf
          rw [hfn, hfb] at hk
          cases hk
        · exact h
      obtain ⟨meth, hm, hmn⟩ := hmeth
      have hmb := MethodByName_of_mem o.value meth hm
      rw [hmn] at hmb
      refine ⟨.method n, ?_, ?_⟩
      · simp [getValue, h0, hvalid, hfb, RecordValue.FieldByName, hmb, MemberValue.IsValid]
      · constructor
        · intro h
          simp [MemberValue.IsValid] at h
        · rintro ⟨_, k2, ft2, he, _⟩
          cases he
  · refine ⟨.field j, ?_, ?_⟩
    · simp [getValue, hj, RecordValue.FieldByIndex, hlt]
    · constructor
      · intro h
        simp [MemberValue.IsValid] at h
      · rintro ⟨h0, _⟩
        rw [hj] at h0
        cases h0

/-- The names of `struct{ Hidden int; Val int }` with the method `Get`, enumerated and looked
up with a lookup that resolves no name: `Hidden` gives the zero value and is handed to
`objectGetOwnProperty`, `Val` and `Get` give members. -/
theorem enumerate_lookup_test :
    enumerationOrder ⟨hiddenMethodPointer, []⟩ = [str "Hidden", str "Val", str "Get"] ∧
    (enumerationOrder ⟨hiddenMethodPointer, []⟩).map
        (fun n => getValue noIndex ⟨hiddenMethodPointer, []⟩ 1 n)
      = [.ok .zero, .ok (.field 1), .ok (.method (str "Get"))] ∧
    goStructCanPut noIndex ⟨hiddenMethodPointer, []⟩ 1 (str "Hidden")
      = .ok (.objectCanPut (str "Hidden")) := by decide

/-- Claim C27: on every host record, when `fieldIndexByName` resolves the Go name of every
field whose name passes `validGoStructName` to the index of a field, and gives for the name
looked up no index or the index of a field, every name that `goStructEnumerate` passes to `each`
before `objectEnumerate` has a valid `getValue`, and `goStructGetOwnProperty` makes a property of
mode `0o110` from this member. -/
theorem enumerated_names_valid {V : Type}
    (fieldIndexByName : StructType → GoString → List Nat)
    (toValue : RecordValue → MemberValue → V)
    (o : goStructObject) (fuel : Nat) (n : GoString)
    (hn : n ∈ enumerationOrder o)
    (hfields : ∀ f ∈ o.value.typ.fields, validGoStructName f.Name = true →
      ∃ j, fieldIndexByName o.value.typ f.Name = [j] ∧ j < o.value.typ.fields.length)
    (hother : fieldIndexByName o.value.typ n = [] ∨
      ∃ j, fieldIndexByName o.value.typ n = [j] ∧ j < o.value.typ.fields.length) :
    ∃ m, getValue fieldIndexByName o (fuel + 1) n = .ok m ∧ m.IsValid = true ∧
      goStructGetOwnProperty fieldIndexByName toValue o (fuel + 1) n
        = .ok (.property (toValue o.value m) 72) := by
  obtain ⟨m, hm, hiff⟩ := enumerate_lookup fieldIndexByName o fuel n hn hother
  have hvalid : m.IsValid = true := by
    cases hv : m.IsValid with
    | true => rfl
    | false =>
      obtain ⟨h0, k, ft, hfb, _⟩ := hiff.1 hv
      obtain ⟨hk, hname⟩ := FieldByName_some _ _ _ _ hfb
      obtain ⟨j, hj, _⟩ := hfields ft (List.getElem?_mem hk)
        (by rw [hname]; exact (mem_enumerationOrder o n hn).1)
      rw [hname, h0] at hj
      cases hj
  refine ⟨m, hm, hvalid, ?_⟩
  simp [goStructGetOwnProperty, hm, hvalid]

/-- Claim C27, the theorem at a pointer to `struct{ Hidden int; Val int }{1, 2}` with the method
`Get`, whose first field has the tag `otto:"-"`, with the lookup `indexByGoName`: the enumerated
name `Hidden` has a valid `getValue`. -/
theorem enumerated_names_valid_witness :
    enumerationOrder ⟨hiddenMethodPointer, []⟩ = [str "Hidden", str "Val", str "Get"] ∧
    getValue indexByGoName ⟨hiddenMethodPointer, []⟩ 1 (str "Hidden") = .ok (.field 0) ∧
    ∃ m, getValue indexByGoName ⟨hiddenMethodPointer, []⟩ 1 (str "Hidden") = .ok m ∧
      m.IsValid = true ∧
      goStructGetOwnProperty indexByGoName memberAndValue ⟨hiddenMethodPointer, []⟩ 1
          (str "Hidden")
        = .ok (.property (memberAndValue hiddenMethodPointer m) 72) :=
  ⟨by decide, by decide,
    enumerated_names_valid indexByGoName memberAndValue ⟨hiddenMethodPointer, []⟩ 0
      (str "Hidden") (by decide)
      (fun f hf hv => indexByGoName_resolves hiddenMethodPointer.typ f hf hv)
      (indexByGoName_shape hiddenMethodPointer.typ (str "Hidden"))⟩

/-- The field `Éa` is exported, its name starting with an upper-case letter that is not ASCII,
and `validGoStructName` is false for its name; the field follows the rule of Go on names that
start with an ASCII byte. -/
theorem exported_field_not_valid :
    unicodeField.IsExported = true ∧ validGoStructName unicodeField.Name = false ∧
    unicodeField.asciiExportRule := by
  refine ⟨by decide, by decide, ?_⟩
  intro b rest hname hb
  have h : b = 195 := by
    have := congrArg List.head? hname
    simp [unicodeField] at this
    exact this.symm
  omega

/-- Where the two visibility tests agree: for every field of a Go struct type, whose name is not
empty and which, when the name starts with an ASCII byte, is exported exactly when this byte is a
capital letter, `validGoStructName` of the name implies that the field is exported, and the two
tests agree when the name starts with an ASCII byte. -/
theorem visibility_tests_ascii (f : StructField) (hrule : f.asciiExportRule) :
    (validGoStructName f.Name = true → f.IsExported = true) ∧
    (∀ b rest, f.Name = b :: rest → b < 128 → validGoStructName f.Name = f.IsExported) := by
  constructor
  · intro hv
    cases hname : f.Name with
    | nil => simp [hname, validGoStructName] at hv
    | cons b rest =>
      simp only [hname, validGoStructName, Bool.and_eq_true, decide_eq_true_eq] at hv
      exact (hrule b rest hname (by omega)).2 hv
  · intro b rest hname hb
    have h := hrule b rest hname hb
    cases hexp : f.IsExported with
    | true =>
      have := h.1 hexp
      simp [hname, validGoStructName, this]
    | false =>
      have hnot : ¬ (65 ≤ b ∧ b ≤ 90) := fun hc => by
        have := h.2 hc
        rw [hexp] at this
        cases this
      simp only [hname, validGoStructName, Bool.and_eq_false_iff, decide_eq_false_iff_not]
      by_cases h1 : 65 ≤ b
      · exact Or.inr (fun h2 => hnot ⟨h1, h2⟩)
      · exact Or.inl h1

/-- The agreement of the two tests at the field `Val int`: both say yes. -/
theorem visibility_tests_ascii_example :
    validGoStructName valField.Name = valField.IsExported ∧ valField.IsExported = true :=
  have h := visibility_tests_ascii valField (by
    intro b rest hname hb
    have hb2 : b = 86 := by
      have := congrArg List.head? hname
      simp [valField, str] at this
      exact this.symm
    subst hb2
    exact ⟨fun _ => by decide, fun _ => by decide⟩)
  ⟨h.2 86 (str "al") (by decide) (by decide), by decide⟩

/-- Claim C25 fails on the code at the field `Éa` of `struct{ Éa int }{10}`, whose name starts
with an upper-case letter that is not ASCII: the field is exported, and `newGoStructObject`,
which tests `IsExported`, binds an alias to its Go name in the alias table; but
`validGoStructName`, which tests the first byte, is false for the name, so that
`goStructEnumerate` passes no name of the record to `each`. -/
theorem visibility_tests_disagree :
    unicodeRecord.typ.fields = [unicodeField] ∧
    unicodeField.IsExported = true ∧
    validGoStructName unicodeField.Name = false ∧
    newGoStructObject unicodeRecord true
      = .ok ⟨unicodeRecord, [([239, 191, 189, 137, 97], unicodeField.Name)]⟩ ∧
    enumerationOrder ⟨unicodeRecord, [([239, 191, 189, 137, 97], unicodeField.Name)]⟩ = [] ∧
    goStructEnumerate ⟨unicodeRecord, [([239, 191, 189, 137, 97], unicodeField.Name)]⟩ true
      (recordNames (fun _ => true)) [] = .objectEnumerate true [] := by
  decide

/-- Claim C29: for every name that starts with an ASCII byte `b`, `lowerFirst` returns the name
with the lower case of `b` in the place of `b`, of the same length and with the same later
bytes, and `lowerFirst` of the result is the result; and for every name `s` that satisfies
`validGoStructName`, `lowerFirst` returns a name that differs from `s` and does not satisfy
`validGoStructName`. -/
theorem lowerFirst_ascii (b : Nat) (rest s : GoString) (hb : b < 128)
    (hs : validGoStructName s = true) :
    lowerFirst (b :: rest) = .ok (asciiLower b :: rest) ∧
    (asciiLower b :: rest).length = (b :: rest).length ∧
    (∀ i, (asciiLower b :: rest)[i + 1]? = (b :: rest)[i + 1]?) ∧
    lowerFirst (asciiLower b :: rest) = .ok (asciiLower b :: rest) ∧
    ∃ lower, lowerFirst s = .ok lower ∧ lower ≠ s ∧ validGoStructName lower = false ∧
      lower.length = s.length := by
  have hlow : asciiLower b < 128 := by
    unfold asciiLower
    split <;> omega
  have hidem : asciiLower (asciiLower b) = asciiLower b := by
    by_cases h : 65 ≤ b ∧ b ≤ 90
    · have h2 : ¬ (65 ≤ b + 32 ∧ b + 32 ≤ 90) := by omega
      have e1 : asciiLower b = b + 32 := by unfold asciiLower; rw [if_pos h]
      rw [e1]
      unfold asciiLower
      rw [if_neg h2]
    · have e1 : asciiLower b = b := by unfold asciiLower; rw [if_neg h]
      rw [e1, e1]
  have h1 : ∀ c r, c < 128 → lowerFirst (c :: r) = .ok (asciiLower c :: r) := by
    intro c r hc
    simp [lowerFirst, toLowerByte, hc, asciiLower]
  refine ⟨h1 b rest hb, rfl, fun i => rfl, ?_, ?_⟩
  · rw [h1 _ rest hlow, hidem]
  · cases s with
    | nil => simp [validGoStructName] at hs
    | cons c r =>
      simp only [validGoStructName, Bool.and_eq_true, decide_eq_true_eq] at hs
      have hc : c < 128 := by omega
      have hlc : asciiLower c = c + 32 := by simp [asciiLower, hs]
      refine ⟨asciiLower c :: r, h1 c r hc, ?_, ?_, rfl⟩
      · intro he
        have := (List.cons.inj he).1
        omega
      · simp only [validGoStructName, hlc, Bool.and_eq_false_iff, decide_eq_false_iff_not]
        exact Or.inr (by omega)

/-- Claim C29, the theorem at `Val`: `lowerFirst` gives `val`. -/
theorem lowerFirst_ascii_witness :
    lowerFirst (str "Val") = .ok (str "val") ∧ lowerFirst (str "val") = .ok (str "val") ∧
    ∃ lower, lowerFirst (str "Val") = .ok lower ∧ lower ≠ str "Val" ∧
      validGoStructName lower = false ∧ lower.length = (str "Val").length :=
  have h := lowerFirst_ascii 86 (str "al") (str "Val") (by decide) (by decide)
  ⟨h.1, h.2.2.2.1, h.2.2.2.2⟩

/-- What `lowerFirst` does outside of the claim: a first byte that is not ASCII becomes the
three bytes of U+FFFD, and the empty name is a panic. -/
theorem lowerFirst_test :
    lowerFirst [195, 137, 97] = .ok [239, 191, 189, 137, 97] ∧ lowerFirst [] = .error .panic ∧
    lowerFirst (str "_x") = .ok (str "_x") := by decide

/-! ## The claim on `checkComments` -/

theorem checkCommentsLoop_spec (expected : List GoString) (position : Nat) :
    ∀ (comments : List Comment) (i : Nat), (∀ c ∈ comments, c.Position = position) →
      i + comments.length = expected.length →
      ∃ r, checkCommentsLoop expected position i comments = .ok r ∧
        (r = none ↔ comments.map (fun c => c.Text) = expected.drop i) ∧
        ∀ p q, r ≠ some (.positionsDoNotMatch p q)
  | [], i, _, hlen => by
    refine ⟨none, rfl, ?_, fun p q h => by cases h⟩
    have : expected.drop i = [] := by
      rw [List.drop_eq_nil_iff]
      simp at hlen
      omega
    simp [this]
  | v :: rest, i, hpos, hlen => by
    have hi : i < expected.length := by
      simp at hlen
      omega
    have hget : expected[i]? = some expected[i] := List.getElem?_eq_getElem hi
    have hdrop : expected.drop i = expected[i] :: expected.drop (i + 1) :=
      List.drop_eq_getElem_cons hi
    have hv : v.Position = position := hpos v (List.mem_cons_self _ _)
    unfold checkCommentsLoop
    rw [hget]
    by_cases ht : v.Text = expected[i]
    · have hnt : ¬ v.Text ≠ expected[i] := fun h => h ht
      have hnp : ¬ v.Position ≠ position := fun h => h hv
      simp only [if_neg hnt, if_neg hnp]
      obtain ⟨r, hr, hiff, hno⟩ := checkCommentsLoop_spec expected position rest (i + 1)
        (fun c hc => hpos c (List.mem_cons_of_mem _ hc)) (by simp at hlen; omega)
      refine ⟨r, hr, ?_, hno⟩
      rw [hiff, hdrop, List.map_cons, ht]
      constructor
      · intro h
        rw [h]
      · intro h
        exact (List.cons.inj h).2
    · have hnt : v.Text ≠ expected[i] := ht
      simp only [if_pos hnt]
      refine ⟨_, rfl, ?_, fun p q h => by cases h⟩
      constructor
      · intro h
        cases h
      · intro h
        rw [hdrop, List.map_cons] at h
        exact absurd (List.cons.inj h).1 ht

/-- Claim C30: `checkComments` returns, and it returns nil exactly when the texts of the
comments of `actual` whose position is `position`, in their order, are the strings of
`expected`; the error on the positions is never returned; and two lists of comments with the
same comments at `position` get the same result, whatever comments they have at other
positions. -/
theorem checkComments_nil_iff (actual : List Comment) (expected : List GoString)
    (position : Nat) :
    ∃ r, checkComments actual expected position = .ok r ∧
      (r = none ↔
        (actual.filter (fun c => c.Position == position)).map (fun c => c.Text) = expected) ∧
      (∀ p q, r ≠ some (.positionsDoNotMatch p q)) ∧
      (∀ others,
        others.filter (fun c => c.Position == position)
            = actual.filter (fun c => c.Position == position) →
          checkComments others expected position = .ok r) := by
  have hpos : ∀ c ∈ actual.filter (fun c => c.Position == position), c.Position = position := by
    intro c hc
    simpa using (List.mem_filter.1 hc).2
  by_cases hlen : (actual.filter (fun c => c.Position == position)).length = expected.length
  · obtain ⟨r, hr, hiff, hno⟩ := checkCommentsLoop_spec expected position
      (actual.filter (fun c => c.Position == position)) 0 hpos (by omega)
    have hne : ¬ (actual.filter (fun c => c.Position == position)).length ≠ expected.length :=
      fun h => h hlen
    refine ⟨r, ?_, ?_, hno, ?_⟩
    · unfold checkComments
      rw [if_neg hne]
      exact hr
    · rw [hiff, List.drop_zero]
    · intro others ho
      unfold checkComments
      rw [ho, if_neg hne]
      exact hr
  · refine ⟨some (.numberNotCorrect
      (actual.filter (fun c => c.Position == position)).length expected.length),
      ?_, ?_, (fun p q h => by cases h), ?_⟩
    · unfold checkComments
      rw [if_pos hlen]
    · constructor
      · intro h
        cases h
      · intro h
        exact absurd (by rw [← h, List.length_map]) hlen
    · intro others ho
      unfold checkComments
      rw [ho, if_pos hlen]

/-- Calls of `checkComments` as in `TestParser_comments`: the comments at the position asked
for, in their order, against the expected texts. -/
theorem checkComments_test :
    checkComments [⟨str " Hej", 2⟩, ⟨str "x", 1⟩] [str " Hej"] 2 = .ok none ∧
    checkComments [⟨str " Hej", 2⟩, ⟨str "x", 1⟩] [str "x", str " Hej"] 2
      = .ok (some (.numberNotCorrect 1 2)) ∧
    checkComments [⟨str "a", 2⟩, ⟨str "b", 2⟩] [str "b", str "a"] 2
      = .ok (some (.doNotMatch (str "a") (str "b"))) ∧
    checkComments [] [] 0 = .ok none := by decide


end Otto
